import Mathlib

/-!
Verification of the concurrency bounded mapping combinators of this
repository: the batch scheduler `pMap`, the streaming scheduler
`pMapIterable`, the `pMapSkip` sentinel, and the argument validation of
both entry points.

The JavaScript source is single threaded and cooperative: all scheduler
state mutation happens in synchronous stretches between `await` suspension
points.  We embed each scheduler as a small step state machine whose
events are exactly the resumptions of those suspended stretches; an event
executes one maximal synchronous stretch of the source atomically.  A
schedule (a list of events) chooses the order in which suspended
computations resume, which captures every completion order interleaving
the event loop can produce.  Disabled events are identity steps, so
quantifying over all event lists quantifies over all interleavings.

The skip sentinel is identity compared in the source (`value === pMapSkip`);
here it becomes a dedicated constructor of the mapper outcome type, which
is faithful because the sentinel is unforgeable.
-/

set_option linter.unusedVariables false

namespace PMapSpec

/-- A concurrency or backpressure bound after validation: a positive
integer or `Infinity`. -/
inductive Conc
  | fin (n : Nat)
  | inf
deriving DecidableEq, Repr

/-- The JavaScript test `i < c` where `c` may be `Infinity`. -/
def concLt (i : Nat) : Conc → Bool
  | .fin n => decide (i < n)
  | .inf => true

/-- The proposition `k ≤ c` where `c` may be `Infinity`. -/
def concLe (k : Nat) : Conc → Prop
  | .fin n => k ≤ n
  | .inf => True

/-- One result of calling `iterator.next()`: an element, the end of the
iteration, or a synchronous throw from the source itself. -/
inductive SrcStep (α ε : Type)
  | yields (a : α)
  | done
  | throws (e : ε)

/-- The classified outcome of one mapper invocation on one element:
a value, the `pMapSkip` sentinel, or a throw or rejection. -/
inductive MOut (β ε : Type)
  | value (b : β)
  | skip
  | fail (e : ε)
deriving DecidableEq, Repr

/-- A cell written into the batch result array `result[index] = value`
(line 215): either a mapper value or the skip sentinel. -/
inductive Cell (β : Type)
  | val (b : β)
  | skipMark
deriving DecidableEq, Repr

/-- A rejection reason of the `pMap` promise: a raw error, an
`AggregateError` wrapping a list of errors, or the reason of an abort
signal.  Keeping these apart records whether an error was wrapped. -/
inductive Reason (ε ρ : Type)
  | plain (e : ε)
  | aggregate (es : List ε)
  | abortReason (r : ρ)
deriving DecidableEq, Repr

/-- Settlement of the `pMap` promise.  The `ok` payload is the resolved
array verbatim: each slot is `none` for an array hole (JavaScript
`undefined`) or the cell that was written. -/
inductive Settled (β ε ρ : Type)
  | ok (l : List (Option (Cell β)))
  | rejected (r : Reason ε ρ)
deriving DecidableEq, Repr

variable {α β ε ρ : Type}

/-- Parameters of one `pMap` invocation.  `source k` is what the `k`-th
call of `iterator.next()` produces; `mapper i a` is the classified outcome
of the mapper on element `a` at index `i` (the outcome is a function of
the input; when it is observed is the schedule's choice).  `signal` is
the abort signal's reason when a signal was supplied, and `preAborted`
says whether that signal was already triggered at call time. -/
structure Cfg (α β ε ρ : Type) where
  source : Nat → SrcStep α ε
  mapper : Nat → α → MOut β ε
  concurrency : Conc
  stopOnError : Bool
  signal : Option ρ
  preAborted : Bool

/-- The scheduler state of one `pMap` call: the mutable variables of
lines 112-119 plus bookkeeping ghosts.  `inFlight` holds the indices of
detached tasks that have been spawned and whose completion event has not
fired yet; `pullCount` counts calls of `iterator.next()`; `completedLog`
records indices in completion order; `failLog` records observed mapper
failures in completion order; `initI`, `initCalls`, `initActive` model
the ramp up loop of lines 246-259. -/
structure St (β ε ρ : Type) where
  result : List (Option (Cell β)) := []
  errors : List ε := []
  skippedIndexes : List Nat := []
  isRejected : Bool := false
  isResolved : Bool := false
  isIterableDone : Bool := false
  resolvingCount : Int := 0
  currentIndex : Nat := 0
  settledVal : Option (Settled β ε ρ) := none
  pullCount : Nat := 0
  inFlight : List Nat := []
  initI : Nat := 0
  initActive : Bool := true
  initCalls : Nat := 0
  abortFired : Bool := false
  mapperCalls : Nat := 0
  completedLog : List Nat := []
  failLog : List ε := []
deriving Repr

/-- Settle the promise if it is still pending: a promise settles only
once, later resolve or reject calls are no ops on its value. -/
def settle1 (s : St β ε ρ) (v : Settled β ε ρ) : St β ε ρ :=
  match s.settledVal with
  | some _ => s
  | none => { s with settledVal := some v }

/-- The local `reject` helper (lines 138-143): set both flags and reject
the promise (first settlement wins). -/
def rejectSt (s : St β ε ρ) (r : Reason ε ρ) : St β ε ρ :=
  let s1 := settle1 s (.rejected r)
  { s1 with isRejected := true, isResolved := true }

/-- The local `resolve` helper (lines 133-136); the `isResolved` flag is
set by its caller (line 175) before calling it. -/
def resolveSt (s : St β ε ρ) (l : List (Option (Cell β))) : St β ε ρ :=
  settle1 s (.ok l)

/-- JavaScript array assignment `l[i] = x`: set in place when the index
exists, otherwise extend the array padding with holes. -/
def writeAt {X : Type} (l : List (Option X)) (i : Nat) (x : X) : List (Option X) :=
  if i < l.length then l.set i (some x)
  else l ++ List.replicate (i - l.length) none ++ [some x]

/-- The compaction loop of lines 182-190: iterate `result.entries()` and
keep the entries whose index is not a recorded skip index. -/
def compact {X : Type} (l : List X) (skipped : List Nat) : List X :=
  l.enum.filterMap fun p => if p.1 ∈ skipped then none else some p.2

/-- Mapper outcome for the element produced at pull position `i` (for the
batch machine, index and pull position coincide). -/
def outAt (cfg : Cfg α β ε ρ) (i : Nat) : Option (MOut β ε) :=
  match cfg.source i with
  | .yields a => some (cfg.mapper i a)
  | _ => none

/-- One call of the async function `next` (lines 152-238) collapsed to its
synchronous state effect: the early `isResolved` return (line 153), one
pull of the iterator, the done handling with shutdown logic (lines
166-196), or the spawn of a detached task (lines 198-237, whose body runs
at its later `complete` event).  The second component is `some e` when
`iterator.next()` threw, which the source propagates to the caller of
`next`. -/
def doNext (cfg : Cfg α β ε ρ) (s0 : St β ε ρ) : St β ε ρ × Option ε :=
  if s0.isResolved then (s0, none)
  else
    let k := s0.pullCount
    let s := { s0 with pullCount := k + 1 }
    match cfg.source k with
    | .throws e => (s, some e)
    | .done =>
        let s := { s with currentIndex := s.currentIndex + 1, isIterableDone := true }
        if s.resolvingCount = 0 ∧ s.isResolved = false then
          if cfg.stopOnError = false ∧ 0 < s.errors.length then
            (rejectSt s (.aggregate s.errors), none)
          else
            let s := { s with isResolved := true }
            if s.skippedIndexes.length = 0 then (resolveSt s s.result, none)
            else (resolveSt s (compact s.result s.skippedIndexes), none)
        else (s, none)
    | .yields _ =>
        let idx := s.currentIndex
        ({ s with currentIndex := idx + 1,
                  resolvingCount := s.resolvingCount + 1,
                  inFlight := s.inFlight ++ [idx] }, none)

/-- The retry of `next` in the collect mode catch block (lines 230-234):
one more pull; if that throws too, reject with the raw error. -/
def retryNext (cfg : Cfg α β ε ρ) (s : St β ε ρ) : St β ε ρ :=
  match doNext cfg s with
  | (s1, none) => s1
  | (s1, some e2) => rejectSt s1 (.plain e2)

/-- The chained `await next()` at line 218 together with the enclosing
catch (lines 219-235): on a throw from the pull, fail fast rejects raw;
collect mode records the error, decrements the counter again (the second
decrement for this task) and retries once. -/
def chainNext (cfg : Cfg α β ε ρ) (s : St β ε ρ) : St β ε ρ :=
  match doNext cfg s with
  | (s1, none) => s1
  | (s1, some e) =>
      if cfg.stopOnError then rejectSt s1 (.plain e)
      else
        let s2 := { s1 with errors := s1.errors ++ [e],
                            resolvingCount := s1.resolvingCount - 1 }
        retryNext cfg s2

/-- Processing of one mapper outcome inside the detached task (lines
209-235): a value or the skip sentinel is recorded in the result array
(lines 211-215), the counter is decremented and `next` is chained (lines
217-218); a mapper failure rejects raw under fail fast or is collected
and followed by one chained pull (lines 219-235). -/
def finishTask (cfg : Cfg α β ε ρ) (i : Nat) (o : MOut β ε) (s1 : St β ε ρ) :
    St β ε ρ :=
  match o with
  | .value b =>
      let s := { s1 with result := writeAt s1.result i (.val b),
                         resolvingCount := s1.resolvingCount - 1 }
      chainNext cfg s
  | .skip =>
      let s := { s1 with skippedIndexes := s1.skippedIndexes ++ [i],
                         result := writeAt s1.result i .skipMark,
                         resolvingCount := s1.resolvingCount - 1 }
      chainNext cfg s
  | .fail e =>
      let s := { s1 with failLog := s1.failLog ++ [e] }
      if cfg.stopOnError then rejectSt s (.plain e)
      else
        let s2 := { s with errors := s.errors ++ [e],
                           resolvingCount := s.resolvingCount - 1 }
        retryNext cfg s2

/-- Completion of the detached task of index `i` (lines 201-237): the task
resumes, returns immediately when the promise already settled (line 205),
otherwise the mapper runs and its outcome is processed by
`finishTask`. -/
def completeTask (cfg : Cfg α β ε ρ) (i : Nat) (s0 : St β ε ρ) : St β ε ρ :=
  if i ∈ s0.inFlight then
    let s := { s0 with inFlight := s0.inFlight.erase i }
    if s.isResolved then s
    else
      match outAt cfg i with
      | none => s
      | some o =>
          finishTask cfg i o
            { s with mapperCalls := s.mapperCalls + 1,
                     completedLog := s.completedLog ++ [i] }
  else s0

/-- One iteration of the ramp up loop (lines 246-259): check the loop
guard `i < concurrency`, run `await next()` catching a pull throw as an
immediate raw rejection and break, then break when the iterable is done
or the call rejected, else advance the counter. -/
def initStep (cfg : Cfg α β ε ρ) (s0 : St β ε ρ) : St β ε ρ :=
  if s0.initActive = false then s0
  else if concLt s0.initI cfg.concurrency = false then { s0 with initActive := false }
  else
    let sb := { s0 with initCalls := s0.initCalls + 1 }
    match doNext cfg sb with
    | (s, some e) =>
        let s1 := rejectSt s (.plain e)
        { s1 with initActive := false }
    | (s, none) =>
        if s.isIterableDone || s.isRejected then { s with initActive := false }
        else { s with initI := s.initI + 1 }

/-- Firing of the abort listener (lines 125-127): reject with the signal
reason.  An already aborted signal fires no further abort event, and the
listener is registered once. -/
def abortStep (cfg : Cfg α β ε ρ) (s : St β ε ρ) : St β ε ρ :=
  match cfg.signal with
  | none => s
  | some r =>
      if cfg.preAborted || s.abortFired then s
      else rejectSt { s with abortFired := true } (.abortReason r)

/-- Scheduler events: one ramp up loop iteration, the completion of the
detached task of index `i`, or the abort listener firing.  An event whose
precondition does not hold is an identity step. -/
inductive Ev
  | init
  | complete (i : Nat)
  | abortFire
deriving DecidableEq, Repr

/-- The initial state of one `pMap` call, after the synchronous prefix of
the promise executor ran: when the supplied signal is already aborted the
promise is rejected with its reason before any work starts
(lines 145-150). -/
def initSt (cfg : Cfg α β ε ρ) : St β ε ρ :=
  let s : St β ε ρ := {}
  match cfg.signal with
  | some r => if cfg.preAborted then rejectSt s (.abortReason r) else s
  | none => s

def step (cfg : Cfg α β ε ρ) (s : St β ε ρ) : Ev → St β ε ρ
  | .init => initStep cfg s
  | .complete i => completeTask cfg i s
  | .abortFire => abortStep cfg s

/-- Run the machine under a schedule, which fixes the interleaving of the
event loop. -/
def run (cfg : Cfg α β ε ρ) (evs : List Ev) : St β ε ρ :=
  evs.foldl (step cfg) (initSt cfg)

/-- A canonical greedy scheduler: keep running the ramp up loop, then keep
completing the oldest in flight task.  Used to exhibit a settling
execution for every input. -/
def drive (cfg : Cfg α β ε ρ) : Nat → St β ε ρ → St β ε ρ
  | 0, s => s
  | fuel + 1, s =>
      if s.settledVal.isSome then s
      else if s.initActive then drive cfg fuel (initStep cfg s)
      else
        match s.inFlight with
        | [] => s
        | i :: _ => drive cfg fuel (completeTask cfg i s)

def driveRun (cfg : Cfg α β ε ρ) (fuel : Nat) : St β ε ρ :=
  drive cfg fuel (initSt cfg)

/-- A well behaved synchronous iterator over a list: it yields the
elements in order and then reports done forever, never throwing. -/
def listSource (inp : List α) : Nat → SrcStep α ε := fun k =>
  match inp.get? k with
  | some a => .yields a
  | none => .done

/-- The specified batch output: mapper values in input index order, skip
outcomes removed and the rest compacted.  Slots are wrapped the way the
resolved array stores them. -/
def expectedOut (cfg : Cfg α β ε ρ) (n : Nat) : List (Option (Cell β)) :=
  (List.range n).filterMap fun i =>
    match outAt cfg i with
    | some (.value b) => some (some (.val b))
    | _ => none

/-! The streaming scheduler `pMapIterable` (lines 269-401).  Each spawned
promise is a handle in the `promises` queue; a handle is first waiting on
its `iterator.next()` call, then (if the source yielded) running the
mapper, then settled with one of the four result shapes of
`PMapIterablePromise`.  The `iterator.next()` call of the `k`-th spawned
handle is issued synchronously at spawn time, so it receives the `k`-th
source element; when its promise resolves is the schedule's choice, which
covers both synchronous iterables and async iterators resolving in any
order. -/

/-- The settled shape of one handle promise, mirroring
`PMapIterablePromise` (lines 263-267): `hrDone` is `{done: true}`,
`hrSkip` is `{done: true, value: pMapSkip}` (lines 350-352), `hrValue`
is `{done: false, value}`, `hrError` is `{error}`. -/
inductive HRes (β ε : Type)
  | hrDone
  | hrSkip
  | hrValue (b : β)
  | hrError (e : ε)
deriving DecidableEq, Repr

/-- Lifecycle of one handle: waiting on the pull issued at spawn position
`pos`, running the mapper on element `a`, or settled. -/
inductive HStatus (α β ε : Type)
  | pendingPull (pos : Nat)
  | running (a : α)
  | settledH (r : HRes β ε)
deriving DecidableEq, Repr

structure Handle (α β ε : Type) where
  hid : Nat
  status : HStatus α β ε
deriving DecidableEq, Repr

/-- Parameters of one `pMapIterable` call: `source k` is the element the
`k`-th `iterator.next()` call yields (`none` is end of iteration; the
streaming claims use well behaved sources), `mapper` classifies the
outcome of the mapper on one element. -/
structure ItCfg (α β ε : Type) where
  source : Nat → Option α
  mapper : α → MOut β ε
  concurrency : Conc
  backpressure : Conc

/-- State of the generator of lines 314-400: the `promises` queue, the
counters of lines 320-323, plus the yielded `output`, the `finished` and
`raised` status of the generator, and ghost counters. -/
structure ItSt (α β ε : Type) where
  promises : List (Handle α β ε) := []
  runningMappersCount : Nat := 0
  isDone : Bool := false
  index : Nat := 0
  pullCount : Nat := 0
  nextId : Nat := 0
  mapperCalls : Nat := 0
  output : List β := []
  finished : Bool := false
  raised : Option ε := none
deriving Repr

/-- The `trySpawn` function (lines 325-374): no spawn when `isDone` or
when the running count has reached `concurrency` or the queue has reached
`backpressure`; otherwise one new handle is pushed whose
`iterator.next()` call is issued now (synchronously, inside the async
IIFE before its first await). -/
def trySpawn (cfg : ItCfg α β ε) (s : ItSt α β ε) : ItSt α β ε :=
  if s.isDone
      || !(concLt s.runningMappersCount cfg.concurrency
            && concLt s.promises.length cfg.backpressure) then s
  else
    { s with promises := s.promises ++ [⟨s.nextId, .pendingPull s.pullCount⟩],
             pullCount := s.pullCount + 1,
             nextId := s.nextId + 1 }

def statusOf (ps : List (Handle α β ε)) (h : Nat) : Option (HStatus α β ε) :=
  (ps.find? fun x => x.hid == h).map Handle.status

def setStatus (ps : List (Handle α β ε)) (h : Nat) (st : HStatus α β ε) :
    List (Handle α β ε) :=
  ps.map fun x => if x.hid == h then { x with status := st } else x

/-- The `.then` handler of lines 362-371: when a handle settled as a skip,
find its position in the queue and remove it, but only when the position
is strictly positive; the head is left in place. -/
def spliceSkip (ps : List (Handle α β ε)) (h : Nat) : List (Handle α β ε) :=
  match ps.findIdx? (fun x => x.hid == h) with
  | some (j + 1) => ps.eraseIdx (j + 1)
  | _ => ps

/-- Resolution of the `iterator.next()` promise of handle `h` (lines
334-346): on end of source the handle settles `{done: true}` with no
counter change and no respawn; on an element the running count is
incremented (line 340), `trySpawn` chains (line 343), and the mapper is
invoked with the next `index` (line 346). -/
def pullResolveStep (cfg : ItCfg α β ε) (h : Nat) (s : ItSt α β ε) : ItSt α β ε :=
  match statusOf s.promises h with
  | some (.pendingPull pos) =>
      match cfg.source pos with
      | none => { s with promises := setStatus s.promises h (.settledH .hrDone) }
      | some a =>
          let s1 := { s with runningMappersCount := s.runningMappersCount + 1 }
          let s2 := trySpawn cfg s1
          { s2 with promises := setStatus s2.promises h (.running a),
                    index := s2.index + 1,
                    mapperCalls := s2.mapperCalls + 1 }
  | _ => s

/-- Settlement of the mapper of handle `h` (lines 346-371): a value
decrements the running count (line 348), chains `trySpawn` (line 355) and
settles `{done: false, value}`; the skip sentinel decrements the count,
settles `{done: true, value: pMapSkip}` (no respawn on this path) and the
`.then` handler may splice the handle out; a throw sets `isDone` and
settles `{error}` without decrementing the count. -/
def mapperDoneStep (cfg : ItCfg α β ε) (h : Nat) (s : ItSt α β ε) : ItSt α β ε :=
  match statusOf s.promises h with
  | some (.running a) =>
      match cfg.mapper a with
      | .value b =>
          let s1 := { s with runningMappersCount := s.runningMappersCount - 1 }
          let s2 := trySpawn cfg s1
          { s2 with promises := setStatus s2.promises h (.settledH (.hrValue b)) }
      | .skip =>
          let s1 := { s with runningMappersCount := s.runningMappersCount - 1,
                             promises := setStatus s.promises h (.settledH .hrSkip) }
          { s1 with promises := spliceSkip s1.promises h }
      | .fail e =>
          { s with isDone := true,
                   promises := setStatus s.promises h (.settledH (.hrError e)) }
  | _ => s

/-- One iteration of the consumer loop (lines 378-399), enabled when the
head promise has settled: shift, then `if (error) throw`, then
`if (done) return` — note a skip settles with `done: true`, so a skip
that reaches the head ends the generator here and the
`value === pMapSkip` test of line 394 is unreachable — then `trySpawn`
(line 392) and the value is yielded.  An empty queue ends the loop. -/
def consumeStep (cfg : ItCfg α β ε) (s : ItSt α β ε) : ItSt α β ε :=
  if s.finished then s
  else
    match s.promises with
    | [] => { s with finished := true }
    | h :: rest =>
        match h.status with
        | .settledH r =>
            let s1 := { s with promises := rest }
            match r with
            | .hrError e => { s1 with raised := some e, finished := true }
            | .hrDone => { s1 with finished := true }
            | .hrSkip => { s1 with finished := true }
            | .hrValue b =>
                let s2 := trySpawn cfg s1
                { s2 with output := s2.output ++ [b] }
        | _ => s

/-- Streaming scheduler events: resolution of the pull of handle `h`,
settlement of the mapper of handle `h`, or one consumer loop
iteration. -/
inductive ItEv
  | pullResolve (h : Nat)
  | mapperDone (h : Nat)
  | consume
deriving DecidableEq, Repr

/-- Initial state: the single eager `trySpawn()` call of line 376. -/
def itInit (cfg : ItCfg α β ε) : ItSt α β ε :=
  trySpawn cfg {}

def itStep (cfg : ItCfg α β ε) (s : ItSt α β ε) : ItEv → ItSt α β ε
  | .pullResolve h => pullResolveStep cfg h s
  | .mapperDone h => mapperDoneStep cfg h s
  | .consume => consumeStep cfg s

def itRun (cfg : ItCfg α β ε) (evs : List ItEv) : ItSt α β ε :=
  evs.foldl (itStep cfg) (itInit cfg)

/-- Number of mapper invocations currently in flight: the handles whose
status is `running`. -/
def runningHandles (s : ItSt α β ε) : Nat :=
  (s.promises.filter fun x =>
    match x.status with
    | .running _ => true
    | _ => false).length

/-! Argument validation (lines 86-110 for `pMap`, lines 279-312 for
`pMapIterable`).  JavaScript numbers that matter here are finite rationals
(floats carrying an exact rational value), the two infinities, and NaN. -/

inductive TypeErr
  | notIterable
  | mapperRequired
  | badConcurrency
  | badBackpressure
deriving DecidableEq, Repr

/-- What the validation observes about the `iterable` argument:
whether `Symbol.iterator` or `Symbol.asyncIterator` is present. -/
structure IterableArg where
  hasSymbolIterator : Bool
  hasSymbolAsyncIterator : Bool
deriving DecidableEq, Repr

/-- What the validation observes about the `mapper` argument. -/
structure MapperArg where
  isFunction : Bool
deriving DecidableEq, Repr

inductive JsNum
  | finite (q : ℚ)
  | posInf
  | negInf
  | nanV
deriving DecidableEq, Repr

/-- The `Number.isSafeInteger` test: an integer of magnitude at most
`2 ^ 53 - 1`. -/
def isSafeInteger : JsNum → Bool
  | .finite q => decide (q.den = 1 ∧ q.num.natAbs ≤ 2 ^ 53 - 1)
  | _ => false

/-- The JavaScript comparison `a >= b`; false whenever NaN is involved. -/
def jsGe : JsNum → JsNum → Bool
  | .nanV, _ => false
  | _, .nanV => false
  | .posInf, _ => true
  | .negInf, .negInf => true
  | .negInf, _ => false
  | .finite _, .posInf => false
  | .finite _, .negInf => true
  | .finite q, .finite r => decide (r ≤ q)

def isPosInf : JsNum → Bool
  | .posInf => true
  | _ => false

/-- The concurrency validation of lines 101-110 and 292-301:
`(Number.isSafeInteger(concurrency) && concurrency >= 1) ||
concurrency === Number.POSITIVE_INFINITY`. -/
def validConcurrency (c : JsNum) : Bool :=
  (isSafeInteger c && jsGe c (.finite 1)) || isPosInf c

/-- The backpressure validation of lines 303-312:
`(Number.isSafeInteger(backpressure) && backpressure >= concurrency) ||
backpressure === Number.POSITIVE_INFINITY`. -/
def validBackpressure (b c : JsNum) : Bool :=
  (isSafeInteger b && jsGe b c) || isPosInf b

/-- The validation sequence of `pMap` (lines 86-110), in source order. -/
def validatePMap (it : IterableArg) (m : MapperArg) (c : JsNum) : Option TypeErr :=
  if !(it.hasSymbolIterator || it.hasSymbolAsyncIterator) then some .notIterable
  else if !m.isFunction then some .mapperRequired
  else if !validConcurrency c then some .badConcurrency
  else none

/-- The validation sequence of `pMapIterable` (lines 279-312), in source
order. -/
def validatePMapIterable (it : IterableArg) (m : MapperArg) (c b : JsNum) :
    Option TypeErr :=
  if !(it.hasSymbolIterator || it.hasSymbolAsyncIterator) then some .notIterable
  else if !m.isFunction then some .mapperRequired
  else if !validConcurrency c then some .badConcurrency
  else if !validBackpressure b c then some .badBackpressure
  else none

/-- A full `pMap` call: validation runs synchronously in the promise
executor before the iterator is obtained (line 120); only on success does
the scheduler run.  The error result carries no scheduler state at all:
no item was pulled and no mapper was invoked. -/
def pMapChecked (it : IterableArg) (m : MapperArg) (c : JsNum)
    (cfg : Cfg α β ε ρ) (evs : List Ev) : Except TypeErr (St β ε ρ) :=
  match validatePMap it m c with
  | some err => .error err
  | none => .ok (run cfg evs)

/-- A full `pMapIterable` call: validation throws synchronously before the
generator of line 314 is created. -/
def pMapIterableChecked (it : IterableArg) (m : MapperArg) (c b : JsNum)
    (cfg : ItCfg α β ε) (evs : List ItEv) : Except TypeErr (ItSt α β ε) :=
  match validatePMapIterable it m c b with
  | some err => .error err
  | none => .ok (itRun cfg evs)

/-! Derived views of a batch configuration and the statements of the
invariants. -/

/-- The cell the task of index `i` writes into the result array, when its
outcome is a value or a skip. -/
def listCell (cfg : Cfg α β ε ρ) (i : Nat) : Option (Cell β) :=
  match outAt cfg i with
  | some (.value b) => some (.val b)
  | some .skip => some .skipMark
  | _ => none

/-- The error the task of index `i` observes, when its mapper fails. -/
def errOf (cfg : Cfg α β ε ρ) (i : Nat) : Option ε :=
  match outAt cfg i with
  | some (.fail e) => some e
  | _ => none

/-- Whether the mapper outcome at index `i` is the skip sentinel. -/
def isSkipIdx (cfg : Cfg α β ε ρ) (i : Nat) : Bool :=
  match outAt cfg i with
  | some .skip => true
  | _ => false

/-- A positive bound: the ramp up loop runs at least once. -/
def concPos (c : Conc) : Prop :=
  concLt 0 c = true

/-- A well behaved batch configuration: the source iterates a list
without ever throwing, and no abort signal is supplied. -/
structure Nice (cfg : Cfg α β ε ρ) (inp : List α) : Prop where
  src : cfg.source = listSource inp
  sig : cfg.signal = none

/-- Counting invariant behind the concurrency bound of `pMap`: every in
flight task holds one permit created by a ramp up loop iteration, and the
loop runs at most `concurrency` times.  This holds for every
configuration, including throwing sources and abort signals. -/
structure InvCount (cfg : Cfg α β ε ρ) (s : St β ε ρ) : Prop where
  ifBound : s.inFlight.length ≤ s.initCalls
  icBound : concLe s.initCalls cfg.concurrency
  icEq : s.initActive = true → s.initCalls = s.initI

/-- The master invariant of the batch scheduler for well behaved
configurations.  Components that speak about in flight bookkeeping are
conditioned on the promise being unsettled, because after settlement
detached tasks still resume and are discarded; the settled components are
frozen facts about the final value. -/
structure Inv (cfg : Cfg α β ε ρ) (inp : List α) (s : St β ε ρ) : Prop where
  curEq : s.currentIndex = s.pullCount
  logSub : ∀ i ∈ s.completedLog, i < min s.pullCount inp.length
  logNodup : s.completedLog.Nodup
  failEq : s.failLog = s.completedLog.filterMap (errOf cfg)
  errEq : s.errors = if cfg.stopOnError then [] else s.failLog
  skipEq : s.skippedIndexes = s.completedLog.filter (fun i => isSkipIdx cfg i)
  resGet : ∀ j c, s.result.get? j = some (some c) →
    j ∈ s.completedLog ∧ listCell cfg j = some c
  resSet : ∀ j ∈ s.completedLog, ∀ c, listCell cfg j = some c →
    s.result.get? j = some (some c)
  resLen : s.result.length ≤ inp.length
  mcEq : s.mapperCalls = s.completedLog.length
  resolvedIff : s.isResolved = s.settledVal.isSome
  flightNodup : s.inFlight.Nodup
  flightPart : s.settledVal = none →
    ∀ i, (i ∈ s.inFlight ∨ i ∈ s.completedLog) ↔ i < min s.pullCount inp.length
  flightDisj : s.settledVal = none → ∀ i ∈ s.inFlight, i ∉ s.completedLog
  countEq : s.settledVal = none → s.resolvingCount = s.inFlight.length
  doneIff : s.settledVal = none →
    (s.isIterableDone = true ↔ inp.length < s.pullCount)
  ffEmpty : s.settledVal = none → cfg.stopOnError = true → s.failLog = []
  okChar : ∀ l, s.settledVal = some (.ok l) →
    l = expectedOut cfg inp.length ∧
    (∀ i, i ∈ s.completedLog ↔ i < inp.length) ∧
    (∀ i, errOf cfg i = none) ∧
    s.isIterableDone = true ∧ s.resolvingCount = 0
  plainChar : ∀ e, s.settledVal = some (.rejected (.plain e)) →
    cfg.stopOnError = true ∧ s.failLog = [e]
  aggChar : ∀ es, s.settledVal = some (.rejected (.aggregate es)) →
    cfg.stopOnError = false ∧ es = s.failLog ∧ es ≠ [] ∧
    (∀ i, i ∈ s.completedLog ↔ i < inp.length) ∧
    s.isIterableDone = true ∧ s.resolvingCount = 0
  abortChar : ∀ r, s.settledVal = some (.rejected (.abortReason r)) → False

/-- Termination measure of the greedy driver. -/
def mu (n : Nat) (s : St β ε ρ) : Nat :=
  3 * (n + 1 - min s.pullCount (n + 1)) + s.inFlight.length
    + (if s.initActive then 1 else 0)

/-- Fuel that always suffices for the greedy driver on a list of length
`n`. -/
def pFuel (n : Nat) : Nat :=
  4 * n + 8

/-! Concrete configurations used to settle the claims on explicit
inputs. -/

/-- Scenario A of the specification: `map([1,2,3], x => x*2,
{concurrency: 2})`. -/
def scenarioA : Cfg Nat Nat Nat Nat :=
  { source := listSource [1, 2, 3]
    mapper := fun _ a => .value (a * 2)
    concurrency := .fin 2
    stopOnError := true
    signal := none
    preAborted := false }

/-- A fail fast run: three items, the second mapper rejects with 77. -/
def failFastCfg : Cfg Nat Nat Nat Nat :=
  { source := listSource [1, 2, 3]
    mapper := fun _ a => if a = 2 then .fail 77 else .value a
    concurrency := .fin 2
    stopOnError := true
    signal := none
    preAborted := false }

/-- A collect mode run: three items, the mappers of 2 and 3 reject. -/
def collectCfg : Cfg Nat Nat Nat Nat :=
  { source := listSource [1, 2, 3]
    mapper := fun _ a => if 2 ≤ a then .fail (a * 100) else .value a
    concurrency := .fin 2
    stopOnError := false
    signal := none
    preAborted := false }

/-- A run with an abort signal whose reason is 42, not yet triggered at
call time. -/
def signalCfg : Cfg Nat Nat Nat Nat :=
  { source := listSource [1, 2, 3]
    mapper := fun _ a => .value a
    concurrency := .fin 2
    stopOnError := true
    signal := some 42
    preAborted := false }

/-- The same call with the signal already triggered. -/
def preAbortedCfg : Cfg Nat Nat Nat Nat :=
  { signalCfg with preAborted := true }

/-- An empty input with unbounded concurrency. -/
def emptyCfg : Cfg Nat Nat Nat Nat :=
  { source := listSource []
    mapper := fun _ a => .value a
    concurrency := .inf
    stopOnError := true
    signal := none
    preAborted := false }

/-- A source that yields one item and then throws 9 on the next pull,
then reports done: the hanging collect mode input. -/
def hangSource : Nat → SrcStep Nat Nat
  | 0 => .yields 5
  | 1 => .throws 9
  | _ => .done

def hangCfg : Cfg Nat Nat Nat Nat :=
  { source := hangSource
    mapper := fun _ a => .value a
    concurrency := .fin 1
    stopOnError := false
    signal := none
    preAborted := false }

/-- A source that throws 9 on its very first pull, in collect mode. -/
def rampThrowCfg : Cfg Nat Nat Nat Nat :=
  { source := fun _ => .throws 9
    mapper := fun _ a => .value a
    concurrency := .fin 2
    stopOnError := false
    signal := none
    preAborted := false }

/-- The same first pull throw under fail fast. -/
def rampThrowFailFastCfg : Cfg Nat Nat Nat Nat :=
  { rampThrowCfg with stopOnError := true }

/-- Streaming run that exceeds the concurrency bound: six items, value
mappers, concurrency 2, backpressure 4. -/
def iterOverrunCfg : ItCfg Nat Nat Nat :=
  { source := fun k => if k < 6 then some k else none
    mapper := fun a => .value (a * 10)
    concurrency := .fin 2
    backpressure := .fin 4 }

/-- A schedule of `iterOverrunCfg` reaching three simultaneously running
mappers: two pulls resolve and start mappers, the first mapper finishes
and respawns, the consumer takes the first value and respawns, then both
pending pulls resolve while the second mapper is still running. -/
def iterOverrunEvs : List ItEv :=
  [.pullResolve 0, .pullResolve 1, .mapperDone 0, .consume,
   .pullResolve 2, .pullResolve 3]

/-- Streaming input whose first mapper outcome is the skip sentinel:
two items, concurrency 1. -/
def iterHeadSkipCfg : ItCfg Nat Nat Nat :=
  { source := fun k => if k < 2 then some k else none
    mapper := fun a => if a = 0 then .skip else .value (a * 2)
    concurrency := .fin 1
    backpressure := .fin 1 }

def iterHeadSkipEvs : List ItEv :=
  [.pullResolve 0, .mapperDone 0, .consume]

/-- An empty streaming source. -/
def iterEmptyCfg : ItCfg Nat Nat Nat :=
  { source := fun _ => none
    mapper := fun a => .value a
    concurrency := .fin 2
    backpressure := .fin 2 }

/-- Fields of the batch state that never change once the promise has
settled. -/
def FrozenEq (s t : St β ε ρ) : Prop :=
  t.settledVal = s.settledVal ∧ t.isResolved = s.isResolved ∧
  t.result = s.result ∧ t.errors = s.errors ∧ t.failLog = s.failLog ∧
  t.completedLog = s.completedLog ∧ t.mapperCalls = s.mapperCalls ∧
  t.isIterableDone = s.isIterableDone ∧
  t.resolvingCount = s.resolvingCount ∧ t.pullCount = s.pullCount ∧
  t.skippedIndexes = s.skippedIndexes ∧ t.currentIndex = s.currentIndex

/-- The reading of a valid bound used by the specification: a positive
integer in the mathematical sense, or positive infinity. -/
def jsPosIntOrInf : JsNum → Prop
  | .finite q => q.den = 1 ∧ 1 ≤ q.num
  | .posInf => True
  | _ => False

/-- The JavaScript comparison `a < b`; false whenever NaN is involved. -/
def jsLt : JsNum → JsNum → Bool
  | .nanV, _ => false
  | _, .nanV => false
  | .posInf, _ => false
  | .negInf, .negInf => false
  | .negInf, _ => true
  | .finite _, .posInf => true
  | .finite _, .negInf => false
  | .finite q, .finite r => decide (q < r)

/-! Shape lemmas: the explicit post state of each transition in each of
its cases. -/

theorem settle1_of_some (s : St β ε ρ) (v w : Settled β ε ρ)
    (h : s.settledVal = some w) : settle1 s v = s := by
  simp [settle1, h]

theorem settle1_of_none (s : St β ε ρ) (v : Settled β ε ρ)
    (h : s.settledVal = none) : settle1 s v = { s with settledVal := some v } := by
  simp [settle1, h]

theorem rejectSt_of_some (s : St β ε ρ) (r : Reason ε ρ) (w : Settled β ε ρ)
    (h : s.settledVal = some w) :
    rejectSt s r = { s with isRejected := true, isResolved := true } := by
  simp [rejectSt, settle1_of_some s _ w h]

theorem rejectSt_of_none (s : St β ε ρ) (r : Reason ε ρ)
    (h : s.settledVal = none) :
    rejectSt s r = { s with settledVal := some (.rejected r),
                            isRejected := true, isResolved := true } := by
  simp [rejectSt, settle1_of_none s _ h]

theorem resolveSt_of_none (s : St β ε ρ) (l : List (Option (Cell β)))
    (h : s.settledVal = none) :
    resolveSt s l = { s with settledVal := some (.ok l) } := by
  simp [resolveSt, settle1_of_none s _ h]

theorem doNext_of_resolved (cfg : Cfg α β ε ρ) (s : St β ε ρ)
    (h : s.isResolved = true) : doNext cfg s = (s, none) := by
  simp [doNext, h]

theorem doNext_of_yields (cfg : Cfg α β ε ρ) (s : St β ε ρ) (a : α)
    (h : s.isResolved = false) (hs : cfg.source s.pullCount = .yields a) :
    doNext cfg s =
      ({ s with pullCount := s.pullCount + 1,
                currentIndex := s.currentIndex + 1,
                resolvingCount := s.resolvingCount + 1,
                inFlight := s.inFlight ++ [s.currentIndex] }, none) := by
  simp [doNext, h, hs]

theorem doNext_of_throws (cfg : Cfg α β ε ρ) (s : St β ε ρ) (e : ε)
    (h : s.isResolved = false) (hs : cfg.source s.pullCount = .throws e) :
    doNext cfg s = ({ s with pullCount := s.pullCount + 1 }, some e) := by
  simp [doNext, h, hs]

theorem doNext_of_done_busy (cfg : Cfg α β ε ρ) (s : St β ε ρ)
    (h : s.isResolved = false) (hs : cfg.source s.pullCount = .done)
    (hc : s.resolvingCount ≠ 0) :
    doNext cfg s =
      ({ s with pullCount := s.pullCount + 1,
                currentIndex := s.currentIndex + 1,
                isIterableDone := true }, none) := by
  simp [doNext, h, hs, hc]

theorem doNext_of_done_agg (cfg : Cfg α β ε ρ) (s : St β ε ρ)
    (h : s.isResolved = false) (hs : cfg.source s.pullCount = .done)
    (hc : s.resolvingCount = 0) (hst : cfg.stopOnError = false)
    (he : 0 < s.errors.length) :
    doNext cfg s =
      (rejectSt { s with pullCount := s.pullCount + 1,
                         currentIndex := s.currentIndex + 1,
                         isIterableDone := true }
        (.aggregate s.errors), none) := by
  simp [doNext, h, hs, hc, hst, he]

theorem doNext_of_done_resolve (cfg : Cfg α β ε ρ) (s : St β ε ρ)
    (h : s.isResolved = false) (hs : cfg.source s.pullCount = .done)
    (hc : s.resolvingCount = 0)
    (hna : ¬ (cfg.stopOnError = false ∧ 0 < s.errors.length))
    (hsk : s.skippedIndexes.length = 0) :
    doNext cfg s =
      (resolveSt { s with pullCount := s.pullCount + 1,
                          currentIndex := s.currentIndex + 1,
                          isIterableDone := true,
                          isResolved := true } s.result, none) := by
  simp only [doNext, h]
  simp only [hs, hc, h, hsk]
  simp [hna]

theorem doNext_of_done_compact (cfg : Cfg α β ε ρ) (s : St β ε ρ)
    (h : s.isResolved = false) (hs : cfg.source s.pullCount = .done)
    (hc : s.resolvingCount = 0)
    (hna : ¬ (cfg.stopOnError = false ∧ 0 < s.errors.length))
    (hsk : s.skippedIndexes.length ≠ 0) :
    doNext cfg s =
      (resolveSt { s with pullCount := s.pullCount + 1,
                          currentIndex := s.currentIndex + 1,
                          isIterableDone := true,
                          isResolved := true }
        (compact s.result s.skippedIndexes), none) := by
  simp only [doNext, h]
  simp only [hs, hc, h, hsk]
  simp [hna]

theorem chainNext_of_snd_none (cfg : Cfg α β ε ρ) (s : St β ε ρ)
    (h : (doNext cfg s).2 = none) : chainNext cfg s = (doNext cfg s).1 := by
  unfold chainNext
  rcases hd : doNext cfg s with ⟨s1, oe⟩
  cases oe with
  | none => simp
  | some e => rw [hd] at h; simp at h

theorem retryNext_of_snd_none (cfg : Cfg α β ε ρ) (s : St β ε ρ)
    (h : (doNext cfg s).2 = none) : retryNext cfg s = (doNext cfg s).1 := by
  unfold retryNext
  rcases hd : doNext cfg s with ⟨s1, oe⟩
  cases oe with
  | none => simp
  | some e => rw [hd] at h; simp at h

theorem completeTask_of_notMem (cfg : Cfg α β ε ρ) (i : Nat) (s : St β ε ρ)
    (h : i ∉ s.inFlight) : completeTask cfg i s = s := by
  simp [completeTask, h]

theorem completeTask_of_resolved (cfg : Cfg α β ε ρ) (i : Nat) (s : St β ε ρ)
    (h : i ∈ s.inFlight) (h2 : s.isResolved = true) :
    completeTask cfg i s = { s with inFlight := s.inFlight.erase i } := by
  simp [completeTask, h, h2]

theorem completeTask_of_none (cfg : Cfg α β ε ρ) (i : Nat) (s : St β ε ρ)
    (h : i ∈ s.inFlight) (h2 : s.isResolved = false)
    (ho : outAt cfg i = none) :
    completeTask cfg i s = { s with inFlight := s.inFlight.erase i } := by
  simp [completeTask, h, h2, ho]

theorem completeTask_of_value (cfg : Cfg α β ε ρ) (i : Nat) (s : St β ε ρ)
    (b : β) (h : i ∈ s.inFlight) (h2 : s.isResolved = false)
    (ho : outAt cfg i = some (.value b)) :
    completeTask cfg i s =
      chainNext cfg
        { s with inFlight := s.inFlight.erase i,
                 mapperCalls := s.mapperCalls + 1,
                 completedLog := s.completedLog ++ [i],
                 result := writeAt s.result i (.val b),
                 resolvingCount := s.resolvingCount - 1 } := by
  simp [completeTask, finishTask, h, h2, ho]

theorem completeTask_of_skip (cfg : Cfg α β ε ρ) (i : Nat) (s : St β ε ρ)
    (h : i ∈ s.inFlight) (h2 : s.isResolved = false)
    (ho : outAt cfg i = some .skip) :
    completeTask cfg i s =
      chainNext cfg
        { s with inFlight := s.inFlight.erase i,
                 mapperCalls := s.mapperCalls + 1,
                 completedLog := s.completedLog ++ [i],
                 skippedIndexes := s.skippedIndexes ++ [i],
                 result := writeAt s.result i .skipMark,
                 resolvingCount := s.resolvingCount - 1 } := by
  simp [completeTask, finishTask, h, h2, ho]

theorem completeTask_of_fail_stop (cfg : Cfg α β ε ρ) (i : Nat) (s : St β ε ρ)
    (e : ε) (h : i ∈ s.inFlight) (h2 : s.isResolved = false)
    (ho : outAt cfg i = some (.fail e)) (hst : cfg.stopOnError = true) :
    completeTask cfg i s =
      rejectSt
        { s with inFlight := s.inFlight.erase i,
                 mapperCalls := s.mapperCalls + 1,
                 completedLog := s.completedLog ++ [i],
                 failLog := s.failLog ++ [e] }
        (.plain e) := by
  simp [completeTask, finishTask, h, h2, ho, hst]

theorem completeTask_of_fail_collect (cfg : Cfg α β ε ρ) (i : Nat)
    (s : St β ε ρ) (e : ε) (h : i ∈ s.inFlight) (h2 : s.isResolved = false)
    (ho : outAt cfg i = some (.fail e)) (hst : cfg.stopOnError = false) :
    completeTask cfg i s =
      retryNext cfg
        { s with inFlight := s.inFlight.erase i,
                 mapperCalls := s.mapperCalls + 1,
                 completedLog := s.completedLog ++ [i],
                 failLog := s.failLog ++ [e],
                 errors := s.errors ++ [e],
                 resolvingCount := s.resolvingCount - 1 } := by
  simp [completeTask, finishTask, h, h2, ho, hst]

theorem initStep_of_inactive (cfg : Cfg α β ε ρ) (s : St β ε ρ)
    (h : s.initActive = false) : initStep cfg s = s := by
  simp [initStep, h]

theorem initStep_of_guardFail (cfg : Cfg α β ε ρ) (s : St β ε ρ)
    (h : s.initActive = true) (h2 : concLt s.initI cfg.concurrency = false) :
    initStep cfg s = { s with initActive := false } := by
  simp [initStep, h, h2]

theorem initStep_of_body_ok (cfg : Cfg α β ε ρ) (s s1 : St β ε ρ)
    (h : s.initActive = true) (h2 : concLt s.initI cfg.concurrency = true)
    (hn : doNext cfg { s with initCalls := s.initCalls + 1 } = (s1, none)) :
    initStep cfg s =
      if s1.isIterableDone || s1.isRejected then { s1 with initActive := false }
      else { s1 with initI := s1.initI + 1 } := by
  rw [h] at hn
  simp [initStep, h, h2, hn]

theorem initStep_of_body_throw (cfg : Cfg α β ε ρ) (s s1 : St β ε ρ) (e : ε)
    (h : s.initActive = true) (h2 : concLt s.initI cfg.concurrency = true)
    (hn : doNext cfg { s with initCalls := s.initCalls + 1 } = (s1, some e)) :
    initStep cfg s = { rejectSt s1 (.plain e) with initActive := false } := by
  rw [h] at hn
  simp [initStep, h, h2, hn]

theorem abortStep_of_noSignal (cfg : Cfg α β ε ρ) (s : St β ε ρ)
    (h : cfg.signal = none) : abortStep cfg s = s := by
  simp [abortStep, h]

theorem abortStep_of_inert (cfg : Cfg α β ε ρ) (s : St β ε ρ) (r : ρ)
    (h : cfg.signal = some r) (h2 : (cfg.preAborted || s.abortFired) = true) :
    abortStep cfg s = s := by
  simp [abortStep, h, h2]

theorem abortStep_of_fire (cfg : Cfg α β ε ρ) (s : St β ε ρ) (r : ρ)
    (h : cfg.signal = some r) (h2 : (cfg.preAborted || s.abortFired) = false) :
    abortStep cfg s = rejectSt { s with abortFired := true } (.abortReason r) := by
  simp [abortStep, h, h2]

theorem listSource_ne_throws (inp : List α) (k : Nat) (e : ε) :
    listSource inp k ≠ .throws e := by
  unfold listSource
  cases inp.get? k <;> simp

theorem listSource_of_lt (inp : List α) (k : Nat) (hk : k < inp.length) :
    (listSource inp k : SrcStep α ε) = .yields (inp.get ⟨k, hk⟩) := by
  unfold listSource
  rw [List.get?_eq_get hk]

theorem listSource_of_ge (inp : List α) (k : Nat) (hk : inp.length ≤ k) :
    (listSource inp k : SrcStep α ε) = .done := by
  unfold listSource
  rw [List.get?_eq_none.2 hk]

/-! Array write lemmas. -/

theorem writeAt_length {X : Type} (l : List (Option X)) (i : Nat) (x : X) :
    (writeAt l i x).length = max l.length (i + 1) := by
  unfold writeAt
  by_cases hi : i < l.length
  · simp only [if_pos hi, List.length_set]
    omega
  · simp only [if_neg hi, List.length_append, List.length_replicate,
      List.length_singleton]
    omega

theorem writeAt_get? {X : Type} (l : List (Option X)) (i : Nat) (x : X) (j : Nat) :
    (writeAt l i x).get? j =
      if j = i then some (some x)
      else if j < l.length then l.get? j
      else if j < i then some none
      else none := by
  unfold writeAt
  by_cases hi : i < l.length
  · rw [if_pos hi, List.get?_set]
    by_cases hj : j = i
    · have hij : i = j := hj.symm
      rw [if_pos hij, if_pos hj, List.get?_eq_get (hij ▸ hi)]
      rfl
    · rw [if_neg (fun h => hj h.symm), if_neg hj]
      by_cases hlt : j < l.length
      · rw [if_pos hlt]
      · have hji : ¬ j < i := by omega
        rw [if_neg hlt, if_neg hji, List.get?_len_le (Nat.le_of_not_lt hlt)]
  · have hle : l.length ≤ i := Nat.le_of_not_lt hi
    have hL : (l ++ List.replicate (i - l.length) (none : Option X)).length = i := by
      simp only [List.length_append, List.length_replicate]
      omega
    rw [if_neg hi]
    by_cases hj : j = i
    · rw [if_pos hj]
      have hj2 : j = (l ++ List.replicate (i - l.length) (none : Option X)).length := by
        rw [hL, hj]
      rw [hj2, List.get?_concat_length]
    · rw [if_neg hj, List.get?_eq_getElem?, List.getElem?_append, hL]
      by_cases hji : j < i
      · rw [if_pos hji, List.getElem?_append]
        by_cases hjl : j < l.length
        · rw [if_pos hjl, if_pos hjl, List.get?_eq_getElem?]
        · have hd : j - l.length < i - l.length := by omega
          rw [if_neg hjl, if_neg hjl, if_pos hji, List.getElem?_replicate,
              if_pos hd]
      · have h1 : ¬ j < l.length := by omega
        rw [if_neg hji, if_neg h1, if_neg hji]
        have h2 : ([some x] : List (Option X)).length ≤ j - i := by
          simp only [List.length_singleton]
          omega
        exact List.getElem?_eq_none h2

/-! Freezing: once the promise has settled, the observable outcome fields
never change again (detached tasks that resume afterwards are
discarded). -/

theorem frozenEq_refl (s : St β ε ρ) : FrozenEq s s :=
  ⟨rfl, rfl, rfl, rfl, rfl, rfl, rfl, rfl, rfl, rfl, rfl, rfl⟩

theorem frozenEq_trans {s t u : St β ε ρ}
    (h1 : FrozenEq s t) (h2 : FrozenEq t u) : FrozenEq s u := by
  obtain ⟨a1, a2, a3, a4, a5, a6, a7, a8, a9, a10, a11, a12⟩ := h1
  obtain ⟨b1, b2, b3, b4, b5, b6, b7, b8, b9, b10, b11, b12⟩ := h2
  exact ⟨b1.trans a1, b2.trans a2, b3.trans a3, b4.trans a4, b5.trans a5,
    b6.trans a6, b7.trans a7, b8.trans a8, b9.trans a9, b10.trans a10,
    b11.trans a11, b12.trans a12⟩

theorem step_frozen (cfg : Cfg α β ε ρ) (s : St β ε ρ) (e : Ev)
    (v : Settled β ε ρ) (h1 : s.isResolved = true) (h2 : s.settledVal = some v) :
    FrozenEq s (step cfg s e) := by
  cases e with
  | init =>
      show FrozenEq s (initStep cfg s)
      by_cases ha : s.initActive = true
      · by_cases hg : concLt s.initI cfg.concurrency = true
        · have hd := doNext_of_resolved cfg { s with initCalls := s.initCalls + 1 }
            (by simpa using h1)
          rw [initStep_of_body_ok cfg s _ ha hg hd]
          split <;> simp [FrozenEq]
        · rw [initStep_of_guardFail cfg s ha (by simpa using hg)]
          simp [FrozenEq]
      · rw [initStep_of_inactive cfg s (by simpa using ha)]
        exact frozenEq_refl s
  | complete i =>
      show FrozenEq s (completeTask cfg i s)
      by_cases hm : i ∈ s.inFlight
      · rw [completeTask_of_resolved cfg i s hm h1]
        simp [FrozenEq]
      · rw [completeTask_of_notMem cfg i s hm]
        exact frozenEq_refl s
  | abortFire =>
      show FrozenEq s (abortStep cfg s)
      cases hs : cfg.signal with
      | none =>
          rw [abortStep_of_noSignal cfg s hs]
          exact frozenEq_refl s
      | some r =>
          by_cases hp : (cfg.preAborted || s.abortFired) = true
          · rw [abortStep_of_inert cfg s r hs hp]
            exact frozenEq_refl s
          · rw [abortStep_of_fire cfg s r hs (by simpa using hp)]
            rw [rejectSt_of_some _ _ v (by simpa using h2)]
            simp [FrozenEq, h1]

theorem foldl_frozen (cfg : Cfg α β ε ρ) (evs : List Ev) (s : St β ε ρ)
    (v : Settled β ε ρ) (h1 : s.isResolved = true)
    (h2 : s.settledVal = some v) :
    FrozenEq s (evs.foldl (step cfg) s) := by
  induction evs generalizing s with
  | nil => exact frozenEq_refl s
  | cons e es ih =>
      have hf := step_frozen cfg s e v h1 h2
      have h1' : (step cfg s e).isResolved = true := by
        rw [hf.2.1, h1]
      have h2' : (step cfg s e).settledVal = some v := by
        rw [hf.1, h2]
      exact frozenEq_trans hf (ih (step cfg s e) h1' h2')

/-! Counting: the ramp up loop hands out at most `concurrency` permits and
every spawned task holds one, for every configuration and schedule. -/

theorem concLe_zero (c : Conc) : concLe 0 c := by
  cases c <;> simp [concLe]

theorem concLe_of_le {j k : Nat} {c : Conc} (h : j ≤ k) (h2 : concLe k c) :
    concLe j c := by
  cases c with
  | fin n => exact Nat.le_trans h h2
  | inf => trivial

theorem concLe_succ_of_lt {i : Nat} {c : Conc} (h : concLt i c = true) :
    concLe (i + 1) c := by
  cases c with
  | fin n =>
      simp only [concLt, decide_eq_true_eq] at h
      exact h
  | inf => trivial

/-- Fields of the state not touched by settling helpers. -/
theorem settle1_stable (s : St β ε ρ) (v : Settled β ε ρ) :
    (settle1 s v).inFlight = s.inFlight ∧
    (settle1 s v).initCalls = s.initCalls ∧
    (settle1 s v).initI = s.initI ∧
    (settle1 s v).initActive = s.initActive := by
  unfold settle1
  split <;> simp

theorem rejectSt_stable (s : St β ε ρ) (r : Reason ε ρ) :
    (rejectSt s r).inFlight = s.inFlight ∧
    (rejectSt s r).initCalls = s.initCalls ∧
    (rejectSt s r).initI = s.initI ∧
    (rejectSt s r).initActive = s.initActive := by
  unfold rejectSt
  have h := settle1_stable s (.rejected r)
  simp [h.1, h.2.1, h.2.2.1, h.2.2.2]

theorem resolveSt_stable (s : St β ε ρ) (l : List (Option (Cell β))) :
    (resolveSt s l).inFlight = s.inFlight ∧
    (resolveSt s l).initCalls = s.initCalls ∧
    (resolveSt s l).initI = s.initI ∧
    (resolveSt s l).initActive = s.initActive := by
  unfold resolveSt
  exact settle1_stable s (.ok l)

/-- One call of `next` spawns at most one task and does not touch the
ramp up loop variables. -/
theorem doNext_count (cfg : Cfg α β ε ρ) (s : St β ε ρ) :
    (doNext cfg s).1.inFlight.length ≤ s.inFlight.length + 1 ∧
    (doNext cfg s).1.initCalls = s.initCalls ∧
    (doNext cfg s).1.initI = s.initI ∧
    (doNext cfg s).1.initActive = s.initActive := by
  by_cases hres : s.isResolved = true
  · rw [doNext_of_resolved cfg s hres]
    simp
  · have hres' : s.isResolved = false := by simpa using hres
    cases hsrc : cfg.source s.pullCount with
    | yields a =>
        rw [doNext_of_yields cfg s a hres' hsrc]
        simp [List.length_append]
    | throws e =>
        rw [doNext_of_throws cfg s e hres' hsrc]
        simp
    | done =>
        by_cases hc : s.resolvingCount = 0
        · by_cases hagg : cfg.stopOnError = false ∧ 0 < s.errors.length
          · rw [doNext_of_done_agg cfg s hres' hsrc hc hagg.1 hagg.2]
            have h := rejectSt_stable (ρ := ρ)
              { s with pullCount := s.pullCount + 1,
                       currentIndex := s.currentIndex + 1,
                       isIterableDone := true } (.aggregate s.errors)
            simp only [h.1, h.2.1, h.2.2.1, h.2.2.2]
            simp
          · by_cases hsk : s.skippedIndexes.length = 0
            · rw [doNext_of_done_resolve cfg s hres' hsrc hc hagg hsk]
              have h := resolveSt_stable (ρ := ρ)
                { s with pullCount := s.pullCount + 1,
                         currentIndex := s.currentIndex + 1,
                         isIterableDone := true, isResolved := true } s.result
              simp only [h.1, h.2.1, h.2.2.1, h.2.2.2]
              simp
            · rw [doNext_of_done_compact cfg s hres' hsrc hc hagg hsk]
              have h := resolveSt_stable (ρ := ρ)
                { s with pullCount := s.pullCount + 1,
                         currentIndex := s.currentIndex + 1,
                         isIterableDone := true, isResolved := true }
                (compact s.result s.skippedIndexes)
              simp only [h.1, h.2.1, h.2.2.1, h.2.2.2]
              simp
        · rw [doNext_of_done_busy cfg s hres' hsrc hc]
          simp

/-- When `next` throws, the returned state is the input with only the
pull counter advanced. -/
theorem doNext_snd_some (cfg : Cfg α β ε ρ) (s : St β ε ρ) (e : ε)
    (h : (doNext cfg s).2 = some e) :
    (doNext cfg s).1 = { s with pullCount := s.pullCount + 1 } := by
  by_cases hres : s.isResolved = true
  · rw [doNext_of_resolved cfg s hres] at h
    simp at h
  · have hres' : s.isResolved = false := by simpa using hres
    cases hsrc : cfg.source s.pullCount with
    | yields a =>
        rw [doNext_of_yields cfg s a hres' hsrc] at h
        simp at h
    | throws e2 =>
        rw [doNext_of_throws cfg s e2 hres' hsrc]
    | done =>
        by_cases hc : s.resolvingCount = 0
        · by_cases hagg : cfg.stopOnError = false ∧ 0 < s.errors.length
          · rw [doNext_of_done_agg cfg s hres' hsrc hc hagg.1 hagg.2] at h
            simp at h
          · by_cases hsk : s.skippedIndexes.length = 0
            · rw [doNext_of_done_resolve cfg s hres' hsrc hc hagg hsk] at h
              simp at h
            · rw [doNext_of_done_compact cfg s hres' hsrc hc hagg hsk] at h
              simp at h
        · rw [doNext_of_done_busy cfg s hres' hsrc hc] at h
          simp at h

theorem retryNext_count (cfg : Cfg α β ε ρ) (s : St β ε ρ) :
    (retryNext cfg s).inFlight.length ≤ s.inFlight.length + 1 ∧
    (retryNext cfg s).initCalls = s.initCalls ∧
    (retryNext cfg s).initI = s.initI ∧
    (retryNext cfg s).initActive = s.initActive := by
  rcases hd : doNext cfg s with ⟨s1, oe⟩
  have hc := doNext_count cfg s
  rw [hd] at hc
  simp only at hc
  cases oe with
  | none =>
      rw [retryNext_of_snd_none cfg s (by rw [hd]), hd]
      exact hc
  | some e2 =>
      have hgoal : retryNext cfg s = rejectSt s1 (.plain e2) := by
        unfold retryNext
        rw [hd]
      rw [hgoal]
      have h := rejectSt_stable s1 (.plain e2)
      exact ⟨by rw [h.1]; exact hc.1, by rw [h.2.1]; exact hc.2.1,
        by rw [h.2.2.1]; exact hc.2.2.1, by rw [h.2.2.2]; exact hc.2.2.2⟩

theorem chainNext_count (cfg : Cfg α β ε ρ) (s : St β ε ρ) :
    (chainNext cfg s).inFlight.length ≤ s.inFlight.length + 1 ∧
    (chainNext cfg s).initCalls = s.initCalls ∧
    (chainNext cfg s).initI = s.initI ∧
    (chainNext cfg s).initActive = s.initActive := by
  rcases hd : doNext cfg s with ⟨s1, oe⟩
  have hc := doNext_count cfg s
  rw [hd] at hc
  simp only at hc
  cases oe with
  | none =>
      rw [chainNext_of_snd_none cfg s (by rw [hd]), hd]
      exact hc
  | some e =>
      have h1 : s1 = { s with pullCount := s.pullCount + 1 } := by
        have h2 := doNext_snd_some cfg s e (by rw [hd])
        rw [hd] at h2
        exact h2
      subst h1
      by_cases hst : cfg.stopOnError = true
      · have hgoal : chainNext cfg s =
            rejectSt { s with pullCount := s.pullCount + 1 } (.plain e) := by
          unfold chainNext
          rw [hd]
          simp [hst]
        rw [hgoal]
        have h := rejectSt_stable { s with pullCount := s.pullCount + 1 }
          (Reason.plain e)
        refine ⟨?_, ?_, ?_, ?_⟩
        · rw [h.1]
          simp
        · rw [h.2.1]
        · rw [h.2.2.1]
        · rw [h.2.2.2]
      · have hgoal : chainNext cfg s =
            retryNext cfg
              { s with pullCount := s.pullCount + 1,
                       errors := s.errors ++ [e],
                       resolvingCount := s.resolvingCount - 1 } := by
          unfold chainNext
          rw [hd]
          simp [hst]
        rw [hgoal]
        have hr := retryNext_count cfg
          { s with pullCount := s.pullCount + 1,
                   errors := s.errors ++ [e],
                   resolvingCount := s.resolvingCount - 1 }
        simp only at hr
        exact ⟨Nat.le_trans hr.1 (by simp), hr.2.1, hr.2.2.1, hr.2.2.2⟩

theorem invCount_init (cfg : Cfg α β ε ρ) : InvCount cfg (initSt cfg) := by
  unfold initSt
  constructor <;>
    [skip; skip; skip] <;>
    first
      | (cases hs : cfg.signal with
          | none => simp [hs, concLe_zero]
          | some r =>
              by_cases hp : cfg.preAborted = true
              · have h := rejectSt_stable ({} : St β ε ρ) (.abortReason r)
                simp [hs, hp, h.1, h.2.1, h.2.2.1, h.2.2.2, concLe_zero]
              · simp [hs, hp, concLe_zero])

theorem invCount_step (cfg : Cfg α β ε ρ) (s : St β ε ρ) (e : Ev)
    (h : InvCount cfg s) : InvCount cfg (step cfg s e) := by
  obtain ⟨hb, hc, he⟩ := h
  cases e with
  | init =>
      show InvCount cfg (initStep cfg s)
      by_cases ha : s.initActive = true
      · by_cases hg : concLt s.initI cfg.concurrency = true
        · rcases hd : doNext cfg { s with initCalls := s.initCalls + 1 }
            with ⟨s1, oe⟩
          have hcnt := doNext_count cfg { s with initCalls := s.initCalls + 1 }
          rw [hd] at hcnt
          simp only at hcnt
          have hcalls : s1.initCalls = s.initCalls + 1 := hcnt.2.1
          have hIle : s1.inFlight.length ≤ s.initCalls + 1 :=
            Nat.le_trans hcnt.1 (by omega)
          have hcle : concLe (s.initCalls + 1) cfg.concurrency := by
            have : s.initCalls = s.initI := he ha
            rw [this]
            exact concLe_succ_of_lt hg
          cases oe with
          | some e1 =>
              rw [initStep_of_body_throw cfg s s1 e1 ha hg hd]
              have hst := rejectSt_stable s1 (.plain e1)
              constructor
              · simpa [hst.1, hst.2.1, hcalls] using hIle
              · simpa [hst.2.1, hcalls] using hcle
              · intro hact
                simp at hact
          | none =>
              rw [initStep_of_body_ok cfg s s1 ha hg hd]
              split
              · constructor
                · simpa [hcalls] using hIle
                · simpa [hcalls] using hcle
                · intro hact
                  simp at hact
              · constructor
                · simpa [hcalls] using hIle
                · simpa [hcalls] using hcle
                · intro hact
                  simp only [hcalls, hcnt.2.2.1]
                  have : s.initCalls = s.initI := he (by
                    have := hcnt.2.2.2
                    simp only at this
                    simp_all)
                  omega
        · rw [initStep_of_guardFail cfg s ha (by simpa using hg)]
          exact ⟨hb, hc, by intro hact; simp at hact⟩
      · rw [initStep_of_inactive cfg s (by simpa using ha)]
        exact ⟨hb, hc, he⟩
  | complete i =>
      show InvCount cfg (completeTask cfg i s)
      by_cases hm : i ∈ s.inFlight
      · have herase : (s.inFlight.erase i).length = s.inFlight.length - 1 :=
          List.length_erase_of_mem hm
        have hpos : 1 ≤ s.inFlight.length := List.length_pos.2 (by
          intro hnil
          rw [hnil] at hm
          simp at hm)
        by_cases h2 : s.isResolved = true
        · rw [completeTask_of_resolved cfg i s hm h2]
          exact ⟨by simp [herase]; omega, hc, he⟩
        · have h2' : s.isResolved = false := by simpa using h2
          cases ho : outAt cfg i with
          | none =>
              rw [completeTask_of_none cfg i s hm h2' ho]
              exact ⟨by simp [herase]; omega, hc, he⟩
          | some o =>
              cases o with
              | value b =>
                  rw [completeTask_of_value cfg i s b hm h2' ho]
                  have hcc := chainNext_count cfg
                    { s with inFlight := s.inFlight.erase i,
                             mapperCalls := s.mapperCalls + 1,
                             completedLog := s.completedLog ++ [i],
                             result := writeAt s.result i (.val b),
                             resolvingCount := s.resolvingCount - 1 }
                  simp only at hcc
                  refine ⟨?_, by rw [hcc.2.1]; exact hc, ?_⟩
                  · refine Nat.le_trans hcc.1 ?_
                    rw [herase]
                    omega
                  · intro hact
                    rw [hcc.2.1, hcc.2.2.1]
                    exact he (by rw [← hcc.2.2.2]; exact hact)
              | skip =>
                  rw [completeTask_of_skip cfg i s hm h2' ho]
                  have hcc := chainNext_count cfg
                    { s with inFlight := s.inFlight.erase i,
                             mapperCalls := s.mapperCalls + 1,
                             completedLog := s.completedLog ++ [i],
                             skippedIndexes := s.skippedIndexes ++ [i],
                             result := writeAt s.result i .skipMark,
                             resolvingCount := s.resolvingCount - 1 }
                  simp only at hcc
                  refine ⟨?_, by rw [hcc.2.1]; exact hc, ?_⟩
                  · refine Nat.le_trans hcc.1 ?_
                    rw [herase]
                    omega
                  · intro hact
                    rw [hcc.2.1, hcc.2.2.1]
                    exact he (by rw [← hcc.2.2.2]; exact hact)
              | fail e1 =>
                  by_cases hst : cfg.stopOnError = true
                  · rw [completeTask_of_fail_stop cfg i s e1 hm h2' ho hst]
                    have hstb := rejectSt_stable
                      { s with inFlight := s.inFlight.erase i,
                               mapperCalls := s.mapperCalls + 1,
                               completedLog := s.completedLog ++ [i],
                               failLog := s.failLog ++ [e1] }
                      (.plain e1)
                    refine ⟨?_, ?_, ?_⟩
                    · rw [hstb.1, hstb.2.1]
                      show (s.inFlight.erase i).length ≤ s.initCalls
                      rw [herase]
                      omega
                    · rw [hstb.2.1]
                      exact hc
                    · intro hact
                      rw [hstb.2.1, hstb.2.2.1]
                      exact he (by rw [← hstb.2.2.2]; exact hact)
                  · rw [completeTask_of_fail_collect cfg i s e1 hm h2' ho
                      (by simpa using hst)]
                    have hcc := retryNext_count cfg
                      { s with inFlight := s.inFlight.erase i,
                               mapperCalls := s.mapperCalls + 1,
                               completedLog := s.completedLog ++ [i],
                               failLog := s.failLog ++ [e1],
                               errors := s.errors ++ [e1],
                               resolvingCount := s.resolvingCount - 1 }
                    simp only at hcc
                    refine ⟨?_, by rw [hcc.2.1]; exact hc, ?_⟩
                    · refine Nat.le_trans hcc.1 ?_
                      rw [herase]
                      omega
                    · intro hact
                      rw [hcc.2.1, hcc.2.2.1]
                      exact he (by rw [← hcc.2.2.2]; exact hact)
      · rw [completeTask_of_notMem cfg i s hm]
        exact ⟨hb, hc, he⟩
  | abortFire =>
      show InvCount cfg (abortStep cfg s)
      cases hs : cfg.signal with
      | none =>
          rw [abortStep_of_noSignal cfg s hs]
          exact ⟨hb, hc, he⟩
      | some r =>
          by_cases hp : (cfg.preAborted || s.abortFired) = true
          · rw [abortStep_of_inert cfg s r hs hp]
            exact ⟨hb, hc, he⟩
          · rw [abortStep_of_fire cfg s r hs (by simpa using hp)]
            have hstb := rejectSt_stable { s with abortFired := true }
              (.abortReason r)
            refine ⟨?_, ?_, ?_⟩
            · rw [hstb.1, hstb.2.1]
              exact hb
            · rw [hstb.2.1]
              exact hc
            · intro hact
              rw [hstb.2.1, hstb.2.2.1]
              exact he (by rw [← hstb.2.2.2]; exact hact)

theorem invCount_run (cfg : Cfg α β ε ρ) (evs : List Ev) :
    InvCount cfg (run cfg evs) := by
  unfold run
  induction evs using List.reverseRecOn with
  | nil => exact invCount_init cfg
  | append_singleton es e ih =>
      rw [List.foldl_append]
      exact invCount_step cfg _ e ih

/-- The concurrency bound of the batch scheduler: at every reachable
state, the number of in flight tasks is at most the configured bound. -/
theorem pMap_inFlight_le_concurrency (cfg : Cfg α β ε ρ) (evs : List Ev) :
    concLe (run cfg evs).inFlight.length cfg.concurrency := by
  have h := invCount_run cfg evs
  exact concLe_of_le h.ifBound h.icBound

/-! The streaming scheduler: queue bound and empty source behaviour. -/

theorem setStatus_length (ps : List (Handle α β ε)) (h : Nat)
    (st : HStatus α β ε) : (setStatus ps h st).length = ps.length := by
  simp [setStatus]

theorem spliceSkip_length_le (ps : List (Handle α β ε)) (h : Nat) :
    (spliceSkip ps h).length ≤ ps.length := by
  unfold spliceSkip
  split
  · rw [List.length_eraseIdx]
    split <;> omega
  · exact Nat.le_refl _

/-- The spawn guard keeps the queue within the backpressure bound. -/
theorem trySpawn_queueBound (cfg : ItCfg α β ε) (s : ItSt α β ε)
    (h : concLe s.promises.length cfg.backpressure) :
    concLe (trySpawn cfg s).promises.length cfg.backpressure := by
  unfold trySpawn
  split
  · exact h
  · rename_i hcond
    simp only [Bool.or_eq_true, Bool.not_eq_true', Bool.and_eq_true,
      not_or, Bool.not_eq_false] at hcond
    have hlt : concLt s.promises.length cfg.backpressure = true := hcond.2.2
    simp only [List.length_append, List.length_singleton]
    exact concLe_succ_of_lt hlt

theorem trySpawn_stable (cfg : ItCfg α β ε) (s : ItSt α β ε) :
    (trySpawn cfg s).runningMappersCount = s.runningMappersCount ∧
    (trySpawn cfg s).output = s.output ∧
    (trySpawn cfg s).mapperCalls = s.mapperCalls ∧
    (trySpawn cfg s).finished = s.finished ∧
    (trySpawn cfg s).raised = s.raised ∧
    (trySpawn cfg s).isDone = s.isDone := by
  unfold trySpawn
  split <;> simp

theorem itStep_queueBound (cfg : ItCfg α β ε) (s : ItSt α β ε) (e : ItEv)
    (h : concLe s.promises.length cfg.backpressure) :
    concLe (itStep cfg s e).promises.length cfg.backpressure := by
  cases e with
  | pullResolve hid =>
      show concLe (pullResolveStep cfg hid s).promises.length cfg.backpressure
      unfold pullResolveStep
      split
      · split
        · rw [setStatus_length]
          exact h
        · rename_i a _
          rw [setStatus_length]
          exact trySpawn_queueBound cfg
            { s with runningMappersCount := s.runningMappersCount + 1 } h
      · exact h
  | mapperDone hid =>
      show concLe (mapperDoneStep cfg hid s).promises.length cfg.backpressure
      unfold mapperDoneStep
      split
      · rename_i a hst
        cases hm : cfg.mapper a with
        | value b =>
            simp only [hm]
            rw [setStatus_length]
            exact trySpawn_queueBound cfg
              { s with runningMappersCount := s.runningMappersCount - 1 } h
        | skip =>
            simp only [hm]
            refine concLe_of_le ?_ h
            refine Nat.le_trans (spliceSkip_length_le _ _) ?_
            rw [setStatus_length]
        | fail e1 =>
            simp only [hm]
            rw [setStatus_length]
            exact h
      · exact h
  | consume =>
      show concLe (consumeStep cfg s).promises.length cfg.backpressure
      unfold consumeStep
      split
      · exact h
      · split
        · exact concLe_of_le (by simp) h
        · rename_i hh rest hcons
          split
          · rename_i r heq
            have hrest : concLe rest.length cfg.backpressure := by
              refine concLe_of_le ?_ h
              rw [hcons]
              simp
            cases r with
            | hrError e1 => exact hrest
            | hrDone => exact hrest
            | hrSkip => exact hrest
            | hrValue b =>
                have := trySpawn_queueBound cfg { s with promises := rest } hrest
                simpa using this
          · exact h

theorem itRun_queueBound (cfg : ItCfg α β ε) (evs : List ItEv) :
    concLe (itRun cfg evs).promises.length cfg.backpressure := by
  unfold itRun
  induction evs using List.reverseRecOn with
  | nil =>
      exact trySpawn_queueBound cfg {} (by simp [concLe_zero])
  | append_singleton es e ih =>
      rw [List.foldl_append]
      exact itStep_queueBound cfg _ e ih

/-- Running mapper handles sit in the queue, so their number is bounded by
the queue length. -/
theorem runningHandles_le_queue (s : ItSt α β ε) :
    runningHandles s ≤ s.promises.length := by
  unfold runningHandles
  exact List.length_filter_le _ _

/-- At every reachable streaming state, the number of running mappers is
at most the backpressure bound. -/
theorem pMapIterable_running_le_backpressure (cfg : ItCfg α β ε)
    (evs : List ItEv) :
    concLe (runningHandles (itRun cfg evs)) cfg.backpressure :=
  concLe_of_le (runningHandles_le_queue _) (itRun_queueBound cfg evs)

/-! Validation lemmas. -/

theorem validConcurrency_posIntOrInf (c : JsNum)
    (h : validConcurrency c = true) : jsPosIntOrInf c := by
  cases c with
  | finite q =>
      simp only [validConcurrency, isSafeInteger, isPosInf, jsGe,
        Bool.or_eq_true, Bool.and_eq_true, decide_eq_true_eq] at h
      rcases h with ⟨⟨hden, hmag⟩, hge⟩ | hfalse
      · refine ⟨hden, ?_⟩
        have hq : q = (q.num : ℚ) := by
          rw [← Rat.num_div_den q, hden]
          simp
        rw [hq] at hge
        exact_mod_cast hge
      · exact absurd hfalse (by simp)
  | posInf => trivial
  | negInf => simp [validConcurrency, isSafeInteger, isPosInf, jsGe] at h
  | nanV => simp [validConcurrency, isSafeInteger, isPosInf, jsGe] at h

theorem validBackpressure_spec (c b : JsNum)
    (hc : validConcurrency c = true) (hb : validBackpressure b c = true) :
    jsPosIntOrInf b ∧ jsLt b c = false := by
  cases b with
  | posInf =>
      refine ⟨trivial, ?_⟩
      cases c <;> rfl
  | negInf => simp [validBackpressure, isSafeInteger, isPosInf] at hb
  | nanV => simp [validBackpressure, isSafeInteger, isPosInf] at hb
  | finite q =>
      simp only [validBackpressure, isSafeInteger, isPosInf, Bool.or_eq_true,
        Bool.and_eq_true, decide_eq_true_eq] at hb
      rcases hb with ⟨⟨hden, hmag⟩, hge⟩ | hfalse
      · cases c with
        | posInf => simp [jsGe] at hge
        | negInf => simp [validConcurrency, isSafeInteger, isPosInf, jsGe] at hc
        | nanV => simp [validConcurrency, isSafeInteger, isPosInf, jsGe] at hc
        | finite r =>
            have hcp := validConcurrency_posIntOrInf (.finite r) hc
            obtain ⟨hrden, hrnum⟩ := hcp
            simp only [jsGe, decide_eq_true_eq] at hge
            have hr1 : (1 : ℚ) ≤ r := by
              have hr : r = (r.num : ℚ) := by
                rw [← Rat.num_div_den r, hrden]
                simp
              rw [hr]
              exact_mod_cast hrnum
            have hq1 : (1 : ℚ) ≤ q := le_trans hr1 hge
            refine ⟨⟨hden, ?_⟩, ?_⟩
            · have hq : q = (q.num : ℚ) := by
                rw [← Rat.num_div_den q, hden]
                simp
              rw [hq] at hq1
              exact_mod_cast hq1
            · simp only [jsLt, decide_eq_false_iff_not, not_lt]
              exact hge
      · exact absurd hfalse (by simp)

theorem validatePMap_isSome (it : IterableArg) (m : MapperArg) (c : JsNum)
    (h : ¬ (it.hasSymbolIterator = true ∨ it.hasSymbolAsyncIterator = true) ∨
      m.isFunction = false ∨ ¬ jsPosIntOrInf c) :
    (validatePMap it m c).isSome = true := by
  rcases hv : validatePMap it m c with _ | err
  · exfalso
    unfold validatePMap at hv
    by_cases h1 : (it.hasSymbolIterator || it.hasSymbolAsyncIterator) = true
    · by_cases h2 : m.isFunction = true
      · by_cases h3 : validConcurrency c = true
        · rcases h with ha | hb | hcc
          · exact ha (by simpa [Bool.or_eq_true] using h1)
          · rw [h2] at hb
            exact Bool.true_eq_false.mp hb
          · exact hcc (validConcurrency_posIntOrInf c h3)
        · simp [h1, h2, h3] at hv
      · simp [h1, h2] at hv
    · simp [h1] at hv
  · simp

theorem validatePMapIterable_isSome (it : IterableArg) (m : MapperArg)
    (c b : JsNum)
    (h : ¬ (it.hasSymbolIterator = true ∨ it.hasSymbolAsyncIterator = true) ∨
      m.isFunction = false ∨ ¬ jsPosIntOrInf c ∨
      ¬ jsPosIntOrInf b ∨ jsLt b c = true) :
    (validatePMapIterable it m c b).isSome = true := by
  rcases hv : validatePMapIterable it m c b with _ | err
  · exfalso
    unfold validatePMapIterable at hv
    by_cases h1 : (it.hasSymbolIterator || it.hasSymbolAsyncIterator) = true
    · by_cases h2 : m.isFunction = true
      · by_cases h3 : validConcurrency c = true
        · by_cases h4 : validBackpressure b c = true
          · have hbp := validBackpressure_spec c b h3 h4
            rcases h with ha | hb | hcc | hd | he
            · exact ha (by simpa [Bool.or_eq_true] using h1)
            · rw [h2] at hb
              exact Bool.true_eq_false.mp hb
            · exact hcc (validConcurrency_posIntOrInf c h3)
            · exact hd hbp.1
            · rw [hbp.2] at he
              exact Bool.false_ne_true he
          · simp [h1, h2, h3, h4] at hv
        · simp [h1, h2, h3] at hv
      · simp [h1, h2] at hv
    · simp [h1] at hv
  · simp

/-- Passing validation of `pMapIterable` forces `backpressure >=
concurrency` in the JavaScript comparison. -/
theorem validatePMapIterable_ge (it : IterableArg) (m : MapperArg)
    (c b : JsNum) (h : validatePMapIterable it m c b = none) :
    jsGe b c = true := by
  unfold validatePMapIterable at h
  by_cases h1 : (it.hasSymbolIterator || it.hasSymbolAsyncIterator) = true
  · by_cases h2 : m.isFunction = true
    · by_cases h3 : validConcurrency c = true
      · by_cases h4 : validBackpressure b c = true
        · simp only [validBackpressure, Bool.or_eq_true, Bool.and_eq_true] at h4
          rcases h4 with ⟨hsafe, hge⟩ | hinf
          · exact hge
          · cases b with
            | posInf =>
                cases c with
                | nanV => simp [validConcurrency, isSafeInteger, isPosInf, jsGe] at h3
                | finite r => rfl
                | posInf => rfl
                | negInf => rfl
            | finite q => simp [isPosInf] at hinf
            | negInf => simp [isPosInf] at hinf
            | nanV => simp [isPosInf] at hinf
        · simp [h1, h2, h3, h4] at h
      · simp [h1, h2, h3] at h
    · simp [h1, h2] at h
  · simp [h1] at h

theorem pMapChecked_error (it : IterableArg) (m : MapperArg) (c : JsNum)
    (err : TypeErr) (hv : validatePMap it m c = some err)
    (cfg : Cfg α β ε ρ) (evs : List Ev) :
    pMapChecked it m c cfg evs = .error err := by
  unfold pMapChecked
  rw [hv]

theorem pMapIterableChecked_error (it : IterableArg) (m : MapperArg)
    (c b : JsNum) (err : TypeErr) (hv : validatePMapIterable it m c b = some err)
    (cfg : ItCfg α β ε) (evs : List ItEv) :
    pMapIterableChecked it m c b cfg evs = .error err := by
  unfold pMapIterableChecked
  rw [hv]

/-! Abort signal behaviour. -/

theorem initSt_preAborted (cfg : Cfg α β ε ρ) (r : ρ)
    (hs : cfg.signal = some r) (hp : cfg.preAborted = true) :
    initSt cfg = rejectSt ({} : St β ε ρ) (.abortReason r) := by
  unfold initSt
  rw [hs]
  simp [hp]

theorem rejectSt_counts (s : St β ε ρ) (r : Reason ε ρ) :
    (rejectSt s r).resolvingCount = s.resolvingCount ∧
    (rejectSt s r).mapperCalls = s.mapperCalls ∧
    (rejectSt s r).pullCount = s.pullCount := by
  unfold rejectSt settle1
  split <;> simp

/-- A pMap call whose signal is already aborted rejects with the signal
reason before any pull and before any mapper invocation, under every
schedule. -/
theorem pMap_preAborted_run (cfg : Cfg α β ε ρ) (r : ρ)
    (hs : cfg.signal = some r) (hp : cfg.preAborted = true) (evs : List Ev) :
    (run cfg evs).settledVal = some (.rejected (.abortReason r)) ∧
    (run cfg evs).mapperCalls = 0 ∧
    (run cfg evs).pullCount = 0 := by
  have hinit := initSt_preAborted cfg r hs hp
  have h0 : (initSt cfg).settledVal = some (.rejected (.abortReason r)) := by
    rw [hinit, rejectSt_of_none _ _ rfl]
  have h1 : (initSt cfg).isResolved = true := by
    rw [hinit, rejectSt_of_none _ _ rfl]
  have hfr := foldl_frozen cfg evs (initSt cfg) _ h1 h0
  have hm : (initSt cfg).mapperCalls = 0 := by
    rw [hinit, rejectSt_of_none _ _ rfl]
  have hpc : (initSt cfg).pullCount = 0 := by
    rw [hinit, rejectSt_of_none _ _ rfl]
  refine ⟨?_, ?_, ?_⟩
  · rw [show run cfg evs = evs.foldl (step cfg) (initSt cfg) from rfl,
      hfr.1, h0]
  · rw [show run cfg evs = evs.foldl (step cfg) (initSt cfg) from rfl,
      hfr.2.2.2.2.2.2.1, hm]
  · rw [show run cfg evs = evs.foldl (step cfg) (initSt cfg) from rfl,
      hfr.2.2.2.2.2.2.2.2.2.1, hpc]

/-- If the signal fires while the call is unsettled, the call rejects
with the signal reason, and the abort event does not remove any in flight
task nor change the running counter. -/
theorem pMap_abort_midFlight (cfg : Cfg α β ε ρ) (r : ρ)
    (hs : cfg.signal = some r) (hp : cfg.preAborted = false)
    (pre post : List Ev)
    (hun : (run cfg pre).settledVal = none)
    (hfired : (run cfg pre).abortFired = false) :
    (run cfg (pre ++ .abortFire :: post)).settledVal
      = some (.rejected (.abortReason r)) ∧
    (run cfg (pre ++ [.abortFire])).inFlight = (run cfg pre).inFlight ∧
    (run cfg (pre ++ [.abortFire])).resolvingCount
      = (run cfg pre).resolvingCount := by
  have hcond : (cfg.preAborted || (run cfg pre).abortFired) = false := by
    rw [hp, hfired]
    rfl
  have hab : abortStep cfg (run cfg pre)
      = rejectSt { run cfg pre with abortFired := true } (.abortReason r) :=
    abortStep_of_fire cfg (run cfg pre) r hs hcond
  have hnone : ({ run cfg pre with abortFired := true } :
      St β ε ρ).settledVal = none := hun
  have hset : (abortStep cfg (run cfg pre)).settledVal
      = some (.rejected (.abortReason r)) := by
    rw [hab, rejectSt_of_none _ _ hnone]
  have hres : (abortStep cfg (run cfg pre)).isResolved = true := by
    rw [hab, rejectSt_of_none _ _ hnone]
  have hsplit : run cfg (pre ++ .abortFire :: post)
      = post.foldl (step cfg) (abortStep cfg (run cfg pre)) := by
    unfold run
    rw [List.foldl_append]
    rfl
  refine ⟨?_, ?_, ?_⟩
  · rw [hsplit]
    have hfr := foldl_frozen cfg post (abortStep cfg (run cfg pre)) _ hres hset
    rw [hfr.1, hset]
  · have hrun1 : run cfg (pre ++ [.abortFire]) = abortStep cfg (run cfg pre) := by
      unfold run
      rw [List.foldl_append]
      rfl
    rw [hrun1, hab, (rejectSt_stable _ _).1]
  · have hrun1 : run cfg (pre ++ [.abortFire]) = abortStep cfg (run cfg pre) := by
      unfold run
      rw [List.foldl_append]
      rfl
    rw [hrun1, hab, (rejectSt_counts _ _).1]

/-! The collect mode hang on a throwing source, and the raw rejection on
a ramp up throw. -/

theorem run_append_foldl (cfg : Cfg α β ε ρ) (pre evs : List Ev) :
    run cfg (pre ++ evs) = evs.foldl (step cfg) (run cfg pre) := by
  unfold run
  rw [List.foldl_append]

/-- After `pMap(hangSource, …, {stopOnError: false, concurrency: 1})` has
run its course, the promise is unsettled and stays unsettled under every
further schedule: the chained pull threw after the counter was already
decremented, the catch decremented it again to -1, and the exhaustion
check `resolvingCount === 0` can never fire again. -/
theorem pMap_collect_sourceThrow_hangs (evs : List Ev) :
    (run hangCfg ([.init, .init, .complete 0] ++ evs)).settledVal = none ∧
    (run hangCfg [.init, .init, .complete 0]).errors = [9] ∧
    (run hangCfg [.init, .init, .complete 0]).resolvingCount = -1 ∧
    (run hangCfg [.init, .init, .complete 0]).isIterableDone = true ∧
    (run hangCfg [.init, .init, .complete 0]).inFlight = [] := by
  have hfix : ∀ e, step hangCfg (run hangCfg [.init, .init, .complete 0]) e
      = run hangCfg [.init, .init, .complete 0] := by
    intro e
    cases e with
    | init =>
        exact initStep_of_inactive hangCfg _ (by rfl)
    | complete i =>
        refine completeTask_of_notMem hangCfg i _ ?_
        intro hmem
        have : (run hangCfg [.init, .init, .complete 0]).inFlight = [] := by rfl
        rw [this] at hmem
        simp at hmem
    | abortFire =>
        exact abortStep_of_noSignal hangCfg _ (by rfl)
  refine ⟨?_, by rfl, by rfl, by rfl, by rfl⟩
  rw [run_append_foldl]
  have : ∀ l : List Ev,
      l.foldl (step hangCfg) (run hangCfg [.init, .init, .complete 0])
        = run hangCfg [.init, .init, .complete 0] := by
    intro l
    induction l with
    | nil => rfl
    | cons e es ih =>
        simp only [List.foldl_cons, hfix e]
        exact ih
  rw [this evs]
  rfl

/-- A source that throws on the very first pull in collect mode: the
promise rejects with the raw error, not with an aggregate. -/
theorem pMap_collect_rampThrow_raw :
    (run rampThrowCfg [.init]).settledVal = some (.rejected (.plain 9)) ∧
    ∀ es, (run rampThrowCfg [.init]).settledVal
      ≠ some (.rejected (.aggregate es)) := by
  refine ⟨by rfl, ?_⟩
  intro es h
  rw [show (run rampThrowCfg [.init]).settledVal
    = some (.rejected (.plain 9)) from rfl] at h
  simp at h

/-- The same first pull throw under fail fast also rejects raw, as the
claim states. -/
theorem pMap_failFast_rampThrow_raw :
    (run rampThrowFailFastCfg [.init]).settledVal
      = some (.rejected (.plain 9)) := by
  rfl

/-! Streaming: head position skips and the empty source. -/

theorem itRun_append_foldl (cfg : ItCfg α β ε) (pre evs : List ItEv) :
    itRun cfg (pre ++ evs) = evs.foldl (itStep cfg) (itRun cfg pre) := by
  unfold itRun
  rw [List.foldl_append]

theorem statusOf_mem (ps : List (Handle α β ε)) (hid : Nat)
    (st : HStatus α β ε) (hs : statusOf ps hid = some st) :
    ∃ hh ∈ ps, hh.status = st := by
  unfold statusOf at hs
  cases hf : ps.find? (fun x => x.hid == hid) with
  | none =>
      rw [hf] at hs
      exact Option.noConfusion hs
  | some hh =>
      rw [hf] at hs
      have hs2 : hh.status = st := by
        simpa using hs
      exact ⟨hh, List.mem_of_find?_eq_some hf, hs2⟩

theorem setStatus_mem (ps : List (Handle α β ε)) (hid : Nat)
    (st : HStatus α β ε) :
    ∀ hh ∈ setStatus ps hid st,
      hh.status = st ∨ ∃ g ∈ ps, hh.status = g.status := by
  intro hh hmem
  unfold setStatus at hmem
  rcases List.mem_map.1 hmem with ⟨g, hg, hEq⟩
  by_cases hi : (g.hid == hid) = true
  · left
    rw [← hEq]
    simp [hi]
  · right
    refine ⟨g, hg, ?_⟩
    rw [← hEq]
    simp [Bool.not_eq_true] at hi
    simp [hi]

theorem trySpawn_promises_sub (cfg : ItCfg α β ε) (s : ItSt α β ε) :
    ∀ hh ∈ (trySpawn cfg s).promises,
      hh ∈ s.promises ∨ ∃ p, hh.status = .pendingPull p := by
  intro hh hm
  unfold trySpawn at hm
  split at hm
  · exact .inl hm
  · rcases List.mem_append.1 hm with h | h
    · exact .inl h
    · simp only [List.mem_singleton] at h
      right
      exact ⟨s.pullCount, by rw [h]⟩

theorem pullResolveStep_of_notPending (cfg : ItCfg α β ε) (hid : Nat)
    (s : ItSt α β ε)
    (h : ∀ pos, statusOf s.promises hid ≠ some (.pendingPull pos)) :
    pullResolveStep cfg hid s = s := by
  unfold pullResolveStep
  cases hst : statusOf s.promises hid with
  | none => rfl
  | some st =>
      cases st with
      | pendingPull pos => exact absurd hst (h pos)
      | running a => rfl
      | settledH r => rfl

theorem pullResolveStep_done (cfg : ItCfg α β ε) (hid pos : Nat)
    (s : ItSt α β ε) (hst : statusOf s.promises hid = some (.pendingPull pos))
    (hsrc : cfg.source pos = none) :
    pullResolveStep cfg hid s
      = { s with promises := setStatus s.promises hid (.settledH .hrDone) } := by
  unfold pullResolveStep
  rw [hst]
  simp only [hsrc]

theorem mapperDoneStep_of_notRunning (cfg : ItCfg α β ε) (hid : Nat)
    (s : ItSt α β ε)
    (h : ∀ a, statusOf s.promises hid ≠ some (.running a)) :
    mapperDoneStep cfg hid s = s := by
  unfold mapperDoneStep
  cases hst : statusOf s.promises hid with
  | none => rfl
  | some st =>
      cases st with
      | pendingPull pos => rfl
      | running a => exact absurd hst (h a)
      | settledH r => rfl

/-- The head skip truncation: on input `[0, 1]` with mapper `0 => skip,
1 => 2` and concurrency 1, the first outcome is the skip sentinel encoded
as `{done: true, value: pMapSkip}`; it is not spliced (its queue position
is 0), the consumer sees `done: true` and returns.  The generator ends
having yielded nothing — and no continuation of the schedule can yield
anything — although the claim expects it to yield 2. -/
theorem pMapIterable_headSkip_truncates (evs : List ItEv) :
    (itRun iterHeadSkipCfg (iterHeadSkipEvs ++ evs)).output = [] ∧
    (itRun iterHeadSkipCfg iterHeadSkipEvs).finished = true ∧
    (itRun iterHeadSkipCfg iterHeadSkipEvs).raised = none := by
  have hpe : (itRun iterHeadSkipCfg iterHeadSkipEvs).promises = [] := by rfl
  have hfix : ∀ e,
      itStep iterHeadSkipCfg (itRun iterHeadSkipCfg iterHeadSkipEvs) e
        = itRun iterHeadSkipCfg iterHeadSkipEvs := by
    intro e
    cases e with
    | pullResolve hid =>
        exact pullResolveStep_of_notPending iterHeadSkipCfg hid
          (itRun iterHeadSkipCfg iterHeadSkipEvs) (by
            intro pos hq
            rw [hpe] at hq
            exact Option.noConfusion hq)
    | mapperDone hid =>
        exact mapperDoneStep_of_notRunning iterHeadSkipCfg hid
          (itRun iterHeadSkipCfg iterHeadSkipEvs) (by
            intro a hq
            rw [hpe] at hq
            exact Option.noConfusion hq)
    | consume =>
        show consumeStep iterHeadSkipCfg (itRun iterHeadSkipCfg iterHeadSkipEvs)
          = itRun iterHeadSkipCfg iterHeadSkipEvs
        unfold consumeStep
        rw [if_pos (by rfl :
          (itRun iterHeadSkipCfg iterHeadSkipEvs).finished = true)]
  refine ⟨?_, by rfl, by rfl⟩
  rw [itRun_append_foldl]
  have hfold : ∀ l : List ItEv,
      l.foldl (itStep iterHeadSkipCfg) (itRun iterHeadSkipCfg iterHeadSkipEvs)
        = itRun iterHeadSkipCfg iterHeadSkipEvs := by
    intro l
    induction l with
    | nil => rfl
    | cons e es ih =>
        simp only [List.foldl_cons, hfix e]
        exact ih
  rw [hfold evs]
  rfl

/-- For contrast, a skip that settles while not at the head of the queue
is spliced out and the stream continues: input `[0, 1, 2]` with mapper
`1 => skip` yields `[0, 4]`. -/
theorem pMapIterable_nonHeadSkip_ok :
    (itRun
      { source := fun k => if k < 3 then some k else none
        mapper := fun a => if a = 1 then (MOut.skip : MOut Nat Nat) else .value (a * 2)
        concurrency := .fin 2
        backpressure := .fin 2 }
      [.pullResolve 0, .pullResolve 1, .mapperDone 1, .mapperDone 0,
       .consume, .pullResolve 2, .mapperDone 2, .consume, .pullResolve 3,
       .consume, .consume]).output = [0, 4] := by
  rfl

/-- With a source that never yields an item, every reachable streaming
state has yielded nothing, never invoked the mapper, raised nothing, and
every queued handle is either still pulling or settled as end of
source. -/
theorem iterNoItem_inv (cfg : ItCfg α β ε) (hsrc : ∀ k, cfg.source k = none)
    (evs : List ItEv) :
    (itRun cfg evs).output = [] ∧ (itRun cfg evs).mapperCalls = 0 ∧
    (itRun cfg evs).raised = none ∧
    ∀ hh ∈ (itRun cfg evs).promises,
      hh.status = .settledH .hrDone ∨ ∃ p, hh.status = .pendingPull p := by
  have hstep : ∀ s : ItSt α β ε,
      (s.output = [] ∧ s.mapperCalls = 0 ∧ s.raised = none ∧
        ∀ hh ∈ s.promises,
          hh.status = .settledH .hrDone ∨ ∃ p, hh.status = .pendingPull p) →
      ∀ e, ((itStep cfg s e).output = [] ∧ (itStep cfg s e).mapperCalls = 0 ∧
        (itStep cfg s e).raised = none ∧
        ∀ hh ∈ (itStep cfg s e).promises,
          hh.status = .settledH .hrDone ∨ ∃ p, hh.status = .pendingPull p) := by
    intro s h e
    obtain ⟨ho, hm, hr, hp⟩ := h
    cases e with
    | pullResolve hid =>
        have hdef : itStep cfg s (.pullResolve hid) = pullResolveStep cfg hid s := rfl
        rw [hdef]
        cases hst : statusOf s.promises hid with
        | none =>
            rw [pullResolveStep_of_notPending cfg hid s
              (by intro pos hq; rw [hst] at hq; exact Option.noConfusion hq)]
            exact ⟨ho, hm, hr, hp⟩
        | some st =>
            cases st with
            | pendingPull pos =>
                rw [pullResolveStep_done cfg hid pos s hst (hsrc pos)]
                refine ⟨ho, hm, hr, ?_⟩
                intro hh hmem
                rcases setStatus_mem s.promises hid _ hh hmem with hnew | ⟨g, hg, hEq⟩
                · exact .inl hnew
                · rw [hEq]
                  exact hp g hg
            | running a =>
                rw [pullResolveStep_of_notPending cfg hid s
                  (by intro pos hq; rw [hst] at hq; simp at hq)]
                exact ⟨ho, hm, hr, hp⟩
            | settledH r =>
                rw [pullResolveStep_of_notPending cfg hid s
                  (by intro pos hq; rw [hst] at hq; simp at hq)]
                exact ⟨ho, hm, hr, hp⟩
    | mapperDone hid =>
        have hdef : itStep cfg s (.mapperDone hid) = mapperDoneStep cfg hid s := rfl
        rw [hdef]
        rw [mapperDoneStep_of_notRunning cfg hid s ?hnr]
        · exact ⟨ho, hm, hr, hp⟩
        case hnr =>
          intro a hq
          rcases statusOf_mem s.promises hid _ hq with ⟨hh, hmem, hstat⟩
          rcases hp hh hmem with hdone | ⟨p, hpend⟩
          · rw [hstat] at hdone
            exact HStatus.noConfusion hdone
          · rw [hstat] at hpend
            exact HStatus.noConfusion hpend
    | consume =>
        have hdef : itStep cfg s .consume = consumeStep cfg s := rfl
        rw [hdef]
        unfold consumeStep
        by_cases hf : s.finished = true
        · rw [if_pos hf]
          exact ⟨ho, hm, hr, hp⟩
        · rw [if_neg hf]
          cases hps : s.promises with
          | nil =>
              simp only []
              exact ⟨ho, hm, hr, by intro hh hmem; simp at hmem⟩
          | cons hh rest =>
              have hmemh : hh ∈ s.promises := by
                rw [hps]
                exact List.mem_cons_self hh rest
              rcases hp hh hmemh with hdone | ⟨p, hpend⟩
              · simp only [hdone]
                refine ⟨ho, hm, hr, ?_⟩
                intro g hg
                refine hp g ?_
                rw [hps]
                exact List.mem_cons_of_mem hh hg
              · simp only [hpend]
                exact ⟨ho, hm, hr, hp⟩
  unfold itRun
  induction evs using List.reverseRecOn with
  | nil =>
      refine ⟨?_, ?_, ?_, ?_⟩ <;>
        first
          | exact (trySpawn_stable cfg {}).2.1
          | exact (trySpawn_stable cfg {}).2.2.1
          | exact (trySpawn_stable cfg {}).2.2.2.2.1
          | (intro hh hmem
             rcases trySpawn_promises_sub cfg {} hh hmem with hin | ⟨p, hpend⟩
             · simp at hin
             · exact .inr ⟨p, hpend⟩)
  | append_singleton es e ih =>
      rw [List.foldl_append]
      exact hstep _ ih e

/-! The master invariant of the batch scheduler on list sources. -/

theorem enum_range (n : Nat) :
    (List.range n).enum = (List.range n).map fun i => (i, i) := by
  apply List.ext
  intro k
  rw [List.get?_eq_getElem?, List.get?_eq_getElem?, List.getElem?_enum,
    List.getElem?_map]
  by_cases hk : k < n
  · rw [List.getElem?_range hk]
    rfl
  · rw [List.getElem?_eq_none (by simpa using Nat.le_of_not_lt hk)]
    rfl

theorem compact_map_range {X : Type} (n : Nat) (f : Nat → X)
    (skipped : List Nat) :
    compact ((List.range n).map f) skipped
      = (List.range n).filterMap
          fun i => if i ∈ skipped then none else some (f i) := by
  unfold compact
  rw [List.enum_map, List.filterMap_map, enum_range, List.filterMap_map]
  rfl

theorem outAt_of_ge (cfg : Cfg α β ε ρ) (inp : List α)
    (hsrc : cfg.source = listSource inp) (i : Nat)
    (hi : inp.length ≤ i) : outAt cfg i = none := by
  unfold outAt
  rw [hsrc, listSource_of_ge inp i hi]

theorem outAt_of_lt (cfg : Cfg α β ε ρ) (inp : List α)
    (hsrc : cfg.source = listSource inp) (i : Nat)
    (hi : i < inp.length) :
    outAt cfg i = some (cfg.mapper i (inp.get ⟨i, hi⟩)) := by
  unfold outAt
  rw [hsrc, listSource_of_lt inp i hi]

theorem errOf_of_ge (cfg : Cfg α β ε ρ) (inp : List α)
    (hsrc : cfg.source = listSource inp) (i : Nat)
    (hi : inp.length ≤ i) : errOf cfg i = none := by
  unfold errOf
  rw [outAt_of_ge cfg inp hsrc i hi]

theorem doNext_snd_throws (cfg : Cfg α β ε ρ) (s : St β ε ρ) (e : ε)
    (h : (doNext cfg s).2 = some e) :
    cfg.source s.pullCount = .throws e := by
  by_cases hres : s.isResolved = true
  · rw [doNext_of_resolved cfg s hres] at h
    exact Option.noConfusion h
  · have hres' : s.isResolved = false := by simpa using hres
    cases hsrc : cfg.source s.pullCount with
    | yields a =>
        rw [doNext_of_yields cfg s a hres' hsrc] at h
        exact Option.noConfusion h
    | throws e2 =>
        rw [doNext_of_throws cfg s e2 hres' hsrc] at h
        simp only [Option.some_inj] at h
        rw [h]
    | done =>
        by_cases hc : s.resolvingCount = 0
        · by_cases hagg : cfg.stopOnError = false ∧ 0 < s.errors.length
          · rw [doNext_of_done_agg cfg s hres' hsrc hc hagg.1 hagg.2] at h
            exact Option.noConfusion h
          · by_cases hsk : s.skippedIndexes.length = 0
            · rw [doNext_of_done_resolve cfg s hres' hsrc hc hagg hsk] at h
              exact Option.noConfusion h
            · rw [doNext_of_done_compact cfg s hres' hsrc hc hagg hsk] at h
              exact Option.noConfusion h
        · rw [doNext_of_done_busy cfg s hres' hsrc hc] at h
          exact Option.noConfusion h

theorem doNext_snd_none_list (cfg : Cfg α β ε ρ) (inp : List α)
    (hsrc : cfg.source = listSource inp) (s : St β ε ρ) :
    (doNext cfg s).2 = none := by
  cases hd : (doNext cfg s).2 with
  | none => rfl
  | some e =>
      have ht := doNext_snd_throws cfg s e hd
      rw [hsrc] at ht
      exact absurd ht (listSource_ne_throws inp s.pullCount e)

/-- When every index has completed and none failed, the result array is
exactly the per index cell list. -/
theorem result_eq_map_listCell (cfg : Cfg α β ε ρ) (inp : List α)
    (s : St β ε ρ) (hsrc : cfg.source = listSource inp)
    (hcompl : ∀ i, i ∈ s.completedLog ↔ i < inp.length)
    (hnf : ∀ i, i < inp.length → errOf cfg i = none)
    (hset : ∀ j ∈ s.completedLog, ∀ c, listCell cfg j = some c →
      s.result.get? j = some (some c))
    (hlen : s.result.length ≤ inp.length) :
    s.result = (List.range inp.length).map fun i => listCell cfg i := by
  apply List.ext
  intro j
  rw [List.get?_eq_getElem? ((List.range _).map _) j, List.getElem?_map]
  by_cases hj : j < inp.length
  · rw [List.getElem?_range hj]
    have hmem := (hcompl j).2 hj
    have hout := outAt_of_lt cfg inp hsrc j hj
    have hcell : ∃ c, listCell cfg j = some c := by
      rcases hm : cfg.mapper j (inp.get ⟨j, hj⟩) with b | _ | e
      · exact ⟨.val b, by unfold listCell; rw [hout, hm]⟩
      · exact ⟨.skipMark, by unfold listCell; rw [hout, hm]⟩
      · exfalso
        have herr := hnf j hj
        unfold errOf at herr
        rw [hout, hm] at herr
        exact Option.noConfusion herr
    obtain ⟨c, hc⟩ := hcell
    rw [hset j hmem c hc]
    simp [hc]
  · have h1 : s.result.get? j = none :=
      List.get?_len_le (le_trans hlen (Nat.le_of_not_lt hj))
    have h2 : (List.range inp.length)[j]? = none :=
      List.getElem?_eq_none (by simpa using Nat.le_of_not_lt hj)
    rw [h1, h2]
    rfl

/-- With no failures and no skips, the raw result array resolves to the
specified output. -/
theorem resolve_noskip_eq_expected (cfg : Cfg α β ε ρ) (inp : List α)
    (hsrc : cfg.source = listSource inp)
    (hnf : ∀ i, i < inp.length → errOf cfg i = none)
    (hns : ∀ i, i < inp.length → isSkipIdx cfg i = false) :
    ((List.range inp.length).map fun i => listCell cfg i)
      = expectedOut cfg inp.length := by
  unfold expectedOut
  rw [← List.filterMap_eq_map (fun i => listCell cfg i)]
  apply List.filterMap_congr
  intro i hi_mem
  have hi := List.mem_range.1 hi_mem
  have hout := outAt_of_lt cfg inp hsrc i hi
  rcases hm : cfg.mapper i (inp.get ⟨i, hi⟩) with b | _ | e
  · simp only [Function.comp_apply, listCell, hout, hm]
  · exfalso
    have := hns i hi
    unfold isSkipIdx at this
    rw [hout, hm] at this
    exact Bool.true_eq_false.mp this
  · exfalso
    have := hnf i hi
    unfold errOf at this
    rw [hout, hm] at this
    exact Option.noConfusion this

/-- With no failures, compaction of the cell list along the recorded skip
indices produces the specified output. -/
theorem compact_eq_expected (cfg : Cfg α β ε ρ) (inp : List α)
    (skipped : List Nat) (hsrc : cfg.source = listSource inp)
    (hnf : ∀ i, i < inp.length → errOf cfg i = none)
    (hsm : ∀ i, i ∈ skipped ↔ (i < inp.length ∧ isSkipIdx cfg i = true)) :
    compact ((List.range inp.length).map fun i => listCell cfg i) skipped
      = expectedOut cfg inp.length := by
  rw [compact_map_range]
  unfold expectedOut
  apply List.filterMap_congr
  intro i hi_mem
  have hi := List.mem_range.1 hi_mem
  have hout := outAt_of_lt cfg inp hsrc i hi
  rcases hm : cfg.mapper i (inp.get ⟨i, hi⟩) with b | _ | e
  · have hns : i ∉ skipped := by
      intro hmem
      have := (hsm i).1 hmem
      unfold isSkipIdx at this
      rw [hout, hm] at this
      exact Bool.false_ne_true this.2
    rw [if_neg hns]
    simp only [listCell, hout, hm]
  · have hyes : i ∈ skipped := by
      refine (hsm i).2 ⟨hi, ?_⟩
      unfold isSkipIdx
      rw [hout, hm]
    rw [if_pos hyes]
    simp only [hout, hm]
  · exfalso
    have := hnf i hi
    unfold errOf at this
    rw [hout, hm] at this
    exact Option.noConfusion this

/-- Builder of the invariant for a state whose promise is pending. -/
theorem inv_unsettled_mk (cfg : Cfg α β ε ρ) (inp : List α) (t : St β ε ρ)
    (hsv : t.settledVal = none) (hres : t.isResolved = false)
    (curEq : t.currentIndex = t.pullCount)
    (logSub : ∀ i ∈ t.completedLog, i < min t.pullCount inp.length)
    (logNodup : t.completedLog.Nodup)
    (failEq : t.failLog = t.completedLog.filterMap (errOf cfg))
    (errEq : t.errors = if cfg.stopOnError then [] else t.failLog)
    (skipEq : t.skippedIndexes = t.completedLog.filter fun i => isSkipIdx cfg i)
    (resGet : ∀ j c, t.result.get? j = some (some c) →
      j ∈ t.completedLog ∧ listCell cfg j = some c)
    (resSet : ∀ j ∈ t.completedLog, ∀ c, listCell cfg j = some c →
      t.result.get? j = some (some c))
    (resLen : t.result.length ≤ inp.length)
    (mcEq : t.mapperCalls = t.completedLog.length)
    (flightNodup : t.inFlight.Nodup)
    (flightPart : ∀ i, (i ∈ t.inFlight ∨ i ∈ t.completedLog) ↔
      i < min t.pullCount inp.length)
    (flightDisj : ∀ i ∈ t.inFlight, i ∉ t.completedLog)
    (countEq : t.resolvingCount = t.inFlight.length)
    (doneIff : t.isIterableDone = true ↔ inp.length < t.pullCount)
    (ffEmpty : cfg.stopOnError = true → t.failLog = []) :
    Inv cfg inp t := by
  refine ⟨curEq, logSub, logNodup, failEq, errEq, skipEq, resGet, resSet,
    resLen, mcEq, ?_, flightNodup, fun _ => flightPart, fun _ => flightDisj,
    fun _ => countEq, fun _ => doneIff, fun _ => ffEmpty, ?_, ?_, ?_, ?_⟩
  · rw [hres, hsv]
    rfl
  · intro l h
    rw [hsv] at h
    exact Option.noConfusion h
  · intro e h
    rw [hsv] at h
    exact Option.noConfusion h
  · intro es h
    rw [hsv] at h
    exact Option.noConfusion h
  · intro r h
    rw [hsv] at h
    exact Option.noConfusion h

/-- Builder of the invariant for a state whose promise has settled with
value `v`. -/
theorem inv_settled_mk (cfg : Cfg α β ε ρ) (inp : List α) (t : St β ε ρ)
    (v : Settled β ε ρ)
    (hsv : t.settledVal = some v) (hres : t.isResolved = true)
    (curEq : t.currentIndex = t.pullCount)
    (logSub : ∀ i ∈ t.completedLog, i < min t.pullCount inp.length)
    (logNodup : t.completedLog.Nodup)
    (failEq : t.failLog = t.completedLog.filterMap (errOf cfg))
    (errEq : t.errors = if cfg.stopOnError then [] else t.failLog)
    (skipEq : t.skippedIndexes = t.completedLog.filter fun i => isSkipIdx cfg i)
    (resGet : ∀ j c, t.result.get? j = some (some c) →
      j ∈ t.completedLog ∧ listCell cfg j = some c)
    (resSet : ∀ j ∈ t.completedLog, ∀ c, listCell cfg j = some c →
      t.result.get? j = some (some c))
    (resLen : t.result.length ≤ inp.length)
    (mcEq : t.mapperCalls = t.completedLog.length)
    (flightNodup : t.inFlight.Nodup)
    (hok : ∀ l, v = .ok l → l = expectedOut cfg inp.length ∧
      (∀ i, i ∈ t.completedLog ↔ i < inp.length) ∧
      (∀ i, errOf cfg i = none) ∧
      t.isIterableDone = true ∧ t.resolvingCount = 0)
    (hplain : ∀ e, v = .rejected (.plain e) →
      cfg.stopOnError = true ∧ t.failLog = [e])
    (haggc : ∀ es, v = .rejected (.aggregate es) →
      cfg.stopOnError = false ∧ es = t.failLog ∧ es ≠ [] ∧
      (∀ i, i ∈ t.completedLog ↔ i < inp.length) ∧
      t.isIterableDone = true ∧ t.resolvingCount = 0)
    (habort : ∀ r, v ≠ .rejected (.abortReason r)) :
    Inv cfg inp t := by
  refine ⟨curEq, logSub, logNodup, failEq, errEq, skipEq, resGet, resSet,
    resLen, mcEq, ?_, flightNodup, ?_, ?_, ?_, ?_, ?_, ?_, ?_, ?_, ?_⟩
  · rw [hres, hsv]
    rfl
  · intro h
    rw [hsv] at h
    exact Option.noConfusion h
  · intro h
    rw [hsv] at h
    exact Option.noConfusion h
  · intro h
    rw [hsv] at h
    exact Option.noConfusion h
  · intro h
    rw [hsv] at h
    exact Option.noConfusion h
  · intro h
    rw [hsv] at h
    exact Option.noConfusion h
  · intro l h
    rw [hsv] at h
    injection h with h2
    exact hok l h2
  · intro e h
    rw [hsv] at h
    injection h with h2
    exact hplain e h2
  · intro es h
    rw [hsv] at h
    injection h with h2
    exact haggc es h2
  · intro r h
    rw [hsv] at h
    injection h with h2
    exact absurd h2 (habort r)

/-- One pull preserves the master invariant. -/
theorem inv_doNext (cfg : Cfg α β ε ρ) (inp : List α)
    (hsrc : cfg.source = listSource inp) (s : St β ε ρ)
    (hI : Inv cfg inp s) (hun : s.settledVal = none) :
    Inv cfg inp (doNext cfg s).1 := by
  have hres : s.isResolved = false := by
    have h := hI.resolvedIff
    rw [hun] at h
    simpa using h
  have hcur := hI.curEq
  rcases Nat.lt_or_ge s.pullCount inp.length with hlt | hge
  · -- the pull yields an element and spawns a task
    have hy : cfg.source s.pullCount
        = .yields (inp.get ⟨s.pullCount, hlt⟩) := by
      rw [hsrc]
      exact listSource_of_lt inp s.pullCount hlt
    rw [doNext_of_yields cfg s _ hres hy]
    have hminp : min s.pullCount inp.length = s.pullCount :=
      Nat.min_eq_left (Nat.le_of_lt hlt)
    have hmin1 : min (s.pullCount + 1) inp.length = s.pullCount + 1 :=
      Nat.min_eq_left hlt
    have hnotmem : s.currentIndex ∉ s.inFlight := by
      intro hmem
      have h := (hI.flightPart hun s.currentIndex).1 (Or.inl hmem)
      rw [hminp] at h
      omega
    have hnotlog : s.currentIndex ∉ s.completedLog := by
      intro hmem
      have h := hI.logSub s.currentIndex hmem
      rw [hminp] at h
      omega
    refine inv_unsettled_mk cfg inp _ hun hres (by simp [hcur]) ?_
      hI.logNodup hI.failEq hI.errEq hI.skipEq hI.resGet hI.resSet
      hI.resLen hI.mcEq ?_ ?_ ?_ ?_ ?_ (hI.ffEmpty hun)
    · intro i hi
      have := hI.logSub i hi
      simp only []
      omega
    · show (s.inFlight ++ [s.currentIndex]).Nodup
      rw [List.nodup_append]
      exact ⟨hI.flightNodup, List.nodup_singleton _,
        List.disjoint_singleton.2 hnotmem⟩
    · intro i
      have hold := hI.flightPart hun i
      rw [hminp] at hold
      show (i ∈ s.inFlight ++ [s.currentIndex] ∨ i ∈ s.completedLog) ↔ _
      simp only [List.mem_append, List.mem_singleton, hmin1]
      constructor
      · rintro ((hf | hip) | hlog)
        · have := hold.1 (Or.inl hf)
          omega
        · omega
        · have := hold.1 (Or.inr hlog)
          omega
      · intro hi
        by_cases hip : i < s.pullCount
        · rcases hold.2 hip with hf | hlog
          · exact Or.inl (Or.inl hf)
          · exact Or.inr hlog
        · have : i = s.currentIndex := by omega
          exact Or.inl (Or.inr this)
    · intro i hi
      rcases List.mem_append.1 hi with hf | hip
      · exact hI.flightDisj hun i hf
      · have : i = s.currentIndex := List.mem_singleton.1 hip
        rw [this]
        exact hnotlog
    · show s.resolvingCount + 1 = ((s.inFlight ++ [s.currentIndex]).length : Int)
      rw [hI.countEq hun]
      simp [List.length_append]
    · show s.isIterableDone = true ↔ inp.length < s.pullCount + 1
      constructor
      · intro hf
        have := (hI.doneIff hun).1 hf
        omega
      · intro h
        omega
  · -- the pull reports done
    have hd : cfg.source s.pullCount = .done := by
      rw [hsrc]
      exact listSource_of_ge inp s.pullCount hge
    have hminn : min s.pullCount inp.length = inp.length :=
      Nat.min_eq_right hge
    have hminn1 : min (s.pullCount + 1) inp.length = inp.length :=
      Nat.min_eq_right (by omega)
    by_cases hc : s.resolvingCount = 0
    · have hflight : s.inFlight = [] := by
        have h := hI.countEq hun
        rw [hc] at h
        have : s.inFlight.length = 0 := by exact_mod_cast h.symm
        exact List.length_eq_zero.mp this
      have hcompl : ∀ i, i ∈ s.completedLog ↔ i < inp.length := by
        intro i
        have h := hI.flightPart hun i
        rw [hminn, hflight] at h
        simpa using h
      by_cases hagg : cfg.stopOnError = false ∧ 0 < s.errors.length
      · -- reject with the aggregate of the collected errors
        rw [doNext_of_done_agg cfg s hres hd hc hagg.1 hagg.2]
        rw [rejectSt_of_none _ _ (by exact hun)]
        have herrs : s.errors = s.failLog := by
          rw [hI.errEq, hagg.1]
          rfl
        refine inv_settled_mk cfg inp _ (.rejected (.aggregate s.errors))
          rfl rfl (by simp [hcur]) ?_ hI.logNodup hI.failEq hI.errEq
          hI.skipEq hI.resGet hI.resSet hI.resLen hI.mcEq
          (by rw [hflight]; exact List.nodup_nil) ?_ ?_ ?_ ?_
        · intro i hi
          have := hI.logSub i hi
          simp only []
          omega
        · intro l h
          exact Settled.noConfusion h
        · intro e h
          injection h with h2
          exact Reason.noConfusion h2
        · intro es h
          injection h with h2
          injection h2 with h3
          refine ⟨hagg.1, ?_, ?_, hcompl, rfl, hc⟩
          · rw [← h3, herrs]
          · rw [← h3]
            intro hnil
            rw [hnil] at hagg
            simp at hagg
        · intro r h
          injection h with h2
          exact Reason.noConfusion h2
      · -- resolve
        have hnoerr : s.failLog = [] := by
          by_cases hst : cfg.stopOnError = true
          · exact hI.ffEmpty hun hst
          · have hst' : cfg.stopOnError = false := by simpa using hst
            have hlen0 : s.errors.length = 0 := by
              by_cases h0 : 0 < s.errors.length
              · exact absurd ⟨hst', h0⟩ hagg
              · omega
            have : s.errors = [] := List.length_eq_zero.mp hlen0
            have h2 := hI.errEq
            rw [this, hst'] at h2
            simpa using h2.symm
        have hnf : ∀ i, i < inp.length → errOf cfg i = none := by
          intro i hi
          have h := hI.failEq
          rw [hnoerr] at h
          have h2 := List.filterMap_eq_nil.mp h.symm
          exact h2 i ((hcompl i).2 hi)
        have hnfAll : ∀ i, errOf cfg i = none := by
          intro i
          by_cases hi : i < inp.length
          · exact hnf i hi
          · exact errOf_of_ge cfg inp hsrc i (Nat.le_of_not_lt hi)
        have hresmap : s.result
            = (List.range inp.length).map fun i => listCell cfg i :=
          result_eq_map_listCell cfg inp s hsrc hcompl hnf hI.resSet hI.resLen
        by_cases hsk : s.skippedIndexes.length = 0
        · rw [doNext_of_done_resolve cfg s hres hd hc hagg hsk]
          rw [resolveSt_of_none _ _ (by exact hun)]
          have hskNil : s.skippedIndexes = [] := List.length_eq_zero.mp hsk
          have hns : ∀ i, i < inp.length → isSkipIdx cfg i = false := by
            intro i hi
            have h := hI.skipEq
            rw [hskNil] at h
            have h2 := List.filter_eq_nil.mp h.symm
            have h3 := h2 i ((hcompl i).2 hi)
            simpa using h3
          have hval : s.result = expectedOut cfg inp.length := by
            rw [hresmap]
            exact resolve_noskip_eq_expected cfg inp hsrc hnf hns
          refine inv_settled_mk cfg inp _ (.ok s.result)
            rfl rfl (by simp [hcur]) ?_ hI.logNodup hI.failEq hI.errEq
            hI.skipEq hI.resGet hI.resSet hI.resLen hI.mcEq
            (by rw [hflight]; exact List.nodup_nil) ?_ ?_ ?_ ?_
          · intro i hi
            have := hI.logSub i hi
            simp only []
            omega
          · intro l h
            injection h with h2
            exact ⟨by rw [← h2, hval], hcompl, hnfAll, rfl, hc⟩
          · intro e h
            exact Settled.noConfusion h
          · intro es h
            exact Settled.noConfusion h
          · intro r h
            exact Settled.noConfusion h
        · rw [doNext_of_done_compact cfg s hres hd hc hagg hsk]
          rw [resolveSt_of_none _ _ (by exact hun)]
          have hsm : ∀ i, i ∈ s.skippedIndexes ↔
              (i < inp.length ∧ isSkipIdx cfg i = true) := by
            intro i
            rw [hI.skipEq, List.mem_filter]
            constructor
            · rintro ⟨hmem, hskp⟩
              exact ⟨(hcompl i).1 hmem, hskp⟩
            · rintro ⟨hi, hskp⟩
              exact ⟨(hcompl i).2 hi, hskp⟩
          have hval : compact s.result s.skippedIndexes
              = expectedOut cfg inp.length := by
            rw [hresmap]
            exact compact_eq_expected cfg inp s.skippedIndexes hsrc hnf hsm
          refine inv_settled_mk cfg inp _
            (.ok (compact s.result s.skippedIndexes))
            rfl rfl (by simp [hcur]) ?_ hI.logNodup hI.failEq hI.errEq
            hI.skipEq hI.resGet hI.resSet hI.resLen hI.mcEq
            (by rw [hflight]; exact List.nodup_nil) ?_ ?_ ?_ ?_
          · intro i hi
            have := hI.logSub i hi
            simp only []
            omega
          · intro l h
            injection h with h2
            exact ⟨by rw [← h2, hval], hcompl, hnfAll, rfl, hc⟩
          · intro e h
            exact Settled.noConfusion h
          · intro es h
            exact Settled.noConfusion h
          · intro r h
            exact Settled.noConfusion h
    · -- done observed while tasks are still running
      rw [doNext_of_done_busy cfg s hres hd hc]
      refine inv_unsettled_mk cfg inp _ hun hres (by simp [hcur]) ?_
        hI.logNodup hI.failEq hI.errEq hI.skipEq hI.resGet hI.resSet
        hI.resLen hI.mcEq hI.flightNodup ?_ (hI.flightDisj hun)
        (hI.countEq hun) ?_ (hI.ffEmpty hun)
      · intro i hi
        have := hI.logSub i hi
        simp only []
        omega
      · intro i
        have hold := hI.flightPart hun i
        rw [hminn] at hold
        show (i ∈ s.inFlight ∨ i ∈ s.completedLog) ↔ _
        rw [hminn1]
        exact hold
      · show (true = true) ↔ inp.length < s.pullCount + 1
        constructor
        · intro _
          omega
        · intro _
          rfl

/-- The invariant ignores the ramp up loop bookkeeping fields. -/
theorem inv_admin (cfg : Cfg α β ε ρ) (inp : List α) (s : St β ε ρ)
    (hI : Inv cfg inp s) (a b : Nat) (c : Bool) :
    Inv cfg inp { s with initI := a, initCalls := b, initActive := c } :=
  ⟨hI.curEq, hI.logSub, hI.logNodup, hI.failEq, hI.errEq, hI.skipEq,
    hI.resGet, hI.resSet, hI.resLen, hI.mcEq, hI.resolvedIff,
    hI.flightNodup, hI.flightPart, hI.flightDisj, hI.countEq, hI.doneIff,
    hI.ffEmpty, hI.okChar, hI.plainChar, hI.aggChar, hI.abortChar⟩

/-- Mid step state after a value outcome was recorded (lines 211-217),
before the chained pull. -/
theorem inv_mid_value (cfg : Cfg α β ε ρ) (inp : List α)
    (hsrc : cfg.source = listSource inp) (s : St β ε ρ) (i : Nat) (b : β)
    (hI : Inv cfg inp s) (hun : s.settledVal = none)
    (hm : i ∈ s.inFlight) (ho : outAt cfg i = some (.value b)) :
    Inv cfg inp
      { s with inFlight := s.inFlight.erase i,
               mapperCalls := s.mapperCalls + 1,
               completedLog := s.completedLog ++ [i],
               result := writeAt s.result i (.val b),
               resolvingCount := s.resolvingCount - 1 } := by
  have hres : s.isResolved = false := by
    have h := hI.resolvedIff
    rw [hun] at h
    simpa using h
  have hiLt : i < min s.pullCount inp.length :=
    (hI.flightPart hun i).1 (Or.inl hm)
  have hiN : i < inp.length := lt_of_lt_of_le hiLt (min_le_right _ _)
  have hiNotLog : i ∉ s.completedLog := hI.flightDisj hun i hm
  have hcell : listCell cfg i = some (.val b) := by
    unfold listCell
    rw [ho]
  have herr : errOf cfg i = none := by
    unfold errOf
    rw [ho]
  have hskp : isSkipIdx cfg i = false := by
    unfold isSkipIdx
    rw [ho]
  have hpos : 1 ≤ s.inFlight.length := List.length_pos.2 (by
    intro hnil
    rw [hnil] at hm
    simp at hm)
  refine inv_unsettled_mk cfg inp _ hun hres hI.curEq ?_ ?_ ?_ ?_ ?_ ?_ ?_
    ?_ ?_ ?_ ?_ ?_ ?_ ?_ ?_
  · intro j hj
    rcases List.mem_append.1 hj with hjo | hji
    · exact hI.logSub j hjo
    · rw [List.mem_singleton.1 hji]
      exact hiLt
  · rw [List.nodup_append]
    exact ⟨hI.logNodup, List.nodup_singleton _,
      List.disjoint_singleton.2 hiNotLog⟩
  · show s.failLog = (s.completedLog ++ [i]).filterMap (errOf cfg)
    rw [List.filterMap_append, ← hI.failEq]
    simp [herr]
  · exact hI.errEq
  · show s.skippedIndexes = (s.completedLog ++ [i]).filter _
    rw [List.filter_append, ← hI.skipEq]
    simp [hskp]
  · intro j c hj
    rw [writeAt_get?] at hj
    by_cases hji : j = i
    · rw [if_pos hji] at hj
      have hc : c = .val b := by
        injection hj with hj2
        injection hj2 with hj3
        exact hj3.symm
      subst hji
      exact ⟨List.mem_append.2 (Or.inr (List.mem_singleton.2 rfl)),
        by rw [hc]; exact hcell⟩
    · rw [if_neg hji] at hj
      by_cases hjl : j < s.result.length
      · rw [if_pos hjl] at hj
        obtain ⟨hmem, hc⟩ := hI.resGet j c hj
        exact ⟨List.mem_append.2 (Or.inl hmem), hc⟩
      · rw [if_neg hjl] at hj
        by_cases hjlt : j < i
        · rw [if_pos hjlt] at hj
          injection hj with hj2
          exact Option.noConfusion hj2
        · rw [if_neg hjlt] at hj
          exact Option.noConfusion hj
  · intro j hjmem c hc
    rw [writeAt_get?]
    rcases List.mem_append.1 hjmem with hjold | hji
    · have hji : ¬ j = i := fun h => hiNotLog (h ▸ hjold)
      rw [if_neg hji]
      have hold := hI.resSet j hjold c hc
      have hjl : j < s.result.length := by
        by_contra hcon
        rw [List.get?_len_le (Nat.le_of_not_lt hcon)] at hold
        exact Option.noConfusion hold
      rw [if_pos hjl]
      exact hold
    · have hj : j = i := List.mem_singleton.1 hji
      subst hj
      rw [if_pos rfl]
      rw [hcell] at hc
      injection hc with hc2
      rw [hc2]
  · show (writeAt s.result i (.val b)).length ≤ inp.length
    rw [writeAt_length]
    have := hI.resLen
    omega
  · show s.mapperCalls + 1 = (s.completedLog ++ [i]).length
    rw [List.length_append, hI.mcEq]
    rfl
  · exact hI.flightNodup.erase i
  · intro j
    show (j ∈ s.inFlight.erase i ∨ j ∈ s.completedLog ++ [i]) ↔ _
    have hold := hI.flightPart hun j
    simp only [List.mem_append, List.mem_singleton]
    constructor
    · rintro (hf | hlog | hji)
      · exact hold.1 (Or.inl (List.mem_of_mem_erase hf))
      · exact hold.1 (Or.inr hlog)
      · rw [hji]
        exact hiLt
    · intro hj
      rcases hold.2 hj with hf | hlog
      · by_cases hji : j = i
        · exact Or.inr (Or.inr hji)
        · exact Or.inl ((List.mem_erase_of_ne hji).2 hf)
      · exact Or.inr (Or.inl hlog)
  · intro j hj
    have hjf : j ∈ s.inFlight := List.mem_of_mem_erase hj
    have hji : j ≠ i := by
      intro h
      rw [h] at hj
      exact hI.flightNodup.not_mem_erase hj
    intro hcon
    rcases List.mem_append.1 hcon with hlog | hsing
    · exact hI.flightDisj hun j hjf hlog
    · exact hji (List.mem_singleton.1 hsing)
  · show s.resolvingCount - 1 = ((s.inFlight.erase i).length : Int)
    rw [hI.countEq hun, List.length_erase_of_mem hm]
    omega
  · exact hI.doneIff hun
  · exact hI.ffEmpty hun

/-- Mid step state after a skip sentinel was recorded (lines 211-217),
before the chained pull. -/
theorem inv_mid_skip (cfg : Cfg α β ε ρ) (inp : List α)
    (hsrc : cfg.source = listSource inp) (s : St β ε ρ) (i : Nat)
    (hI : Inv cfg inp s) (hun : s.settledVal = none)
    (hm : i ∈ s.inFlight) (ho : outAt cfg i = some .skip) :
    Inv cfg inp
      { s with inFlight := s.inFlight.erase i,
               mapperCalls := s.mapperCalls + 1,
               completedLog := s.completedLog ++ [i],
               skippedIndexes := s.skippedIndexes ++ [i],
               result := writeAt s.result i .skipMark,
               resolvingCount := s.resolvingCount - 1 } := by
  have hres : s.isResolved = false := by
    have h := hI.resolvedIff
    rw [hun] at h
    simpa using h
  have hiLt : i < min s.pullCount inp.length :=
    (hI.flightPart hun i).1 (Or.inl hm)
  have hiNotLog : i ∉ s.completedLog := hI.flightDisj hun i hm
  have hcell : listCell cfg i = some .skipMark := by
    unfold listCell
    rw [ho]
  have herr : errOf cfg i = none := by
    unfold errOf
    rw [ho]
  have hskp : isSkipIdx cfg i = true := by
    unfold isSkipIdx
    rw [ho]
  refine inv_unsettled_mk cfg inp _ hun hres hI.curEq ?_ ?_ ?_ ?_ ?_ ?_ ?_
    ?_ ?_ ?_ ?_ ?_ ?_ ?_ ?_
  · intro j hj
    rcases List.mem_append.1 hj with hjo | hji
    · exact hI.logSub j hjo
    · rw [List.mem_singleton.1 hji]
      exact hiLt
  · rw [List.nodup_append]
    exact ⟨hI.logNodup, List.nodup_singleton _,
      List.disjoint_singleton.2 hiNotLog⟩
  · show s.failLog = (s.completedLog ++ [i]).filterMap (errOf cfg)
    rw [List.filterMap_append, ← hI.failEq]
    simp [herr]
  · exact hI.errEq
  · show s.skippedIndexes ++ [i] = (s.completedLog ++ [i]).filter _
    rw [List.filter_append, ← hI.skipEq]
    simp [hskp]
  · intro j c hj
    rw [writeAt_get?] at hj
    by_cases hji : j = i
    · rw [if_pos hji] at hj
      have hc : c = .skipMark := by
        injection hj with hj2
        injection hj2 with hj3
        exact hj3.symm
      subst hji
      exact ⟨List.mem_append.2 (Or.inr (List.mem_singleton.2 rfl)),
        by rw [hc]; exact hcell⟩
    · rw [if_neg hji] at hj
      by_cases hjl : j < s.result.length
      · rw [if_pos hjl] at hj
        obtain ⟨hmem, hc⟩ := hI.resGet j c hj
        exact ⟨List.mem_append.2 (Or.inl hmem), hc⟩
      · rw [if_neg hjl] at hj
        by_cases hjlt : j < i
        · rw [if_pos hjlt] at hj
          injection hj with hj2
          exact Option.noConfusion hj2
        · rw [if_neg hjlt] at hj
          exact Option.noConfusion hj
  · intro j hjmem c hc
    rw [writeAt_get?]
    rcases List.mem_append.1 hjmem with hjold | hji
    · have hji : ¬ j = i := fun h => hiNotLog (h ▸ hjold)
      rw [if_neg hji]
      have hold := hI.resSet j hjold c hc
      have hjl : j < s.result.length := by
        by_contra hcon
        rw [List.get?_len_le (Nat.le_of_not_lt hcon)] at hold
        exact Option.noConfusion hold
      rw [if_pos hjl]
      exact hold
    · have hj : j = i := List.mem_singleton.1 hji
      subst hj
      rw [if_pos rfl]
      rw [hcell] at hc
      injection hc with hc2
      rw [hc2]
  · show (writeAt s.result i .skipMark).length ≤ inp.length
    rw [writeAt_length]
    have h1 : i < inp.length := lt_of_lt_of_le hiLt (min_le_right _ _)
    have := hI.resLen
    omega
  · show s.mapperCalls + 1 = (s.completedLog ++ [i]).length
    rw [List.length_append, hI.mcEq]
    rfl
  · exact hI.flightNodup.erase i
  · intro j
    show (j ∈ s.inFlight.erase i ∨ j ∈ s.completedLog ++ [i]) ↔ _
    have hold := hI.flightPart hun j
    simp only [List.mem_append, List.mem_singleton]
    constructor
    · rintro (hf | hlog | hji)
      · exact hold.1 (Or.inl (List.mem_of_mem_erase hf))
      · exact hold.1 (Or.inr hlog)
      · rw [hji]
        exact hiLt
    · intro hj
      rcases hold.2 hj with hf | hlog
      · by_cases hji : j = i
        · exact Or.inr (Or.inr hji)
        · exact Or.inl ((List.mem_erase_of_ne hji).2 hf)
      · exact Or.inr (Or.inl hlog)
  · intro j hj
    have hjf : j ∈ s.inFlight := List.mem_of_mem_erase hj
    have hji : j ≠ i := by
      intro h
      rw [h] at hj
      exact hI.flightNodup.not_mem_erase hj
    intro hcon
    rcases List.mem_append.1 hcon with hlog | hsing
    · exact hI.flightDisj hun j hjf hlog
    · exact hji (List.mem_singleton.1 hsing)
  · show s.resolvingCount - 1 = ((s.inFlight.erase i).length : Int)
    rw [hI.countEq hun, List.length_erase_of_mem hm]
    have hpos : 1 ≤ s.inFlight.length := List.length_pos.2 (by
      intro hnil
      rw [hnil] at hm
      simp at hm)
    omega
  · exact hI.doneIff hun
  · exact hI.ffEmpty hun

/-- Mid step state after a mapper failure was collected (lines 223-224),
before the chained retried pull. -/
theorem inv_mid_failCollect (cfg : Cfg α β ε ρ) (inp : List α)
    (hsrc : cfg.source = listSource inp) (s : St β ε ρ) (i : Nat) (e : ε)
    (hI : Inv cfg inp s) (hun : s.settledVal = none)
    (hm : i ∈ s.inFlight) (ho : outAt cfg i = some (.fail e))
    (hst : cfg.stopOnError = false) :
    Inv cfg inp
      { s with inFlight := s.inFlight.erase i,
               mapperCalls := s.mapperCalls + 1,
               completedLog := s.completedLog ++ [i],
               failLog := s.failLog ++ [e],
               errors := s.errors ++ [e],
               resolvingCount := s.resolvingCount - 1 } := by
  have hres : s.isResolved = false := by
    have h := hI.resolvedIff
    rw [hun] at h
    simpa using h
  have hiLt : i < min s.pullCount inp.length :=
    (hI.flightPart hun i).1 (Or.inl hm)
  have hiNotLog : i ∉ s.completedLog := hI.flightDisj hun i hm
  have hcell : listCell cfg i = none := by
    unfold listCell
    rw [ho]
  have herr : errOf cfg i = some e := by
    unfold errOf
    rw [ho]
  have hskp : isSkipIdx cfg i = false := by
    unfold isSkipIdx
    rw [ho]
  refine inv_unsettled_mk cfg inp _ hun hres hI.curEq ?_ ?_ ?_ ?_ ?_ ?_ ?_
    ?_ ?_ ?_ ?_ ?_ ?_ ?_ ?_
  · intro j hj
    rcases List.mem_append.1 hj with hjo | hji
    · exact hI.logSub j hjo
    · rw [List.mem_singleton.1 hji]
      exact hiLt
  · rw [List.nodup_append]
    exact ⟨hI.logNodup, List.nodup_singleton _,
      List.disjoint_singleton.2 hiNotLog⟩
  · show s.failLog ++ [e] = (s.completedLog ++ [i]).filterMap (errOf cfg)
    rw [List.filterMap_append, ← hI.failEq]
    simp [herr]
  · show s.errors ++ [e] = if cfg.stopOnError then [] else s.failLog ++ [e]
    rw [hst]
    have h := hI.errEq
    rw [hst] at h
    simp at h
    simp [h]
  · show s.skippedIndexes = (s.completedLog ++ [i]).filter _
    rw [List.filter_append, ← hI.skipEq]
    simp [hskp]
  · intro j c hj
    obtain ⟨hmem, hc⟩ := hI.resGet j c hj
    exact ⟨List.mem_append.2 (Or.inl hmem), hc⟩
  · intro j hjmem c hc
    rcases List.mem_append.1 hjmem with hjold | hji
    · exact hI.resSet j hjold c hc
    · have hj : j = i := List.mem_singleton.1 hji
      subst hj
      rw [hcell] at hc
      exact Option.noConfusion hc
  · exact hI.resLen
  · show s.mapperCalls + 1 = (s.completedLog ++ [i]).length
    rw [List.length_append, hI.mcEq]
    rfl
  · exact hI.flightNodup.erase i
  · intro j
    show (j ∈ s.inFlight.erase i ∨ j ∈ s.completedLog ++ [i]) ↔ _
    have hold := hI.flightPart hun j
    simp only [List.mem_append, List.mem_singleton]
    constructor
    · rintro (hf | hlog | hji)
      · exact hold.1 (Or.inl (List.mem_of_mem_erase hf))
      · exact hold.1 (Or.inr hlog)
      · rw [hji]
        exact hiLt
    · intro hj
      rcases hold.2 hj with hf | hlog
      · by_cases hji : j = i
        · exact Or.inr (Or.inr hji)
        · exact Or.inl ((List.mem_erase_of_ne hji).2 hf)
      · exact Or.inr (Or.inl hlog)
  · intro j hj
    have hjf : j ∈ s.inFlight := List.mem_of_mem_erase hj
    have hji : j ≠ i := by
      intro h
      rw [h] at hj
      exact hI.flightNodup.not_mem_erase hj
    intro hcon
    rcases List.mem_append.1 hcon with hlog | hsing
    · exact hI.flightDisj hun j hjf hlog
    · exact hji (List.mem_singleton.1 hsing)
  · show s.resolvingCount - 1 = ((s.inFlight.erase i).length : Int)
    rw [hI.countEq hun, List.length_erase_of_mem hm]
    have hpos : 1 ≤ s.inFlight.length := List.length_pos.2 (by
      intro hnil
      rw [hnil] at hm
      simp at hm)
    omega
  · exact hI.doneIff hun
  · intro h
    rw [h] at hst
    exact Bool.noConfusion hst

/-- After settlement the completion of a detached task only drops the
index from the in flight queue (line 205); the invariant is preserved. -/
theorem inv_erase_settled (cfg : Cfg α β ε ρ) (inp : List α)
    (s : St β ε ρ) (i : Nat) (hI : Inv cfg inp s)
    (hr : s.isResolved = true) :
    Inv cfg inp { s with inFlight := s.inFlight.erase i } := by
  have hnone : ¬ s.settledVal = none := by
    intro h
    have h2 := hI.resolvedIff
    rw [hr, h] at h2
    exact Bool.noConfusion h2
  exact ⟨hI.curEq, hI.logSub, hI.logNodup, hI.failEq, hI.errEq, hI.skipEq,
    hI.resGet, hI.resSet, hI.resLen, hI.mcEq, hI.resolvedIff,
    hI.flightNodup.erase i, fun h => absurd h hnone, fun h => absurd h hnone,
    fun h => absurd h hnone, fun h => absurd h hnone, fun h => absurd h hnone,
    hI.okChar, hI.plainChar, hI.aggChar, hI.abortChar⟩

/-- Completion of a detached task preserves the invariant. -/
theorem inv_completeTask (cfg : Cfg α β ε ρ) (inp : List α)
    (hsrc : cfg.source = listSource inp) (i : Nat) (s : St β ε ρ)
    (hI : Inv cfg inp s) : Inv cfg inp (completeTask cfg i s) := by
  by_cases hm : i ∈ s.inFlight
  · by_cases hr : s.isResolved = true
    · rw [completeTask_of_resolved cfg i s hm hr]
      exact inv_erase_settled cfg inp s i hI hr
    · have hr2 : s.isResolved = false := by
        cases h2 : s.isResolved
        · rfl
        · exact absurd h2 hr
      have hun : s.settledVal = none := by
        have h := hI.resolvedIff
        rw [hr2] at h
        cases hsv : s.settledVal with
        | none => rfl
        | some v =>
            rw [hsv] at h
            exact Bool.noConfusion h
      have hiLt : i < min s.pullCount inp.length :=
        (hI.flightPart hun i).1 (Or.inl hm)
      have hiN : i < inp.length := lt_of_lt_of_le hiLt (min_le_right _ _)
      cases ho : outAt cfg i with
      | none =>
          exfalso
          have hout := outAt_of_lt cfg inp hsrc i hiN
          rw [ho] at hout
          exact Option.noConfusion hout
      | some o =>
          cases o with
          | value b =>
              rw [completeTask_of_value cfg i s b hm hr2 ho]
              rw [chainNext_of_snd_none cfg _
                (doNext_snd_none_list cfg inp hsrc _)]
              exact inv_doNext cfg inp hsrc _
                (inv_mid_value cfg inp hsrc s i b hI hun hm ho) hun
          | skip =>
              rw [completeTask_of_skip cfg i s hm hr2 ho]
              rw [chainNext_of_snd_none cfg _
                (doNext_snd_none_list cfg inp hsrc _)]
              exact inv_doNext cfg inp hsrc _
                (inv_mid_skip cfg inp hsrc s i hI hun hm ho) hun
          | fail e =>
              by_cases hst : cfg.stopOnError = true
              · rw [completeTask_of_fail_stop cfg i s e hm hr2 ho hst]
                rw [rejectSt_of_none
                  { s with inFlight := s.inFlight.erase i,
                           mapperCalls := s.mapperCalls + 1,
                           completedLog := s.completedLog ++ [i],
                           failLog := s.failLog ++ [e] }
                  (.plain e) hun]
                have hiNotLog : i ∉ s.completedLog := hI.flightDisj hun i hm
                have herr : errOf cfg i = some e := by
                  unfold errOf
                  rw [ho]
                have hcell : listCell cfg i = none := by
                  unfold listCell
                  rw [ho]
                have hskp : isSkipIdx cfg i = false := by
                  unfold isSkipIdx
                  rw [ho]
                refine inv_settled_mk cfg inp _ (.rejected (.plain e)) rfl rfl
                  hI.curEq ?_ ?_ ?_ ?_ ?_ ?_ ?_ ?_ ?_ (hI.flightNodup.erase i)
                  ?_ ?_ ?_ ?_
                · intro j hj
                  rcases List.mem_append.1 hj with hjo | hji
                  · exact hI.logSub j hjo
                  · rw [List.mem_singleton.1 hji]
                    exact hiLt
                · rw [List.nodup_append]
                  exact ⟨hI.logNodup, List.nodup_singleton _,
                    List.disjoint_singleton.2 hiNotLog⟩
                · show s.failLog ++ [e] =
                    (s.completedLog ++ [i]).filterMap (errOf cfg)
                  rw [List.filterMap_append, ← hI.failEq]
                  simp [herr]
                · show s.errors = if cfg.stopOnError then []
                    else s.failLog ++ [e]
                  rw [hst]
                  have h := hI.errEq
                  rw [hst] at h
                  simpa using h
                · show s.skippedIndexes = (s.completedLog ++ [i]).filter _
                  rw [List.filter_append, ← hI.skipEq]
                  simp [hskp]
                · intro j c hj
                  obtain ⟨hmem, hc⟩ := hI.resGet j c hj
                  exact ⟨List.mem_append.2 (Or.inl hmem), hc⟩
                · intro j hjmem c hc
                  rcases List.mem_append.1 hjmem with hjold | hji
                  · exact hI.resSet j hjold c hc
                  · have hj : j = i := List.mem_singleton.1 hji
                    subst hj
                    rw [hcell] at hc
                    exact Option.noConfusion hc
                · exact hI.resLen
                · show s.mapperCalls + 1 = (s.completedLog ++ [i]).length
                  rw [List.length_append, hI.mcEq]
                  rfl
                · intro l h
                  exact Settled.noConfusion h
                · intro e2 h
                  injection h with h2
                  injection h2 with h3
                  refine ⟨hst, ?_⟩
                  show s.failLog ++ [e] = [e2]
                  rw [hI.ffEmpty hun hst, ← h3]
                  rfl
                · intro es h
                  injection h with h2
                  exact Reason.noConfusion h2
                · intro r h
                  injection h with h2
                  exact Reason.noConfusion h2
              · have hst2 : cfg.stopOnError = false := by
                  cases h2 : cfg.stopOnError
                  · rfl
                  · exact absurd h2 hst
                rw [completeTask_of_fail_collect cfg i s e hm hr2 ho hst2]
                rw [retryNext_of_snd_none cfg _
                  (doNext_snd_none_list cfg inp hsrc _)]
                exact inv_doNext cfg inp hsrc _
                  (inv_mid_failCollect cfg inp hsrc s i e hI hun hm ho hst2)
                  hun
  · rw [completeTask_of_notMem cfg i s hm]
    exact hI

/-- One ramp up loop iteration preserves the invariant. -/
theorem inv_initStep (cfg : Cfg α β ε ρ) (inp : List α)
    (hsrc : cfg.source = listSource inp) (s : St β ε ρ)
    (hI : Inv cfg inp s) : Inv cfg inp (initStep cfg s) := by
  by_cases ha : s.initActive = false
  · rw [initStep_of_inactive cfg s ha]
    exact hI
  · have ha2 : s.initActive = true := by
      cases h2 : s.initActive
      · exact absurd h2 ha
      · rfl
    by_cases hg : concLt s.initI cfg.concurrency = false
    · rw [initStep_of_guardFail cfg s ha2 hg]
      exact inv_admin cfg inp s hI s.initI s.initCalls false
    · have hg2 : concLt s.initI cfg.concurrency = true := by
        cases h2 : concLt s.initI cfg.concurrency
        · exact absurd h2 hg
        · rfl
      have hIb : Inv cfg inp { s with initCalls := s.initCalls + 1 } :=
        inv_admin cfg inp s hI s.initI (s.initCalls + 1) s.initActive
      rcases hd : doNext cfg { s with initCalls := s.initCalls + 1 }
        with ⟨s1, oe⟩
      have hsnd : oe = none := by
        have h := doNext_snd_none_list cfg inp hsrc
          { s with initCalls := s.initCalls + 1 }
        rw [hd] at h
        exact h
      subst hsnd
      rw [initStep_of_body_ok cfg s s1 ha2 hg2 hd]
      have hI1 : Inv cfg inp s1 := by
        by_cases hun : s.settledVal = none
        · have h := inv_doNext cfg inp hsrc _ hIb hun
          rw [hd] at h
          exact h
        · have hres : s.isResolved = true := by
            have h := hI.resolvedIff
            cases hsv : s.settledVal with
            | none => exact absurd hsv hun
            | some v =>
                rw [hsv] at h
                simpa using h
          have hid := doNext_of_resolved cfg
            { s with initCalls := s.initCalls + 1 } hres
          rw [hid] at hd
          injection hd with h1 _
          rw [← h1]
          exact hIb
      split
      · exact inv_admin cfg inp s1 hI1 s1.initI s1.initCalls false
      · exact inv_admin cfg inp s1 hI1 (s1.initI + 1) s1.initCalls
          s1.initActive

/-- With no abort signal supplied, the abort listener never fires and the
invariant is trivially preserved. -/
theorem inv_abortStep (cfg : Cfg α β ε ρ) (inp : List α) (s : St β ε ρ)
    (hsig : cfg.signal = none) (hI : Inv cfg inp s) :
    Inv cfg inp (abortStep cfg s) := by
  rw [abortStep_of_noSignal cfg s hsig]
  exact hI

/-- The initial state satisfies the invariant. -/
theorem inv_initSt (cfg : Cfg α β ε ρ) (inp : List α)
    (hsig : cfg.signal = none) : Inv cfg inp (initSt cfg) := by
  have hinit : initSt cfg = ({} : St β ε ρ) := by
    unfold initSt
    rw [hsig]
  rw [hinit]
  refine inv_unsettled_mk cfg inp ({} : St β ε ρ) rfl rfl rfl ?_ ?_ ?_ ?_ ?_
    ?_ ?_ ?_ ?_ ?_ ?_ ?_ ?_ ?_ ?_
  · intro i hi
    simp at hi
  · exact List.nodup_nil
  · rfl
  · show ([] : List ε) = if cfg.stopOnError then [] else []
    cases cfg.stopOnError <;> rfl
  · rfl
  · intro j c hj
    simp at hj
  · intro j hj
    simp at hj
  · show 0 ≤ inp.length
    omega
  · rfl
  · exact List.nodup_nil
  · intro i
    show (i ∈ ([] : List Nat) ∨ i ∈ ([] : List Nat)) ↔ i < min 0 inp.length
    simp
  · intro i hi
    simp at hi
  · rfl
  · show (false = true) ↔ inp.length < 0
    simp
  · intro _
    rfl

/-- Every scheduler event preserves the invariant. -/
theorem inv_step (cfg : Cfg α β ε ρ) (inp : List α)
    (hsrc : cfg.source = listSource inp) (hsig : cfg.signal = none)
    (s : St β ε ρ) (hI : Inv cfg inp s) (e : Ev) :
    Inv cfg inp (step cfg s e) := by
  cases e with
  | init => exact inv_initStep cfg inp hsrc s hI
  | complete i => exact inv_completeTask cfg inp hsrc i s hI
  | abortFire => exact inv_abortStep cfg inp s hsig hI

/-- The invariant holds after every schedule, for every list input and no
abort signal. -/
theorem inv_run (cfg : Cfg α β ε ρ) (inp : List α)
    (hsrc : cfg.source = listSource inp) (hsig : cfg.signal = none)
    (evs : List Ev) : Inv cfg inp (run cfg evs) := by
  induction evs using List.reverseRecOn with
  | nil => exact inv_initSt cfg inp hsig
  | append_singleton pre e ih =>
      rw [run_append_foldl cfg pre [e]]
      exact inv_step cfg inp hsrc hsig (run cfg pre) ih e

/-! Liveness of the greedy driver: the promise settles within `pFuel`
steps on every list input without an abort signal. -/

theorem rejectSt_isSome (s : St β ε ρ) (r : Reason ε ρ) :
    (rejectSt s r).settledVal.isSome = true := by
  show (settle1 s (.rejected r)).settledVal.isSome = true
  unfold settle1
  cases h : s.settledVal <;> simp [h]

theorem resolveSt_isSome (s : St β ε ρ) (l : List (Option (Cell β))) :
    (resolveSt s l).settledVal.isSome = true := by
  show (settle1 s (.ok l)).settledVal.isSome = true
  unfold settle1
  cases h : s.settledVal <;> simp [h]

/-- Pulling a done source while no task is resolving settles the promise
one way or the other (lines 169-193). -/
theorem doNext_done_settles (cfg : Cfg α β ε ρ) (s : St β ε ρ)
    (hres : s.isResolved = false) (hd : cfg.source s.pullCount = .done)
    (hc : s.resolvingCount = 0) :
    (doNext cfg s).1.settledVal.isSome = true := by
  by_cases hag : cfg.stopOnError = false ∧ 0 < s.errors.length
  · rw [doNext_of_done_agg cfg s hres hd hc hag.1 hag.2]
    exact rejectSt_isSome _ _
  · by_cases hsk : s.skippedIndexes.length = 0
    · rw [doNext_of_done_resolve cfg s hres hd hc hag hsk]
      exact resolveSt_isSome _ _
    · rw [doNext_of_done_compact cfg s hres hd hc hag hsk]
      exact resolveSt_isSome _ _

/-- State along the greedy driver trajectory: either the promise has
settled, or the ramp up loop is still running and has one in flight task
per counted iteration, or some task is in flight to make progress. -/
structure DInv (cfg : Cfg α β ε ρ) (inp : List α) (s : St β ε ρ) : Prop where
  inv : Inv cfg inp s
  rejFlag : s.settledVal = none → s.isRejected = false
  rampSpawn : s.settledVal = none → s.initActive = true →
    s.initI ≤ s.inFlight.length
  live : s.settledVal = none → s.initActive = false → s.inFlight ≠ []

/-- A chained pull from a state with the ramp loop finished either
settles the promise or keeps the trajectory invariant and does not
increase the measure. -/
theorem dInv_doNext_live (cfg : Cfg α β ε ρ) (inp : List α)
    (hsrc : cfg.source = listSource inp) (M : St β ε ρ)
    (hMInv : Inv cfg inp M) (hMun : M.settledVal = none)
    (hMrj : M.isRejected = false) (hMa : M.initActive = false) :
    (doNext cfg M).1.settledVal.isSome = true ∨
    (DInv cfg inp (doNext cfg M).1 ∧
      mu inp.length (doNext cfg M).1 ≤ mu inp.length M) := by
  have hMres : M.isResolved = false := by
    have h := hMInv.resolvedIff
    rw [hMun] at h
    simpa using h
  have hIpost := inv_doNext cfg inp hsrc M hMInv hMun
  cases hsv : cfg.source M.pullCount with
  | throws e =>
      exfalso
      rw [hsrc] at hsv
      exact listSource_ne_throws inp M.pullCount e hsv
  | yields a =>
      right
      have hpn : M.pullCount < inp.length := by
        by_contra hcon
        have hdone := listSource_of_ge (ε := ε) inp M.pullCount
          (Nat.le_of_not_lt hcon)
        rw [hsrc, hdone] at hsv
        exact SrcStep.noConfusion hsv
      have hdy := doNext_of_yields cfg M a hMres hsv
      rw [hdy] at hIpost ⊢
      refine ⟨⟨hIpost, ?_, ?_, ?_⟩, ?_⟩
      · intro _
        exact hMrj
      · intro _ h
        have h2 : M.initActive = true := h
        rw [hMa] at h2
        exact Bool.noConfusion h2
      · intro _ _
        show M.inFlight ++ [M.currentIndex] ≠ []
        simp
      · show 3 * (inp.length + 1 - min (M.pullCount + 1) (inp.length + 1))
            + (M.inFlight ++ [M.currentIndex]).length
            + (if M.initActive = true then 1 else 0)
          ≤ 3 * (inp.length + 1 - min M.pullCount (inp.length + 1))
            + M.inFlight.length + (if M.initActive = true then 1 else 0)
        rw [List.length_append]
        have h1 : min (M.pullCount + 1) (inp.length + 1) = M.pullCount + 1 := by
          omega
        have h2 : min M.pullCount (inp.length + 1) = M.pullCount := by
          omega
        rw [h1, h2]
        simp
        omega
  | done =>
      by_cases hc0 : M.resolvingCount = 0
      · left
        exact doNext_done_settles cfg M hMres hsv hc0
      · right
        have hdb := doNext_of_done_busy cfg M hMres hsv hc0
        rw [hdb] at hIpost ⊢
        refine ⟨⟨hIpost, ?_, ?_, ?_⟩, ?_⟩
        · intro _
          exact hMrj
        · intro _ h
          have h2 : M.initActive = true := h
          rw [hMa] at h2
          exact Bool.noConfusion h2
        · intro _ _
          show M.inFlight ≠ []
          intro hnil
          have hce := hMInv.countEq hMun
          rw [hnil] at hce
          simp at hce
          exact hc0 hce
        · show 3 * (inp.length + 1 - min (M.pullCount + 1) (inp.length + 1))
              + M.inFlight.length + (if M.initActive = true then 1 else 0)
            ≤ 3 * (inp.length + 1 - min M.pullCount (inp.length + 1))
              + M.inFlight.length + (if M.initActive = true then 1 else 0)
          have h1 : min (M.pullCount + 1) (inp.length + 1)
              ≥ min M.pullCount (inp.length + 1) := by
            omega
          omega

/-- One greedy ramp up step from an unsettled state settles the promise
or preserves the trajectory invariant while strictly decreasing the
measure. -/
theorem dInv_initStep (cfg : Cfg α β ε ρ) (inp : List α)
    (hsrc : cfg.source = listSource inp) (hconc : concPos cfg.concurrency)
    (s : St β ε ρ) (hD : DInv cfg inp s) (hun : s.settledVal = none)
    (ha : s.initActive = true) :
    (initStep cfg s).settledVal.isSome = true ∨
    (DInv cfg inp (initStep cfg s) ∧
      mu inp.length (initStep cfg s) < mu inp.length s) := by
  have hI := hD.inv
  have hres : s.isResolved = false := by
    have h := hI.resolvedIff
    rw [hun] at h
    simpa using h
  have hrj : s.isRejected = false := hD.rejFlag hun
  by_cases hg : concLt s.initI cfg.concurrency = false
  · right
    rw [initStep_of_guardFail cfg s ha hg]
    have hii : 1 ≤ s.initI := by
      by_contra hcon
      have h0 : s.initI = 0 := by omega
      rw [h0, hconc] at hg
      exact Bool.noConfusion hg
    have hflight : 1 ≤ s.inFlight.length :=
      le_trans hii (hD.rampSpawn hun ha)
    refine ⟨⟨inv_admin cfg inp s hI s.initI s.initCalls false, ?_, ?_, ?_⟩,
      ?_⟩
    · intro _
      exact hrj
    · intro _ h
      exact Bool.noConfusion h
    · intro _ _
      show s.inFlight ≠ []
      intro hnil
      rw [hnil] at hflight
      simp at hflight
    · show 3 * (inp.length + 1 - min s.pullCount (inp.length + 1))
          + s.inFlight.length + (if (false : Bool) = true then 1 else 0)
        < 3 * (inp.length + 1 - min s.pullCount (inp.length + 1))
          + s.inFlight.length + (if s.initActive = true then 1 else 0)
      rw [ha]
      simp
  · have hg2 : concLt s.initI cfg.concurrency = true := by
      cases h2 : concLt s.initI cfg.concurrency
      · exact absurd h2 hg
      · rfl
    rcases hd : doNext cfg { s with initCalls := s.initCalls + 1 }
      with ⟨s1, oe⟩
    have hoe : oe = none := by
      have h := doNext_snd_none_list cfg inp hsrc
        { s with initCalls := s.initCalls + 1 }
      rw [hd] at h
      exact h
    subst hoe
    have hrw := initStep_of_body_ok cfg s s1 ha hg2 hd
    cases hsv : cfg.source s.pullCount with
    | throws e =>
        exfalso
        rw [hsrc] at hsv
        exact listSource_ne_throws inp s.pullCount e hsv
    | yields a =>
        right
        have hpn : s.pullCount < inp.length := by
          by_contra hcon
          have hdone := listSource_of_ge (ε := ε) inp s.pullCount
            (Nat.le_of_not_lt hcon)
          rw [hsrc, hdone] at hsv
          exact SrcStep.noConfusion hsv
        have hid : s.isIterableDone = false := by
          cases h2 : s.isIterableDone
          · rfl
          · have := (hI.doneIff hun).1 h2
            omega
        have hdy := doNext_of_yields cfg { s with initCalls := s.initCalls + 1 }
          a hres hsv
        rw [hdy] at hd
        injection hd with h1 _
        have hido : s1.isIterableDone = false := by
          rw [← h1]
          exact hid
        have hirj : s1.isRejected = false := by
          rw [← h1]
          exact hrj
        have hia : s1.initActive = true := by
          rw [← h1]
          exact ha
        have hii : s1.initI = s.initI := by
          rw [← h1]
        have hif : s1.inFlight = s.inFlight ++ [s.currentIndex] := by
          rw [← h1]
        have hip : s1.pullCount = s.pullCount + 1 := by
          rw [← h1]
        have hcondn : ¬ ((s1.isIterableDone || s1.isRejected) = true) := by
          rw [hido, hirj]
          simp
        rw [hrw, if_neg hcondn]
        have hIstep : Inv cfg inp (initStep cfg s) :=
          inv_initStep cfg inp hsrc s hI
        rw [hrw, if_neg hcondn] at hIstep
        refine ⟨⟨hIstep, ?_, ?_, ?_⟩, ?_⟩
        · intro _
          exact hirj
        · intro _ _
          show s1.initI + 1 ≤ s1.inFlight.length
          rw [hii, hif, List.length_append]
          have := hD.rampSpawn hun ha
          simp
          omega
        · intro _ h
          have h2 : s1.initActive = false := h
          rw [hia] at h2
          exact Bool.noConfusion h2
        · have hmup : mu inp.length { s1 with initI := s1.initI + 1 }
              = 3 * (inp.length + 1 - min s1.pullCount (inp.length + 1))
                + s1.inFlight.length
                + (if s1.initActive = true then 1 else 0) := rfl
          have hmus : mu inp.length s
              = 3 * (inp.length + 1 - min s.pullCount (inp.length + 1))
                + s.inFlight.length
                + (if s.initActive = true then 1 else 0) := rfl
          rw [hmup, hmus, hip, hif, hia, ha, List.length_append]
          have h2 : min (s.pullCount + 1) (inp.length + 1)
              = s.pullCount + 1 := by omega
          have h3 : min s.pullCount (inp.length + 1) = s.pullCount := by
            omega
          rw [h2, h3]
          simp
          omega
    | done =>
        by_cases hc0 : s.resolvingCount = 0
        · left
          have hsettle := doNext_done_settles cfg
            { s with initCalls := s.initCalls + 1 } hres hsv hc0
          rw [hd] at hsettle
          rw [hrw]
          split
          · exact hsettle
          · exact hsettle
        · right
          have hdb := doNext_of_done_busy cfg
            { s with initCalls := s.initCalls + 1 } hres hsv hc0
          rw [hdb] at hd
          injection hd with h1 _
          have hido : s1.isIterableDone = true := by
            rw [← h1]
          have hif : s1.inFlight = s.inFlight := by
            rw [← h1]
          have hip : s1.pullCount = s.pullCount + 1 := by
            rw [← h1]
          have hirj : s1.isRejected = false := by
            rw [← h1]
            exact hrj
          have hcond : (s1.isIterableDone || s1.isRejected) = true := by
            rw [hido]
            simp
          rw [hrw, if_pos hcond]
          have hIstep : Inv cfg inp (initStep cfg s) :=
            inv_initStep cfg inp hsrc s hI
          rw [hrw, if_pos hcond] at hIstep
          have hflight : s.inFlight ≠ [] := by
            intro hnil
            have hce := hI.countEq hun
            rw [hnil] at hce
            simp at hce
            exact hc0 hce
          refine ⟨⟨hIstep, ?_, ?_, ?_⟩, ?_⟩
          · intro _
            exact hirj
          · intro _ h
            exact Bool.noConfusion h
          · intro _ _
            show s1.inFlight ≠ []
            rw [hif]
            exact hflight
          · have hmup : mu inp.length { s1 with initActive := false }
                = 3 * (inp.length + 1 - min s1.pullCount (inp.length + 1))
                  + s1.inFlight.length
                  + (if (false : Bool) = true then 1 else 0) := rfl
            have hmus : mu inp.length s
                = 3 * (inp.length + 1 - min s.pullCount (inp.length + 1))
                  + s.inFlight.length
                  + (if s.initActive = true then 1 else 0) := rfl
            rw [hmup, hmus, hip, hif, ha]
            have h2 : min (s.pullCount + 1) (inp.length + 1)
                ≥ min s.pullCount (inp.length + 1) := by omega
            simp
            omega

/-- Erasing an in flight index strictly decreases the measure when pull
position and ramp flag are unchanged. -/
theorem mu_lt_erase (inp : List α) (s t : St β ε ρ) (i : Nat)
    (hm : i ∈ s.inFlight)
    (hp : t.pullCount = s.pullCount)
    (hf : t.inFlight = s.inFlight.erase i)
    (hia : t.initActive = s.initActive) :
    mu inp.length t < mu inp.length s := by
  unfold mu
  rw [hp, hf, hia, List.length_erase_of_mem hm]
  have hpos : 1 ≤ s.inFlight.length := List.length_pos.2 (by
    intro hnil
    rw [hnil] at hm
    simp at hm)
  omega

/-- One greedy completion step from an unsettled state with the ramp loop
finished settles the promise or preserves the trajectory invariant while
strictly decreasing the measure. -/
theorem dInv_completeTask (cfg : Cfg α β ε ρ) (inp : List α)
    (hsrc : cfg.source = listSource inp) (s : St β ε ρ)
    (hD : DInv cfg inp s) (hun : s.settledVal = none)
    (ha : s.initActive = false) (i : Nat) (hm : i ∈ s.inFlight) :
    (completeTask cfg i s).settledVal.isSome = true ∨
    (DInv cfg inp (completeTask cfg i s) ∧
      mu inp.length (completeTask cfg i s) < mu inp.length s) := by
  have hI := hD.inv
  have hres : s.isResolved = false := by
    have h := hI.resolvedIff
    rw [hun] at h
    simpa using h
  have hrj : s.isRejected = false := hD.rejFlag hun
  have hiLt : i < min s.pullCount inp.length :=
    (hI.flightPart hun i).1 (Or.inl hm)
  have hiN : i < inp.length := lt_of_lt_of_le hiLt (min_le_right _ _)
  have hout := outAt_of_lt cfg inp hsrc i hiN
  rcases hmo : cfg.mapper i (inp.get ⟨i, hiN⟩) with b | _ | e
  · -- mapper value
    have ho : outAt cfg i = some (.value b) := by
      rw [hout, hmo]
    rw [completeTask_of_value cfg i s b hm hres ho,
      chainNext_of_snd_none cfg _ (doNext_snd_none_list cfg inp hsrc _)]
    rcases dInv_doNext_live cfg inp hsrc _
        (inv_mid_value cfg inp hsrc s i b hI hun hm ho) hun hrj ha
      with hs | ⟨hD2, hle⟩
    · left
      exact hs
    · right
      exact ⟨hD2, lt_of_le_of_lt hle (mu_lt_erase inp s _ i hm rfl rfl rfl)⟩
  · -- mapper skip
    have ho : outAt cfg i = some .skip := by
      rw [hout, hmo]
    rw [completeTask_of_skip cfg i s hm hres ho,
      chainNext_of_snd_none cfg _ (doNext_snd_none_list cfg inp hsrc _)]
    rcases dInv_doNext_live cfg inp hsrc _
        (inv_mid_skip cfg inp hsrc s i hI hun hm ho) hun hrj ha
      with hs | ⟨hD2, hle⟩
    · left
      exact hs
    · right
      exact ⟨hD2, lt_of_le_of_lt hle (mu_lt_erase inp s _ i hm rfl rfl rfl)⟩
  · -- mapper failure
    have ho : outAt cfg i = some (.fail e) := by
      rw [hout, hmo]
    by_cases hst : cfg.stopOnError = true
    · left
      rw [completeTask_of_fail_stop cfg i s e hm hres ho hst]
      exact rejectSt_isSome _ _
    · have hst2 : cfg.stopOnError = false := by
        cases h2 : cfg.stopOnError
        · rfl
        · exact absurd h2 hst
      rw [completeTask_of_fail_collect cfg i s e hm hres ho hst2,
        retryNext_of_snd_none cfg _ (doNext_snd_none_list cfg inp hsrc _)]
      rcases dInv_doNext_live cfg inp hsrc _
          (inv_mid_failCollect cfg inp hsrc s i e hI hun hm ho hst2) hun hrj
          ha
        with hs | ⟨hD2, hle⟩
      · left
        exact hs
      · right
        exact ⟨hD2, lt_of_le_of_lt hle (mu_lt_erase inp s _ i hm rfl rfl rfl)⟩

theorem drive_of_settled (cfg : Cfg α β ε ρ) (fuel : Nat) (s : St β ε ρ)
    (h : s.settledVal.isSome = true) : drive cfg fuel s = s := by
  cases fuel with
  | zero => rfl
  | succ f =>
      unfold drive
      rw [if_pos h]

/-- Within fuel exceeding the measure, the greedy driver reaches a settled
state. -/
theorem drive_settles (cfg : Cfg α β ε ρ) (inp : List α)
    (hsrc : cfg.source = listSource inp) (hconc : concPos cfg.concurrency) :
    ∀ fuel : Nat, ∀ s : St β ε ρ, DInv cfg inp s →
      mu inp.length s < fuel →
      (drive cfg fuel s).settledVal.isSome = true := by
  intro fuel
  induction fuel with
  | zero =>
      intro s _ hmu
      omega
  | succ f ih =>
      intro s hD hmu
      by_cases hsettled : s.settledVal.isSome = true
      · rw [drive_of_settled cfg (f + 1) s hsettled]
        exact hsettled
      · have hun : s.settledVal = none := by
          cases hsv : s.settledVal with
          | none => rfl
          | some v =>
              rw [hsv] at hsettled
              simp at hsettled
        unfold drive
        rw [if_neg hsettled]
        by_cases ha : s.initActive = true
        · rw [if_pos ha]
          rcases dInv_initStep cfg inp hsrc hconc s hD hun ha
            with hs | ⟨hD2, hmu2⟩
          · rw [drive_of_settled cfg f _ hs]
            exact hs
          · exact ih _ hD2 (by omega)
        · rw [if_neg ha]
          have ha2 : s.initActive = false := by
            cases h2 : s.initActive
            · rfl
            · exact absurd h2 ha
          cases hf : s.inFlight with
          | nil => exact absurd hf (hD.live hun ha2)
          | cons i rest =>
              show (drive cfg f (completeTask cfg i s)).settledVal.isSome
                = true
              have hm : i ∈ s.inFlight := by
                rw [hf]
                exact List.mem_cons_self i rest
              rcases dInv_completeTask cfg inp hsrc s hD hun ha2 i hm
                with hs | ⟨hD2, hmu2⟩
              · rw [drive_of_settled cfg f _ hs]
                exact hs
              · exact ih _ hD2 (by omega)

/-- The greedy driver only takes scheduler steps, so it preserves the
machine invariant. -/
theorem inv_drive (cfg : Cfg α β ε ρ) (inp : List α)
    (hsrc : cfg.source = listSource inp) :
    ∀ fuel : Nat, ∀ s : St β ε ρ, Inv cfg inp s →
      Inv cfg inp (drive cfg fuel s) := by
  intro fuel
  induction fuel with
  | zero =>
      intro s hI
      exact hI
  | succ f ih =>
      intro s hI
      unfold drive
      by_cases hsettled : s.settledVal.isSome = true
      · rw [if_pos hsettled]
        exact hI
      · rw [if_neg hsettled]
        by_cases ha : s.initActive = true
        · rw [if_pos ha]
          exact ih _ (inv_initStep cfg inp hsrc s hI)
        · rw [if_neg ha]
          cases hf : s.inFlight with
          | nil => exact hI
          | cons i rest =>
              show Inv cfg inp (drive cfg f (completeTask cfg i s))
              exact ih _ (inv_completeTask cfg inp hsrc i s hI)

/-- On every list input with no abort signal and a positive concurrency
bound, the greedy schedule settles the promise within `pFuel` events, in a
state that satisfies the machine invariant. -/
theorem pMap_driveRun_settles (cfg : Cfg α β ε ρ) (inp : List α)
    (hsrc : cfg.source = listSource inp) (hsig : cfg.signal = none)
    (hconc : concPos cfg.concurrency) :
    (driveRun cfg (pFuel inp.length)).settledVal.isSome = true ∧
    Inv cfg inp (driveRun cfg (pFuel inp.length)) := by
  have hinit : initSt cfg = ({} : St β ε ρ) := by
    unfold initSt
    rw [hsig]
  have hI0 : Inv cfg inp (initSt cfg) := inv_initSt cfg inp hsig
  have hD0 : DInv cfg inp (initSt cfg) := by
    refine ⟨hI0, ?_, ?_, ?_⟩
    · intro _
      rw [hinit]
    · intro _ _
      rw [hinit]
      exact Nat.le.refl
    · intro _ h
      rw [hinit] at h
      exact Bool.noConfusion h
  have hmu0 : mu inp.length (initSt cfg) < pFuel inp.length := by
    rw [hinit]
    have hval : mu inp.length ({} : St β ε ρ)
        = 3 * (inp.length + 1 - min 0 (inp.length + 1)) + 0 + 1 := rfl
    rw [hval]
    unfold pFuel
    omega
  exact ⟨drive_settles cfg inp hsrc hconc (pFuel inp.length) (initSt cfg)
      hD0 hmu0,
    inv_drive cfg inp hsrc (pFuel inp.length) (initSt cfg) hI0⟩

/-- Classification of a settled promise under the machine invariant:
resolution carries the specified compacted output and certifies that no
mapper failed; a raw rejection carries the single recorded failure under
fail fast; an aggregate rejection carries all failures in completion
order, after exhaustion, under collect mode. -/
theorem settled_classify (cfg : Cfg α β ε ρ) (inp : List α)
    (s : St β ε ρ) (hI : Inv cfg inp s) (hs : s.settledVal.isSome = true) :
    (s.settledVal = some (.ok (expectedOut cfg inp.length)) ∧
      ∀ i, errOf cfg i = none) ∨
    (∃ e, s.settledVal = some (.rejected (.plain e)) ∧
      cfg.stopOnError = true ∧ s.failLog = [e]) ∨
    (∃ es, s.settledVal = some (.rejected (.aggregate es)) ∧
      cfg.stopOnError = false ∧ es = s.failLog ∧ es ≠ [] ∧
      (∀ i, i ∈ s.completedLog ↔ i < inp.length) ∧
      s.isIterableDone = true ∧ s.resolvingCount = 0) := by
  obtain ⟨v, hv⟩ := Option.isSome_iff_exists.mp hs
  cases v with
  | ok l =>
      left
      obtain ⟨hl, _, hne, _, _⟩ := hI.okChar l hv
      exact ⟨by rw [hv, hl], hne⟩
  | rejected r =>
      cases r with
      | plain e =>
          right
          left
          obtain ⟨h1, h2⟩ := hI.plainChar e hv
          exact ⟨e, hv, h1, h2⟩
      | aggregate es =>
          right
          right
          obtain ⟨h1, h2, h3, h4, h5, h6⟩ := hI.aggChar es hv
          exact ⟨es, hv, h1, h2, h3, h4, h5, h6⟩
      | abortReason r2 => exact (hI.abortChar r2 hv).elim

theorem length_filterMap_eq_filter {X Y : Type} (f : X → Option Y)
    (l : List X) :
    (l.filterMap f).length = (l.filter fun a => (f a).isSome).length := by
  induction l with
  | nil => rfl
  | cons a t ih =>
      cases hf : f a with
      | none => simp [List.filterMap_cons, List.filter_cons, hf, ih]
      | some b => simp [List.filterMap_cons, List.filter_cons, hf, ih]

/-- When every input index has completed, the completion log is a
permutation of the index range. -/
theorem completedLog_perm_range (cfg : Cfg α β ε ρ) (inp : List α)
    (s : St β ε ρ) (hI : Inv cfg inp s)
    (hcompl : ∀ i, i ∈ s.completedLog ↔ i < inp.length) :
    List.Perm s.completedLog (List.range inp.length) := by
  apply (List.perm_ext_iff_of_nodup hI.logNodup (List.nodup_range _)).mpr
  intro a
  rw [List.mem_range]
  exact hcompl a

/-- The number of recorded failures equals the number of failing input
indices once every index has completed. -/
theorem failLog_length_of_all (cfg : Cfg α β ε ρ) (inp : List α)
    (s : St β ε ρ) (hI : Inv cfg inp s)
    (hcompl : ∀ i, i ∈ s.completedLog ↔ i < inp.length) :
    s.failLog.length = ((List.range inp.length).filter
      fun i => (errOf cfg i).isSome).length := by
  rw [hI.failEq]
  have hperm := completedLog_perm_range cfg inp s hI hcompl
  rw [List.Perm.length_eq (List.Perm.filterMap (errOf cfg) hperm)]
  exact length_filterMap_eq_filter _ _

/-- A streaming source that never yields an item admits a schedule that
finishes the generator: when the eager `trySpawn` pushes a handle, its
pull resolves as end of source and the consumer reads `{done: true}` at
the head and returns; when the bounds admit no spawn at all, the consumer
loop's guard `promises.length > 0` fails at once and the generator
returns.  The finishing run yields nothing, invokes no mapper and raises
nothing. -/
theorem iterEmpty_finishes (icfg : ItCfg α β ε)
    (hempty : ∀ k, icfg.source k = none) :
    ∃ ievs : List ItEv, (itRun icfg ievs).finished = true ∧
      (itRun icfg ievs).output = [] ∧
      (itRun icfg ievs).mapperCalls = 0 ∧
      (itRun icfg ievs).raised = none := by
  by_cases hg : (concLt 0 icfg.concurrency
      && concLt 0 icfg.backpressure) = true
  · refine ⟨[.pullResolve 0, .consume], ?_⟩
    have hinit : itInit icfg = { ({} : ItSt α β ε) with
        promises := [⟨0, .pendingPull 0⟩], pullCount := 1, nextId := 1 } := by
      unfold itInit trySpawn
      simp [hg]
    have hrun : itRun icfg [.pullResolve 0, .consume]
        = consumeStep icfg (pullResolveStep icfg 0 (itInit icfg)) := rfl
    have hpull : pullResolveStep icfg 0 (itInit icfg)
        = { ({} : ItSt α β ε) with
            promises := [⟨0, .settledH .hrDone⟩], pullCount := 1,
            nextId := 1 } := by
      rw [hinit]
      simp [pullResolveStep, statusOf, setStatus, hempty 0]
    rw [hrun, hpull]
    exact ⟨rfl, rfl, rfl, rfl⟩
  · have hg2 : (concLt 0 icfg.concurrency
        && concLt 0 icfg.backpressure) = false := by
      cases h : concLt 0 icfg.concurrency && concLt 0 icfg.backpressure
      · rfl
      · exact absurd h hg
    refine ⟨[.consume], ?_⟩
    have hinit : itInit icfg = ({} : ItSt α β ε) := by
      unfold itInit trySpawn
      simp [hg2]
    have hrun : itRun icfg [.consume]
        = consumeStep icfg (itInit icfg) := rfl
    rw [hrun, hinit]
    exact ⟨rfl, rfl, rfl, rfl⟩

/-! The ten claims. -/

/-- C1: For every list input with no abort signal and a concurrency bound
whose ramp loop runs (`0 < concurrency`), when no mapper fails `pMap`
resolves under the greedy (fair) schedule to `expectedOut`: the mapper
values in original input index order, skip marked indices removed and the
rest compacted preserving relative order; every schedule that resolves the
promise resolves it to that same array; and concretely
`map([1,2,3], x => x*2, {concurrency: 2})` resolves to `[2,4,6]`. -/
theorem C1_pMap_order_compaction (cfg : Cfg α β ε ρ) (inp : List α)
    (hsrc : cfg.source = listSource inp) (hsig : cfg.signal = none)
    (hconc : concPos cfg.concurrency)
    (hnf : ∀ i, i < inp.length → errOf cfg i = none) :
    (driveRun cfg (pFuel inp.length)).settledVal
      = some (.ok (expectedOut cfg inp.length)) ∧
    (∀ evs l, (run cfg evs).settledVal = some (.ok l) →
      l = expectedOut cfg inp.length) ∧
    (driveRun scenarioA (pFuel 3)).settledVal
      = some (.ok [some (.val 2), some (.val 4), some (.val 6)]) := by
  refine ⟨?_, ?_, by rfl⟩
  · obtain ⟨hsome, hInv⟩ := pMap_driveRun_settles cfg inp hsrc hsig hconc
    rcases settled_classify cfg inp _ hInv hsome with
      ⟨hok, _⟩ | ⟨e, _, _, hfl⟩ | ⟨es, _, _, hes, hne, _⟩
    · exact hok
    · exfalso
      have hfe := hInv.failEq
      rw [hfl] at hfe
      have hmem : e ∈ (driveRun cfg (pFuel inp.length)).completedLog.filterMap
          (errOf cfg) := by
        rw [← hfe]
        exact List.mem_singleton.2 rfl
      obtain ⟨j, hj, hje⟩ := List.mem_filterMap.mp hmem
      have hjn : j < inp.length :=
        lt_of_lt_of_le (hInv.logSub j hj) (min_le_right _ _)
      rw [hnf j hjn] at hje
      exact Option.noConfusion hje
    · exfalso
      obtain ⟨e, he⟩ := List.exists_mem_of_ne_nil es hne
      rw [hes, hInv.failEq] at he
      obtain ⟨j, hj, hje⟩ := List.mem_filterMap.mp he
      have hjn : j < inp.length :=
        lt_of_lt_of_le (hInv.logSub j hj) (min_le_right _ _)
      rw [hnf j hjn] at hje
      exact Option.noConfusion hje
  · intro evs l hok
    exact ((inv_run cfg inp hsrc hsig evs).okChar l hok).1

theorem C1_witness :
    scenarioA.source = listSource [1, 2, 3] ∧
    (driveRun scenarioA (pFuel 3)).settledVal
      = some (.ok [some (.val 2), some (.val 4), some (.val 6)]) :=
  ⟨rfl, (C1_pMap_order_compaction scenarioA [1, 2, 3] rfl rfl rfl
    (by decide)).2.2⟩

/-- C2: the code drops the whole tail of the stream after a skip at head
position, contradicting the claim that a skip at the head of the queue is
dropped and the loop proceeds.  With input `[0, 1]`, a mapper that skips
element 0 and maps 1 to 2, and `concurrency = backpressure = 1`, the
async iterable finishes normally with no queued handle and no error, yet
its output is empty — the non skip value 2 is never yielded — under every
continuation of the schedule: the settled skip handle at the queue head is
read as `{done: true}` and the consumer loop returns (line 387) before
ever reaching the skip test of line 394, which line 366 (`index > 0`)
deliberately leaves in the queue at head position. -/
theorem C2_pMapIterable_headSkip_truncates (evs : List ItEv) :
    (itRun iterHeadSkipCfg (iterHeadSkipEvs ++ evs)).output = [] ∧
    (itRun iterHeadSkipCfg iterHeadSkipEvs).finished = true ∧
    (itRun iterHeadSkipCfg iterHeadSkipEvs).raised = none ∧
    (itRun iterHeadSkipCfg iterHeadSkipEvs).promises = [] := by
  obtain ⟨h1, h2, h3⟩ := pMapIterable_headSkip_truncates evs
  exact ⟨h1, h2, h3, rfl⟩

/-- C3 (amended): the batch scheduler `pMap` never has more than
`concurrency` mapper tasks in flight, and the streaming scheduler never
has more than `backpressure` running mappers — but the streaming scheduler
is not bounded by `concurrency`: see the counterexample theorem. -/
theorem C3_concurrency_bound_amended :
    (∀ (cfg : Cfg α β ε ρ) (evs : List Ev),
      concLe (run cfg evs).inFlight.length cfg.concurrency) ∧
    (∀ (cfg : ItCfg α β ε) (evs : List ItEv),
      concLe (runningHandles (itRun cfg evs)) cfg.backpressure) :=
  ⟨fun cfg evs => pMap_inFlight_le_concurrency cfg evs,
   fun cfg evs => pMapIterable_running_le_backpressure cfg evs⟩

/-- C3 counterexample: in `pMapIterable` with six items, `concurrency = 2`
and `backpressure = 4`, a schedule reaches a state with three running
mappers, exceeding the concurrency bound: `runningMappersCount++` at line
340 happens only after the awaited `iterator.next()` resolves, so the
guard of line 328 admits pulls that later all become running mappers. -/
theorem C3_counterexample :
    runningHandles (itRun iterOverrunCfg iterOverrunEvs) = 3 ∧
    iterOverrunCfg.concurrency = Conc.fin 2 ∧
    ¬ concLe (runningHandles (itRun iterOverrunCfg iterOverrunEvs))
      iterOverrunCfg.concurrency := by
  refine ⟨by decide, rfl, ?_⟩
  intro hcon
  have h3 : runningHandles (itRun iterOverrunCfg iterOverrunEvs) = 3 := by
    decide
  rw [h3] at hcon
  have hle : (3 : Nat) ≤ 2 := hcon
  omega

/-- C4: with `stopOnError = true` and some failing mapper, the greedy
schedule rejects the promise with a raw (`Reason.plain`, unwrapped) error,
and under every schedule a raw rejection reason `e` is exactly the first
and only recorded failure: the failure log at rejection time is `[e]`, and
that log is the completion ordered record of observed mapper errors. -/
theorem C4_pMap_failFast_first_error (cfg : Cfg α β ε ρ) (inp : List α)
    (hsrc : cfg.source = listSource inp) (hsig : cfg.signal = none)
    (hconc : concPos cfg.concurrency) (hst : cfg.stopOnError = true)
    (hfail : ∃ i, i < inp.length ∧ (errOf cfg i).isSome = true) :
    (∃ e, (driveRun cfg (pFuel inp.length)).settledVal
      = some (.rejected (.plain e))) ∧
    (∀ evs e, (run cfg evs).settledVal = some (.rejected (.plain e)) →
      (run cfg evs).failLog = [e] ∧
      (run cfg evs).failLog
        = (run cfg evs).completedLog.filterMap (errOf cfg)) := by
  constructor
  · obtain ⟨hsome, hInv⟩ := pMap_driveRun_settles cfg inp hsrc hsig hconc
    rcases settled_classify cfg inp _ hInv hsome with
      ⟨_, hne⟩ | ⟨e, hv, _, _⟩ | ⟨es, _, hstf, _⟩
    · exfalso
      obtain ⟨i, _, hsome2⟩ := hfail
      rw [hne i] at hsome2
      exact Bool.noConfusion hsome2
    · exact ⟨e, hv⟩
    · exfalso
      rw [hst] at hstf
      exact Bool.noConfusion hstf
  · intro evs e hv
    have hInv := inv_run cfg inp hsrc hsig evs
    exact ⟨(hInv.plainChar e hv).2, hInv.failEq⟩

theorem C4_witness :
    failFastCfg.stopOnError = true ∧
    ∃ e, (driveRun failFastCfg (pFuel 3)).settledVal
      = some (.rejected (.plain e)) :=
  ⟨rfl, (C4_pMap_failFast_first_error failFastCfg [1, 2, 3] rfl rfl
    rfl rfl ⟨1, by decide, by decide⟩).1⟩

/-- C5: with `stopOnError = false` and `k ≥ 1` failing mappers, the greedy
schedule rejects with an `AggregateError` whose inner list has exactly as
many errors as there are failing input indices; and under every schedule,
an aggregate rejection happens only with every index completed, the source
exhausted and no mapper still resolving, and its inner list is the
completion ordered failure log of that exact length. -/
theorem C5_pMap_collect_aggregate (cfg : Cfg α β ε ρ) (inp : List α)
    (hsrc : cfg.source = listSource inp) (hsig : cfg.signal = none)
    (hconc : concPos cfg.concurrency) (hst : cfg.stopOnError = false)
    (hfail : ∃ i, i < inp.length ∧ (errOf cfg i).isSome = true) :
    (∃ es, (driveRun cfg (pFuel inp.length)).settledVal
        = some (.rejected (.aggregate es)) ∧
      es.length = ((List.range inp.length).filter
        fun i => (errOf cfg i).isSome).length) ∧
    (∀ evs es, (run cfg evs).settledVal
        = some (.rejected (.aggregate es)) →
      es = (run cfg evs).failLog ∧
      (run cfg evs).failLog
        = (run cfg evs).completedLog.filterMap (errOf cfg) ∧
      (∀ i, i ∈ (run cfg evs).completedLog ↔ i < inp.length) ∧
      (run cfg evs).isIterableDone = true ∧
      (run cfg evs).resolvingCount = 0 ∧
      es.length = ((List.range inp.length).filter
        fun i => (errOf cfg i).isSome).length) := by
  have hgen : ∀ s : St β ε ρ, Inv cfg inp s →
      ∀ es, s.settledVal = some (.rejected (.aggregate es)) →
      es = s.failLog ∧
      s.failLog = s.completedLog.filterMap (errOf cfg) ∧
      (∀ i, i ∈ s.completedLog ↔ i < inp.length) ∧
      s.isIterableDone = true ∧ s.resolvingCount = 0 ∧
      es.length = ((List.range inp.length).filter
        fun i => (errOf cfg i).isSome).length := by
    intro s hInv es hv
    obtain ⟨_, h2, _, h4, h5, h6⟩ := hInv.aggChar es hv
    refine ⟨h2, hInv.failEq, h4, h5, h6, ?_⟩
    rw [h2]
    exact failLog_length_of_all cfg inp s hInv h4
  constructor
  · obtain ⟨hsome, hInv⟩ := pMap_driveRun_settles cfg inp hsrc hsig hconc
    rcases settled_classify cfg inp _ hInv hsome with
      ⟨_, hne⟩ | ⟨e, _, hstt, _⟩ | ⟨es, hv, _⟩
    · exfalso
      obtain ⟨i, _, hsome2⟩ := hfail
      rw [hne i] at hsome2
      exact Bool.noConfusion hsome2
    · exfalso
      rw [hst] at hstt
      exact Bool.noConfusion hstt
    · obtain ⟨_, _, _, _, _, hlen⟩ := hgen _ hInv es hv
      exact ⟨es, hv, hlen⟩
  · intro evs es hv
    exact hgen _ (inv_run cfg inp hsrc hsig evs) es hv

theorem C5_witness :
    collectCfg.stopOnError = false ∧
    ((List.range 3).filter fun i => (errOf collectCfg i).isSome).length
      = 2 ∧
    ∃ es, (driveRun collectCfg (pFuel 3)).settledVal
        = some (.rejected (.aggregate es)) ∧
      es.length = ((List.range 3).filter
        fun i => (errOf collectCfg i).isSome).length :=
  ⟨rfl, by decide, (C5_pMap_collect_aggregate collectCfg [1, 2, 3] rfl rfl
    rfl rfl ⟨1, by decide, by decide⟩).1⟩

/-- C6: both entry points report a `TypeError` from the synchronous
validation prefix — the error result carries no scheduler state, so no
item was pulled and no mapper invoked — whenever the source supports
neither iteration protocol, the mapper is not a function, or the
concurrency is not a positive integer or `Infinity`; `pMapIterable`
additionally whenever the backpressure is not a positive integer or
`Infinity` or is less than the concurrency. -/
theorem C6_validation_type_errors :
    (∀ (it : IterableArg) (m : MapperArg) (c : JsNum)
        (cfg : Cfg α β ε ρ) (evs : List Ev),
      (¬ (it.hasSymbolIterator = true ∨ it.hasSymbolAsyncIterator = true) ∨
        m.isFunction = false ∨ ¬ jsPosIntOrInf c) →
      ∃ err, pMapChecked it m c cfg evs = .error err) ∧
    (∀ (it : IterableArg) (m : MapperArg) (c b : JsNum)
        (cfg : ItCfg α β ε) (evs : List ItEv),
      (¬ (it.hasSymbolIterator = true ∨ it.hasSymbolAsyncIterator = true) ∨
        m.isFunction = false ∨ ¬ jsPosIntOrInf c ∨
        ¬ jsPosIntOrInf b ∨ jsLt b c = true) →
      ∃ err, pMapIterableChecked it m c b cfg evs = .error err) := by
  constructor
  · intro it m c cfg evs h
    have hv := validatePMap_isSome it m c h
    obtain ⟨err, herr⟩ := Option.isSome_iff_exists.mp hv
    exact ⟨err, pMapChecked_error it m c err herr cfg evs⟩
  · intro it m c b cfg evs h
    have hv := validatePMapIterable_isSome it m c b h
    obtain ⟨err, herr⟩ := Option.isSome_iff_exists.mp hv
    exact ⟨err, pMapIterableChecked_error it m c b err herr cfg evs⟩

theorem C6_witness :
    (∃ err, pMapChecked
      { hasSymbolIterator := false, hasSymbolAsyncIterator := false }
      { isFunction := true } (.finite 2) emptyCfg ([] : List Ev)
      = .error err) ∧
    (∃ err, pMapIterableChecked
      { hasSymbolIterator := true, hasSymbolAsyncIterator := false }
      { isFunction := true } (.finite 2) (.finite 1) iterEmptyCfg
      ([] : List ItEv) = .error err) :=
  ⟨(@C6_validation_type_errors Nat Nat Nat Nat).1 _ _ _ emptyCfg []
     (Or.inl (by decide)),
   (@C6_validation_type_errors Nat Nat Nat Nat).2 _ _ _ _ iterEmptyCfg []
     (Or.inr (Or.inr (Or.inr (Or.inr (by decide)))))⟩

/-- C7: with an abort signal supplied: if it is already triggered at call
time, every schedule leaves the promise rejected with the signal's reason
with no item pulled and no mapper invoked; if it triggers while the call
is unsettled in flight, the promise rejects with the signal's reason — an
`abortReason`, not a mapper error — and the firing neither removes in
flight mappers nor changes the resolving counter. -/
theorem C7_pMap_abort (cfg : Cfg α β ε ρ) (r : ρ)
    (hs : cfg.signal = some r) :
    (cfg.preAborted = true → ∀ evs : List Ev,
      (run cfg evs).settledVal = some (.rejected (.abortReason r)) ∧
      (run cfg evs).mapperCalls = 0 ∧
      (run cfg evs).pullCount = 0) ∧
    (cfg.preAborted = false → ∀ pre post : List Ev,
      (run cfg pre).settledVal = none →
      (run cfg pre).abortFired = false →
      (run cfg (pre ++ .abortFire :: post)).settledVal
        = some (.rejected (.abortReason r)) ∧
      (run cfg (pre ++ [.abortFire])).inFlight = (run cfg pre).inFlight ∧
      (run cfg (pre ++ [.abortFire])).resolvingCount
        = (run cfg pre).resolvingCount) := by
  constructor
  · intro hp evs
    exact pMap_preAborted_run cfg r hs hp evs
  · intro hp pre post hun hf
    exact pMap_abort_midFlight cfg r hs hp pre post hun hf

theorem C7_witness :
    (run preAbortedCfg [Ev.init]).settledVal
      = some (.rejected (.abortReason 42)) ∧
    (run signalCfg [Ev.init, Ev.abortFire]).settledVal
      = some (.rejected (.abortReason 42)) :=
  ⟨((C7_pMap_abort preAbortedCfg 42 rfl).1 rfl [Ev.init]).1,
   ((C7_pMap_abort signalCfg 42 rfl).2 rfl [Ev.init] [] (by decide)
     (by decide)).1⟩

/-- C8: the code does not surface a source throw per the active policy.
Collect mode, concurrency 1, a source that yields one item and then
throws: after the completion of the first task, the promise is unsettled
and stays unsettled under every further schedule — the chained pull's
catch decremented `resolvingCount` a second time for the same task (lines
217 and 224), leaving it at -1, so the shutdown test `resolvingCount === 0`
of line 169 can never fire and the collected error is never surfaced in
an aggregate.  A throw on the very first pull in collect mode rejects raw
(line 251), not via the aggregate; under fail fast the raw rejection
matches the claim. -/
theorem C8_pMap_sourceThrow (evs : List Ev) :
    (run hangCfg ([.init, .init, .complete 0] ++ evs)).settledVal = none ∧
    (run hangCfg [.init, .init, .complete 0]).errors = [9] ∧
    (run hangCfg [.init, .init, .complete 0]).resolvingCount = -1 ∧
    (run hangCfg [.init, .init, .complete 0]).isIterableDone = true ∧
    (run rampThrowCfg [.init]).settledVal
      = some (.rejected (.plain 9)) ∧
    (run rampThrowFailFastCfg [.init]).settledVal
      = some (.rejected (.plain 9)) := by
  obtain ⟨h1, h2, h3, h4, _⟩ := pMap_collect_sourceThrow_hangs evs
  exact ⟨h1, h2, h3, h4, pMap_collect_rampThrow_raw.1,
    pMap_failFast_rampThrow_raw⟩

/-- C9: in `pMapIterable` the handle queue — pending pulls, running
mappers and completed but unconsumed outcomes — never exceeds the
backpressure bound under any schedule, and validation admits only
`backpressure >= concurrency` (in JavaScript ordering), checked at entry
before the generator starts. -/
theorem C9_pMapIterable_backpressure :
    (∀ (cfg : ItCfg α β ε) (evs : List ItEv),
      concLe (itRun cfg evs).promises.length cfg.backpressure) ∧
    (∀ (it : IterableArg) (m : MapperArg) (c b : JsNum),
      validatePMapIterable it m c b = none → jsGe b c = true) :=
  ⟨fun cfg evs => itRun_queueBound cfg evs,
   fun it m c b h => validatePMapIterable_ge it m c b h⟩

/-- C10: on an empty input, `pMap` resolves to the empty array under the
greedy schedule and invokes no mapper under any schedule; and a streaming
source that never yields an item produces an async iterable that yields
nothing, raises nothing and never invokes the mapper under any schedule,
and completes: some schedule ends the generator (`finished = true`) with
no value yielded, no mapper invoked and nothing raised. -/
theorem C10_empty_input (cfg : Cfg α β ε ρ)
    (hsrc : cfg.source = listSource ([] : List α))
    (hsig : cfg.signal = none) (hconc : concPos cfg.concurrency) :
    (driveRun cfg (pFuel 0)).settledVal = some (.ok []) ∧
    (driveRun cfg (pFuel 0)).mapperCalls = 0 ∧
    (∀ evs, (run cfg evs).mapperCalls = 0) ∧
    (∀ (icfg : ItCfg α β ε), (∀ k, icfg.source k = none) →
      (∀ ievs, (itRun icfg ievs).output = [] ∧
        (itRun icfg ievs).mapperCalls = 0 ∧
        (itRun icfg ievs).raised = none) ∧
      (∃ ievs, (itRun icfg ievs).finished = true ∧
        (itRun icfg ievs).output = [] ∧
        (itRun icfg ievs).mapperCalls = 0 ∧
        (itRun icfg ievs).raised = none)) := by
  have hzero : ∀ s : St β ε ρ, Inv cfg ([] : List α) s →
      s.completedLog = [] := by
    intro s hInv
    cases hlog : s.completedLog with
    | nil => rfl
    | cons j t =>
        exfalso
        have hj := hInv.logSub j (by rw [hlog]; exact List.mem_cons_self j t)
        simp at hj
  refine ⟨?_, ?_, ?_, ?_⟩
  · obtain ⟨hsome, hInv⟩ := pMap_driveRun_settles cfg [] hsrc hsig hconc
    rcases settled_classify cfg [] _ hInv hsome with
      ⟨hok, _⟩ | ⟨e, _, _, hfl⟩ | ⟨es, _, _, hes, hne, _⟩
    · exact hok
    · exfalso
      have hfe := hInv.failEq
      rw [hzero _ hInv] at hfe
      rw [hfl] at hfe
      exact List.noConfusion hfe
    · exfalso
      apply hne
      rw [hes, hInv.failEq, hzero _ hInv]
      rfl
  · obtain ⟨_, hInv⟩ := pMap_driveRun_settles cfg [] hsrc hsig hconc
    have h := hInv.mcEq
    rw [hzero _ hInv] at h
    exact h
  · intro evs
    have hInv := inv_run cfg [] hsrc hsig evs
    rw [hInv.mcEq, hzero _ hInv]
    rfl
  · intro icfg hempty
    constructor
    · intro ievs
      obtain ⟨h1, h2, h3, _⟩ := iterNoItem_inv icfg hempty ievs
      exact ⟨h1, h2, h3⟩
    · exact iterEmpty_finishes icfg hempty

theorem C10_witness :
    (driveRun emptyCfg (pFuel 0)).settledVal = some (.ok []) ∧
    (driveRun emptyCfg (pFuel 0)).mapperCalls = 0 ∧
    (itRun iterEmptyCfg [.pullResolve 0, .consume]).output = [] ∧
    (itRun iterEmptyCfg [.pullResolve 0, .consume]).mapperCalls = 0 ∧
    (itRun iterEmptyCfg [.pullResolve 0, .consume]).finished = true ∧
    (∃ ievs, (itRun iterEmptyCfg ievs).finished = true ∧
      (itRun iterEmptyCfg ievs).output = []) := by
  obtain ⟨h1, h2, _, h4⟩ := C10_empty_input emptyCfg rfl rfl rfl
  obtain ⟨hsafe, hfin⟩ := h4 iterEmptyCfg (fun _ => rfl)
  obtain ⟨h5, h6, _⟩ := hsafe [.pullResolve 0, .consume]
  obtain ⟨ievs, hf1, hf2, _⟩ := hfin
  exact ⟨h1, h2, h5, h6, rfl, ievs, hf1, hf2⟩

end PMapSpec
